import Mathlib

/-! # InputSequence editor plugin: graph compilation and schema rules

A shallow embedding of `InputSequenceGraphSchema.cpp`.

Object model.  `UEdGraphNode*` pointers are addresses (`Nat`) into the list of
node objects of a graph; an address outside that list plays the role of a null
pointer.  A pin pointer is the address of the owning node together with the
position of the pin in that node's `Pins` array.  The `Pins` array of a node
holds the pin objects themselves, so its entries are never null (`PreSave`
dereferences them unguarded).  `FName` and `FString` are modelled by `String`
and compared exactly.  `TArray` and `TQueue` are lists, `TSet` is a
duplicate-free list, `TMap` an association list with unique keys.  The `int32`
counters of `PreSave` (`DepthIndex`, state indices) are unbounded integers: they
count states and path lengths, which stay far below `2^31` in any array the
engine can hold.
-/

namespace InputSequence

/-! ## Host types -/

abbrev FName := String

abbrev FGuid := Nat

inductive EEdGraphPinDirection where
  | EGPD_Input
  | EGPD_Output
deriving DecidableEq, Repr

/-- Pointer to a pin: `Owner` is the value of `GetOwningNode()` (an address),
`Index` the position of the pin in the owner's `Pins` array. -/
structure PinRef where
  Owner : Nat
  Index : Nat
deriving DecidableEq, Repr

structure UEdGraphPin where
  PinName : FName
  PinCategory : FName
  Direction : EEdGraphPinDirection
  LinkedTo : List PinRef
deriving DecidableEq, Repr

/-- The dynamic class of a node object.  `Input` is the common base of `Press`,
`Release` and `Axis`; `Comment` is the engine's comment node and `Other` any
other engine node class. -/
inductive NodeClass where
  | Start
  | GoToStart
  | Hub
  | Input
  | Press
  | Release
  | Axis
  | Comment
  | Other
deriving DecidableEq, Repr

/-- A `Cast<UInputSequenceGraphNode_Input>` succeeds on `Input` and its subclasses. -/
def NodeClass.IsInput : NodeClass → Bool
  | .Input | .Press | .Release | .Axis => true
  | _ => false

/-- A node object.  `PinsInputActions` is the map of `UInputSequenceGraphNode_Input`
from pin names to input action objects (addresses); it stays empty on other nodes. -/
structure UEdGraphNode where
  Class : NodeClass
  NodeGuid : FGuid
  Pins : List UEdGraphPin
  NodePosX : Int
  NodePosY : Int
  PinsInputActions : List (FName × Nat)
deriving DecidableEq, Repr

/-- The components of an `FVector`: doubles, each given by the rational number it
denotes. -/
structure FVector where
  X : ℚ
  Y : ℚ
  Z : ℚ
deriving DecidableEq, Repr

/-- A graph: `Objects` are the node objects by address, `Nodes` is the `Nodes`
array of the graph (addresses).  `DefaultValues` holds, by pin pointer, the
vector that `InitFromString` reads from the pin's default string
(`GetDefaultAsString`); a pin without an entry has the zero vector, which is
what `InitFromString` leaves for a string it cannot parse. -/
structure UEdGraph where
  Objects : List UEdGraphNode
  Nodes : List Nat
  DefaultValues : List (PinRef × FVector) := []
deriving DecidableEq, Repr

/-- Why a run of the model yields no result: a null pointer was dereferenced
(or an array indexed out of range), or the recursion/loop budget ran out. -/
inductive Fault where
  | nullDeref
  | outOfFuel
deriving DecidableEq, Repr

instance decEqExcept {ε α : Type} [DecidableEq ε] [DecidableEq α] : DecidableEq (Except ε α)
  | .ok a, .ok b =>
    if h : a = b then isTrue (by rw [h]) else isFalse (fun h' => h (by cases h'; rfl))
  | .error e, .error f =>
    if h : e = f then isTrue (by rw [h]) else isFalse (fun h' => h (by cases h'; rfl))
  | .ok _, .error _ => isFalse (fun h' => by cases h')
  | .error _, .ok _ => isFalse (fun h' => by cases h')

/-! ## Containers -/

/-- Embeds `TSet::Add`. -/
def TSet.Add {α : Type} [DecidableEq α] (s : List α) (a : α) : List α :=
  if a ∈ s then s else s ++ [a]

/-- Embeds `TSet::Remove`. -/
def TSet.Remove {α : Type} [DecidableEq α] (s : List α) (a : α) : List α :=
  s.filter (fun b => decide (b ≠ a))

/-- Embeds `TMap::Add`: replaces the value of an existing key, else adds a pair. -/
def TMap.Add {κ ν : Type} [DecidableEq κ] : List (κ × ν) → κ → ν → List (κ × ν)
  | [], k, v => [(k, v)]
  | (k', v') :: m, k, v => if k' = k then (k, v) :: m else (k', v') :: TMap.Add m k v

/-- Embeds `TMap::Find` (also decides `TMap::Contains`). -/
def TMap.Find {κ ν : Type} [DecidableEq κ] : List (κ × ν) → κ → Option ν
  | [], _ => none
  | (k', v') :: m, k => if k' = k then some v' else TMap.Find m k

/-! ## Schema constants (lines 46, 503-513) -/

def separator : String := " ^ "

def PC_Exec : FName := "UInputSequenceGraphSchema_PC_Exec"

def PC_Action : FName := "UInputSequenceGraphSchema_PC_Action"

def PC_Add : FName := "UInputSequenceGraphSchema_PC_Add"

def PC_2DAxis : FName := "UInputSequenceGraphSchema_PC_2DAxis"

def PC_Axis : FName := "UInputSequenceGraphSchema_PC_Axis"

def PC_HubAdd : FName := "UInputSequenceGraphSchema_PC_HubAdd"

/-! ## `FString::Split` -/

/-- Embeds `FString::Find` from the start: the first position at which `sub`
occurs in `s`.  The engine's search ignores case by default, which makes no
difference for a pattern without letters such as the separator. -/
def FString.Find : List Char → List Char → Option Nat
  | [], sub => if sub = [] then some 0 else none
  | c :: s, sub =>
    if sub.isPrefixOf (c :: s) then some 0
    else (FString.Find s sub).map (fun i => i + 1)

/-- Embeds `FString::Split(InS, &lhs, &rhs)`: splits at the first occurrence of `InS`;
`none` stands for the return value `false`. -/
def FString.Split (s InS : String) : Option (String × String) :=
  match FString.Find s.data InS.data with
  | none => none
  | some pos => some (⟨s.data.take pos⟩, ⟨s.data.drop (pos + InS.data.length)⟩)

/-! ## `GetNextNodes` (lines 196-224) -/

/-- Embeds `GetNextNodes(node, outNextNodes)`.  The first argument bounds the depth of
the recursion through Hub nodes. -/
def GetNextNodes (g : UEdGraph) : Nat → Nat → List Nat → Except Fault (List Nat)
  | 0, _, _ => .error .outOfFuel
  | fuel + 1, node, outNextNodes =>
    match g.Objects[node]? with
    | none => .ok outNextNodes
    | some n =>
      n.Pins.foldlM (fun out pin =>
        if pin.PinCategory = PC_Exec ∧ pin.Direction = .EGPD_Output then
          pin.LinkedTo.foldlM (fun out linkedPin =>
            match g.Objects[linkedPin.Owner]? with
            | none => .ok out
            | some linkedNode =>
              if linkedNode.Class = .Hub then GetNextNodes g fuel linkedPin.Owner out
              else .ok (out ++ [linkedPin.Owner])) out
        else .ok out) outNextNodes

/-! ## `UInputSequenceGraph::PreSave` (lines 226-417) -/

inductive EInputEvent where
  | IE_Pressed
  | IE_Released
deriving DecidableEq, Repr

/-- The event list of an `FInputActionState`.  The numeric payload of axis
entries is not part of this record; the angular range of a 2D axis entry is
computed by `AngularRange` below. -/
structure FInputActionState where
  InputEvents : List EInputEvent
deriving DecidableEq, Repr

def waitForPressAndRelease : FInputActionState := ⟨[.IE_Pressed, .IE_Released]⟩

def waitForPress : FInputActionState := ⟨[.IE_Pressed]⟩

def waitForRelease : FInputActionState := ⟨[.IE_Released]⟩

/-- The fields of `FInputSequenceState` that `PreSave` computes from the shape
of the graph.  The fields copied verbatim from node properties (state object,
context, event classes, time parameters) are left out. -/
structure FInputSequenceState where
  DepthIndex : Int
  FirstLayerParentIndex : Int
  PressedActions : List FName
  IsInputNode : Bool
  IsAxisNode : Bool
  InputActions : List (FName × FInputActionState)
  NextIndice : List Nat
deriving DecidableEq, Repr

def INDEX_NONE : Int := -1

structure FNodesQueueEntry where
  Node : Nat
  DepthIndex : Int
  FirstLayerParentIndex : Int
  PressedActions : List FName
deriving DecidableEq, Repr

/-- Lines 296-313: the pins of a Press node. -/
def PressPins (pins : List UEdGraphPin) (state : FInputSequenceState) (pressedActions : List FName) :
    FInputSequenceState × List FName :=
  pins.foldl (fun (acc : FInputSequenceState × List FName) pin =>
    if pin.PinCategory = PC_Action then
      if pin.LinkedTo.length = 0 then
        ({ acc.1 with InputActions := TMap.Add acc.1.InputActions pin.PinName waitForPressAndRelease }, acc.2)
      else
        ({ acc.1 with InputActions := TMap.Add acc.1.InputActions pin.PinName waitForPress },
          TSet.Add acc.2 pin.PinName)
    else acc) (state, pressedActions)

/-- Lines 317-327: the pins of a Release node. -/
def ReleasePins (pins : List UEdGraphPin) (state : FInputSequenceState) (pressedActions : List FName) :
    FInputSequenceState × List FName :=
  pins.foldl (fun (acc : FInputSequenceState × List FName) pin =>
    if pin.PinCategory = PC_Action then
      ({ acc.1 with
          InputActions := TMap.Add acc.1.InputActions pin.PinName waitForRelease
          PressedActions := TSet.Remove acc.1.PressedActions pin.PinName },
        TSet.Remove acc.2 pin.PinName)
    else acc) (state, pressedActions)

/-- Lines 339-385: the keys that the pins of an Axis node add to `InputActions`
(keys only, see `FInputActionState`).  The angle computation of lines 357-376
with its loop is `AxisAngles` below; the queue loop runs it before the state
is built, so that an iteration whose angle loop does not exit yields no state. -/
def AxisPins (pins : List UEdGraphPin) (state : FInputSequenceState) : FInputSequenceState :=
  pins.foldl (fun (acc : FInputSequenceState) pin =>
    if pin.PinCategory = PC_Axis then
      { acc with InputActions := TMap.Add acc.InputActions pin.PinName ⟨[]⟩ }
    else if pin.PinCategory = PC_2DAxis then
      match FString.Split pin.PinName separator with
      | some _ => { acc with InputActions := TMap.Add acc.InputActions pin.PinName ⟨[]⟩ }
      | none => acc
    else acc) state

/-- Lines 264-391: the state emplaced for a dequeued entry, and the local
`pressedActions` handed on to the successors. -/
def EmplaceState (node : UEdGraphNode) (entry : FNodesQueueEntry) :
    FInputSequenceState × List FName :=
  let state : FInputSequenceState :=
    { DepthIndex := entry.DepthIndex
      FirstLayerParentIndex := entry.FirstLayerParentIndex
      PressedActions := entry.PressedActions
      IsInputNode := false
      IsAxisNode := false
      InputActions := []
      NextIndice := [] }
  let pressedActions := entry.PressedActions
  if node.Class.IsInput then
    let state := { state with IsInputNode := true }
    if node.Class = .Press then PressPins node.Pins state pressedActions
    else if node.Class = .Release then ReleasePins node.Pins state pressedActions
    else if node.Class = .Axis then (AxisPins node.Pins { state with IsAxisNode := true }, pressedActions)
    else (state, pressedActions)
  else (state, pressedActions)

/-! ## Double arithmetic and the angle range of a 2D axis pin (lines 351-376)

A `double` is given by the rational number it denotes.  Every operation
rounds the exact result to the nearest number with 53 significant bits, ties to
even (IEEE 754 binary64).  The values met in lines 357-376 come from `float`
entry boxes and stay in the normal range of `double`, so overflow, subnormal
numbers and NaN play no part. -/

/-- Embeds `FMath::Min`. -/
def FMath.Min {K : Type} [LinearOrder K] (A B : K) : K := if A < B then A else B

/-- Embeds `FMath::Max`. -/
def FMath.Max {K : Type} [LinearOrder K] (A B : K) : K := if B < A then A else B

/-- Rounds to the nearest integer, a tie to the even one. -/
def RoundHalfEven (x : ℚ) : ℤ :=
  if x - ⌊x⌋ < 1 / 2 then ⌊x⌋
  else if 1 / 2 < x - ⌊x⌋ then ⌊x⌋ + 1
  else if ⌊x⌋ % 2 = 0 then ⌊x⌋ else ⌊x⌋ + 1

/-- The `double` nearest to `q`: with `2 ^ E ≤ |q| < 2 ^ (E + 1)`, the multiple of
`2 ^ (E - 52)` nearest to `q`, a tie going to the even multiple. -/
def RoundToDouble (q : ℚ) : ℚ :=
  if q = 0 then 0
  else (RoundHalfEven (q / (2 : ℚ) ^ (Int.log 2 |q| - 52)) : ℚ) * (2 : ℚ) ^ (Int.log 2 |q| - 52)

/-- The constant `UE_DOUBLE_PI`: the `double` `0x1.921fb54442d18p+1`. -/
def DOUBLE_PI : ℚ := 884279719003555 / 281474976710656

/-- The constant `DOUBLE_TWO_PI`: the `double` `0x1.921fb54442d18p+2`. -/
def DOUBLE_TWO_PI : ℚ := 884279719003555 / 140737488355328

/-- The constant `DOUBLE_HALF_PI`: the `double` `0x1.921fb54442d18p+0`. -/
def DOUBLE_HALF_PI : ℚ := 884279719003555 / 562949953421312

/-- Embeds `FMath::DegreesToRadians(double)`: `DegVal * (UE_DOUBLE_PI / 180.0)`. -/
def DegreesToRadiansDouble (DegVal : ℚ) : ℚ :=
  RoundToDouble (DegVal * RoundToDouble (DOUBLE_PI / 180))

/-- Lines 371-375: the loop that shifts the range up by full turns, in `double`
arithmetic; the first argument bounds the number of iterations. -/
def ShiftRangeDouble : Nat → ℚ → ℚ → Except Fault (ℚ × ℚ)
  | 0, startAngleRad, endAngleRad =>
    if startAngleRad < -DOUBLE_HALF_PI then .error .outOfFuel
    else .ok (startAngleRad, endAngleRad)
  | n + 1, startAngleRad, endAngleRad =>
    if startAngleRad < -DOUBLE_HALF_PI then
      ShiftRangeDouble n (RoundToDouble (startAngleRad + DOUBLE_TWO_PI))
        (RoundToDouble (endAngleRad + DOUBLE_TWO_PI))
    else .ok (startAngleRad, endAngleRad)

/-- Lines 357-376: `(startAngleRad, endAngleRad)` for the default value of a 2D
axis pin, in `double` arithmetic. -/
def AngularRangeDouble (fuel : Nat) (Value : FVector) : Except Fault (ℚ × ℚ) :=
  let xRad := DegreesToRadiansDouble Value.X
  let yRad := DegreesToRadiansDouble Value.Y
  let startAngleRad := FMath.Min xRad yRad
  let endAngleRad := FMath.Max xRad yRad
  if RoundToDouble (endAngleRad - startAngleRad) > DOUBLE_TWO_PI then
    .ok (-DOUBLE_HALF_PI, RoundToDouble (DOUBLE_HALF_PI * 3))
  else ShiftRangeDouble fuel startAngleRad endAngleRad

/-- Lines 353-356: the vector read from the default string of the pin behind a
pin pointer. -/
def GetDefaultAsVector (g : UEdGraph) (pin : PinRef) : FVector :=
  match TMap.Find g.DefaultValues pin with
  | some Value => Value
  | none => ⟨0, 0, 0⟩

/-- Lines 339-385 on the pins of the Axis node at address `a`, from pin index `i`
on: the angle ranges computed for the `PC_2DAxis` pins, in pin order. -/
def AxisAnglesFrom (g : UEdGraph) (fuel a : Nat) : Nat → List UEdGraphPin →
    Except Fault (List (ℚ × ℚ))
  | _, [] => .ok []
  | i, pin :: pins =>
    if pin.PinCategory = PC_Axis then AxisAnglesFrom g fuel a (i + 1) pins
    else if pin.PinCategory = PC_2DAxis then
      match AngularRangeDouble fuel (GetDefaultAsVector g ⟨a, i⟩) with
      | .error f => .error f
      | .ok range =>
        match AxisAnglesFrom g fuel a (i + 1) pins with
        | .error f => .error f
        | .ok ranges => .ok (range :: ranges)
    else AxisAnglesFrom g fuel a (i + 1) pins

/-- Lines 335-385: the angle computations of one iteration of the queue loop, for
the dequeued node at address `a`; only an Axis node has any.  `fuel` bounds the
loop of lines 371-375. -/
def AxisAngles (g : UEdGraph) (fuel a : Nat) (node : UEdGraphNode) :
    Except Fault (List (ℚ × ℚ)) :=
  if node.Class = .Axis then AxisAnglesFrom g fuel a 0 node.Pins else .ok []

/-- The local variables of `PreSave` that live across iterations of the queue loop. -/
structure PreSaveVars where
  States : List FInputSequenceState
  linkedNodesMapping : List (List FGuid)
  indexMapping : List (FGuid × Nat)
  graphNodesQueue : List FNodesQueueEntry
deriving DecidableEq, Repr

/-- Embeds `linkedNode->NodeGuid`. -/
def NodeGuidOf (g : UEdGraph) (node : Nat) : Except Fault FGuid :=
  match g.Objects[node]? with
  | none => .error .nullDeref
  | some n => .ok n.NodeGuid

/-- Line 399: the entry enqueued for a linked node. -/
def ChildEntry (entry : FNodesQueueEntry) (emplacedIndex : Nat) (pressedActions : List FName)
    (linkedNode : Nat) : FNodesQueueEntry :=
  { Node := linkedNode
    DepthIndex := entry.DepthIndex + 1
    FirstLayerParentIndex :=
      if entry.FirstLayerParentIndex > 0 then entry.FirstLayerParentIndex else (emplacedIndex : Int)
    PressedActions := pressedActions }

/-- Lines 262-401: the queue loop.  `fuel` bounds every `GetNextNodes` call and
every run of the angle loop of lines 371-375, the second argument bounds the
number of iterations. -/
def PreSaveLoop (g : UEdGraph) (fuel : Nat) : Nat → PreSaveVars → Except Fault PreSaveVars
  | 0, vars =>
    match vars.graphNodesQueue with
    | [] => .ok vars
    | _ :: _ => .error .outOfFuel
  | k + 1, vars =>
    match vars.graphNodesQueue with
    | [] => .ok vars
    | entry :: rest =>
      match g.Objects[entry.Node]? with
      | none => .error .nullDeref
      | some node =>
        match AxisAngles g fuel entry.Node node with
        | .error f => .error f
        | .ok _ =>
          let emplacedIndex := vars.States.length
          let built := EmplaceState node entry
          match GetNextNodes g fuel entry.Node [] with
          | .error f => .error f
          | .ok linkedNodes =>
            match linkedNodes.mapM (NodeGuidOf g) with
            | .error f => .error f
            | .ok guids =>
              PreSaveLoop g fuel k
                { States := vars.States ++ [built.1]
                  linkedNodesMapping := vars.linkedNodesMapping ++ [guids]
                  indexMapping := TMap.Add vars.indexMapping node.NodeGuid emplacedIndex
                  graphNodesQueue :=
                    rest ++ linkedNodes.map (ChildEntry entry emplacedIndex built.2) }

/-- Lines 407-413: the indices added to `NextIndice` for the linked guids of one state. -/
def LinkedIndices (indexMapping : List (FGuid × Nat)) (guids : List FGuid) : List Nat :=
  guids.filterMap (fun linkedGuid => TMap.Find indexMapping linkedGuid)

/-- Lines 403-415: the pass that fills `NextIndice`. -/
def LinkStates (vars : PreSaveVars) : List FInputSequenceState :=
  vars.States.enum.map (fun (p : Nat × FInputSequenceState) =>
    match vars.linkedNodesMapping[p.1]? with
    | none => p.2
    | some guids => { p.2 with NextIndice := p.2.NextIndice ++ LinkedIndices vars.indexMapping guids })

/-- Embeds `PreSave`, for a graph owned by an input sequence asset: the `States` array
of the asset after the call. -/
def PreSave (g : UEdGraph) (fuel : Nat) : Except Fault (List FInputSequenceState) :=
  match g.Nodes[0]? with
  | none => .error .nullDeref
  | some root =>
    match PreSaveLoop g fuel fuel
        { States := []
          linkedNodesMapping := []
          indexMapping := []
          graphNodesQueue := [⟨root, 0, INDEX_NONE, []⟩] } with
    | .error f => .error f
    | .ok vars => .ok (LinkStates vars)

/-! ## Exec paths -/

/-- The node reached from `a` by an exec path, given as the list of positions
chosen in the successive results of `GetNextNodes`. -/
def FollowPath (g : UEdGraph) (fuel : Nat) : Nat → List Nat → Option Nat
  | a, [] => some a
  | a, c :: cs =>
    match GetNextNodes g fuel a [] with
    | .ok l =>
      match l[c]? with
      | some b => FollowPath g fuel b cs
      | none => none
    | .error _ => none

/-! ## The emission trace of the queue loop -/

/-- Bookkeeping for one queue entry: the index of the state whose node enqueued
it, the exec path (choice positions) along which it was reached, and the
indices of the states on that path. -/
structure Emission where
  entry : FNodesQueueEntry
  parent : Nat
  path : List Nat
  anc : List Nat

/-- The entries enqueued while the state of `x` is emplaced at index `i`. -/
def Kids (x : Emission) (i : Nat) (pressed : List FName) (l : List Nat) : List Emission :=
  l.mapIdx (fun m c => ⟨ChildEntry x.entry i pressed c, i, x.path ++ [m], x.anc ++ [i]⟩)

/-- The loop invariant: `T` lists the entries enqueued so far, in order; the
first `vars.States.length` of them have been dequeued. -/
structure Inv (g : UEdGraph) (fuel root : Nat) (T : List Emission) (vars : PreSaveVars) : Prop where
  hqueue : vars.graphNodesQueue = (T.drop vars.States.length).map Emission.entry
  hlen : vars.States.length ≤ T.length
  hlnm : vars.linkedNodesMapping.length = vars.States.length
  hroot : T[0]? = some ⟨⟨root, 0, INDEX_NONE, []⟩, 0, [], []⟩
  hproc : ∀ (i : Nat) (x : Emission), i < vars.States.length → T[i]? = some x →
    ∃ obj l guids cs, g.Objects[x.entry.Node]? = some obj ∧
      vars.States[i]? = some (EmplaceState obj x.entry).1 ∧
      GetNextNodes g fuel x.entry.Node [] = .ok l ∧
      l.mapM (NodeGuidOf g) = .ok guids ∧
      vars.linkedNodesMapping[i]? = some guids ∧
      i < cs ∧
      ∀ m c, l[m]? = some c →
        T[cs + m]? = some ⟨ChildEntry x.entry i (EmplaceState obj x.entry).2 c, i,
          x.path ++ [m], x.anc ++ [i]⟩
  hparent : ∀ (j : Nat) (y : Emission), 0 < j → T[j]? = some y →
    y.parent < vars.States.length ∧ y.parent < j ∧
    ∃ (x : Emission) (obj : UEdGraphNode) (l : List Nat) (m : Nat), T[y.parent]? = some x ∧ g.Objects[x.entry.Node]? = some obj ∧
      GetNextNodes g fuel x.entry.Node [] = .ok l ∧ l[m]? = some y.entry.Node ∧
      y = ⟨ChildEntry x.entry y.parent (EmplaceState obj x.entry).2 y.entry.Node, y.parent,
        x.path ++ [m], x.anc ++ [y.parent]⟩
  hinj : ∀ (j j' : Nat) (x y : Emission), T[j]? = some x → T[j']? = some y → x.path = y.path → j = j'
  hfollow : ∀ (j : Nat) (y : Emission), T[j]? = some y → FollowPath g fuel root y.path = some y.entry.Node
  hsorted : ∀ (i j : Nat) (x y : Emission), i ≤ j → T[i]? = some x → T[j]? = some y →
    x.entry.DepthIndex ≤ y.entry.DepthIndex
  hbound : ∀ (j : Nat) (x y : Emission), T[vars.States.length]? = some x → T[j]? = some y →
    y.entry.DepthIndex ≤ x.entry.DepthIndex + 1
  hidx : ∀ (guid : FGuid) (j : Nat), TMap.Find vars.indexMapping guid = some j →
    j < vars.States.length ∧
    ∃ (x : Emission) (obj : UEdGraphNode), T[j]? = some x ∧ g.Objects[x.entry.Node]? = some obj ∧ obj.NodeGuid = guid
  hidx' : ∀ (i : Nat) (x : Emission) (obj : UEdGraphNode), i < vars.States.length → T[i]? = some x →
    g.Objects[x.entry.Node]? = some obj →
    ∃ j, TMap.Find vars.indexMapping obj.NodeGuid = some j

/-- The relation `BuiltFrom g s e`: `s` is the state that `PreSave` emplaces for the dequeued
entry `e`, whose node exists; `NextIndice` is filled in only by the final pass. -/
def BuiltFrom (g : UEdGraph) (s : FInputSequenceState) (e : FNodesQueueEntry) : Prop :=
  ∃ obj : UEdGraphNode, g.Objects[e.Node]? = some obj ∧
    s = { (EmplaceState obj e).1 with NextIndice := s.NextIndice }


/-! ## Pressed-action sets along a path (the wording of the specification) -/

/-- The names of the linked `PC_Action` pins of a node. -/
def LinkedActionNames (node : UEdGraphNode) : List FName :=
  (node.Pins.filter (fun pin => decide (pin.PinCategory = PC_Action ∧ pin.LinkedTo ≠ []))).map
    UEdGraphPin.PinName

/-- The names of all `PC_Action` pins of a node. -/
def ActionNames (node : UEdGraphNode) : List FName :=
  (node.Pins.filter (fun pin => decide (pin.PinCategory = PC_Action))).map UEdGraphPin.PinName

/-- What an ancestor does to the pressed set handed to its successors: a Press
node adds the names of its linked action pins, a Release node removes the names
of its action pins, any other node leaves the set as it is. -/
def PressedAfter (node : UEdGraphNode) (pressed : List FName) : List FName :=
  if node.Class = .Press then (LinkedActionNames node).foldl TSet.Add pressed
  else if node.Class = .Release then (ActionNames node).foldl TSet.Remove pressed
  else pressed

/-- What a state's own node does to its `PressedActions`: only a Release node
contributes, by removing the names of its action pins. -/
def PressedOwn (node : UEdGraphNode) (pressed : List FName) : List FName :=
  if node.Class = .Release then (ActionNames node).foldl TSet.Remove pressed else pressed

/-- The pressed set obtained by starting from the empty set and applying
`PressedAfter` for each ancestor, given as the list `anc` of state indices from
the first state down to the enqueuing state; `E` lists the entries the states
were built from. -/
def PressedAlong (g : UEdGraph) (E : List FNodesQueueEntry) (anc : List Nat) : List FName :=
  anc.foldl (fun pressed i =>
    match E[i]? with
    | none => pressed
    | some e =>
      match g.Objects[e.Node]? with
      | none => pressed
      | some obj => PressedAfter obj pressed) []

/-! ## Input-action requirements -/

/-- Successive `TMap::Add` of a list of pairs. -/
def TMap.AddAll {κ ν : Type} [DecidableEq κ] (m : List (κ × ν)) (kvs : List (κ × ν)) :
    List (κ × ν) :=
  kvs.foldl (fun m kv => TMap.Add m kv.1 kv.2) m

/-- The requirement a Press node registers for one of its action pins: press
and release when the pin has no link (CLICK mode), press only when it has at
least one link (PRESS mode). -/
def PressRequirement (pin : UEdGraphPin) : FInputActionState :=
  if pin.LinkedTo = [] then ⟨[.IE_Pressed, .IE_Released]⟩ else ⟨[.IE_Pressed]⟩

/-! ## `UInputSequenceGraphSchema` (lines 515-559) -/

inductive ECanCreateConnectionResponse where
  | CONNECT_RESPONSE_MAKE
  | CONNECT_RESPONSE_DISALLOW
  | CONNECT_RESPONSE_BREAK_OTHERS_A
  | CONNECT_RESPONSE_BREAK_OTHERS_B
  | CONNECT_RESPONSE_BREAK_OTHERS_AB
  | CONNECT_RESPONSE_MAKE_WITH_CONVERSION_NODE
  | CONNECT_RESPONSE_MAKE_WITH_PROMOTION
deriving DecidableEq, Repr

structure FPinConnectionResponse where
  Response : ECanCreateConnectionResponse
  Message : String
deriving DecidableEq, Repr

/-- What a non-null `const UEdGraphPin*` gives access to: the pin object and the
value of `GetOwningNode()` (`none` for a null owner). -/
structure PinPtr where
  OwningNode : Option Nat
  Pin : UEdGraphPin
deriving DecidableEq, Repr

/-- Embeds `UInputSequenceGraphSchema::CanCreateConnection(pinA, pinB)`; `none` is a
null pin pointer. -/
def CanCreateConnection (pinA pinB : Option PinPtr) : FPinConnectionResponse :=
  match pinA, pinB with
  | some a, some b =>
    if a.OwningNode = b.OwningNode then
      ⟨.CONNECT_RESPONSE_DISALLOW, "Both pins are on the same node"⟩
    else if a.Pin.Direction = b.Pin.Direction then
      ⟨.CONNECT_RESPONSE_DISALLOW, "Both pins have same direction (both input or both output)"⟩
    else if a.Pin.PinCategory ≠ b.Pin.PinCategory then
      ⟨.CONNECT_RESPONSE_DISALLOW,
        "The pin types are mismatched (Flow pins should be connected to Flow pins, Input Action pins - to Input Action pins)"⟩
    else ⟨.CONNECT_RESPONSE_BREAK_OTHERS_AB, ""⟩
  | _, _ => ⟨.CONNECT_RESPONSE_DISALLOW, "One or Both of the pins was null"⟩

/-- Embeds `Cast<T>(Node)` for the entries of `CurrentGraph->Nodes` (lines 59-63):
whether the graph holds a node of class `T`. -/
def HasNodeOfClass (g : UEdGraph) (T : NodeClass) : Bool :=
  g.Nodes.any (fun a =>
    match g.Objects[a]? with
    | none => false
    | some n => decide (n.Class = T))

/-- Embeds `AddNewActionIfHasNo<T>` (lines 56-67), on the list of node templates
offered so far. -/
def AddNewActionIfHasNo (g : UEdGraph) (T : NodeClass) (actions : List NodeClass) :
    List NodeClass :=
  if HasNodeOfClass g T then actions else actions ++ [T]

/-- Embeds `UInputSequenceGraphSchema::GetGraphContextActions`: the node templates of
the actions added to the context menu builder, for its `CurrentGraph` and
`FromPin` (`none` when there is no source pin). -/
def GetGraphContextActions (g : UEdGraph) (FromPin : Option UEdGraphPin) : List NodeClass :=
  let actions : List NodeClass := []
  let actions := actions ++ [.Axis]
  let actions := actions ++ [.Press]
  let actions :=
    match FromPin with
    | none => actions ++ [.GoToStart]
    | some pin => if pin.Direction = .EGPD_Output then actions ++ [.GoToStart] else actions
  let actions := actions ++ [.Hub]
  AddNewActionIfHasNo g .Start actions

/-! ## The angular range of a 2D axis pin (lines 357-376)

Stated over an arbitrary linearly ordered field `K` with the constant `pi`
passed in, so that the definitions can be run over the rationals and the
properties stated over the reals with `Real.pi`. -/

/-- Embeds `FMath::DegreesToRadians`. -/
def FMath.DegreesToRadians {K : Type} [LinearOrderedField K] (pi : K) (DegVal : K) : K :=
  DegVal * (pi / 180)

/-- Lines 371-375: the loop that shifts the range up by full turns; the first
argument bounds the number of iterations. -/
def ShiftRange {K : Type} [LinearOrderedField K] (pi : K) : Nat → K → K → Option (K × K)
  | 0, startAngleRad, endAngleRad =>
    if startAngleRad < -(pi / 2) then none else some (startAngleRad, endAngleRad)
  | n + 1, startAngleRad, endAngleRad =>
    if startAngleRad < -(pi / 2) then ShiftRange pi n (startAngleRad + 2 * pi) (endAngleRad + 2 * pi)
    else some (startAngleRad, endAngleRad)

/-- Lines 357-376: `(startAngleRad, endAngleRad)` for the angle values `X`, `Y`
(degrees) of a 2D axis pin. -/
def AngularRange {K : Type} [LinearOrderedField K] (pi : K) (fuel : Nat) (X Y : K) :
    Option (K × K) :=
  let xRad := FMath.DegreesToRadians pi X
  let yRad := FMath.DegreesToRadians pi Y
  let startAngleRad := FMath.Min xRad yRad
  let endAngleRad := FMath.Max xRad yRad
  if endAngleRad - startAngleRad > 2 * pi then some (-(pi / 2), pi / 2 * 3)
  else ShiftRange pi fuel startAngleRad endAngleRad

/-! ## `FInputSequenceAssetEditor::PasteNodes`: repositioning (lines 3670-3694)

Positions are `int32` pairs, the average and the paste location are
floating-point vectors; the model computes with exact rationals. -/

/-- Conversion of a floating-point value to `int32` on assignment: truncation
toward zero. -/
def TruncToInt (q : ℚ) : Int := if 0 ≤ q then ⌊q⌋ else ⌈q⌉

/-- Lines 3670-3694 on the positions `(NodePosX, NodePosY)` of the pasted
nodes, in iteration order: the positions after the assignment of line
3692-3693 and before `SnapToGrid`. -/
def PasteReposition (PastedNodes : List (Int × Int)) (Location : ℚ × ℚ) : List (Int × Int) :=
  let AvgNodePosition : ℚ × ℚ :=
    PastedNodes.foldl (fun (acc : ℚ × ℚ) Node => (acc.1 + Node.1, acc.2 + Node.2)) (0, 0)
  let AvgNodePosition : ℚ × ℚ :=
    if PastedNodes.length > 0 then
      let InvNumNodes : ℚ := 1 / (PastedNodes.length : ℚ)
      (AvgNodePosition.1 * InvNumNodes, AvgNodePosition.2 * InvNumNodes)
    else AvgNodePosition
  PastedNodes.map (fun Node =>
    (TruncToInt ((Node.1 - AvgNodePosition.1) + Location.1),
      TruncToInt ((Node.2 - AvgNodePosition.2) + Location.2)))

/-! ## Editing the graph: engine primitives

`UEdGraphPin::BreakLinkTo`, `BreakAllPinLinks`, `MakeLinkTo`,
`UEdGraphSchema::TryCreateConnection`, `UEdGraph::AddNode`, `RemoveNode` and
`UEdGraphNode::CreatePin`, `SnapToGrid` belong to the engine; they are modelled
after the engine's behaviour.  A pin pointer is null when its owner address is
not that of a node object. -/

def NAME_None : FName := "None"

/-- The pin object behind a pin pointer, when the owner's `Pins` array holds it. -/
def GetPin (g : UEdGraph) (ref : PinRef) : Option UEdGraphPin :=
  match g.Objects[ref.Owner]? with
  | none => none
  | some n => n.Pins[ref.Index]?

/-- Updates the node object at address `a`. -/
def ModifyNode (g : UEdGraph) (a : Nat) (f : UEdGraphNode → UEdGraphNode) : UEdGraph :=
  match g.Objects[a]? with
  | none => g
  | some n => { g with Objects := g.Objects.set a (f n) }

/-- Updates the pin object behind a pin pointer. -/
def ModifyPin (g : UEdGraph) (ref : PinRef) (f : UEdGraphPin → UEdGraphPin) : UEdGraph :=
  ModifyNode g ref.Owner (fun n =>
    match n.Pins[ref.Index]? with
    | none => n
    | some pin => { n with Pins := n.Pins.set ref.Index (f pin) })

/-- The pin with only those entries of `LinkedTo` kept that satisfy `keep`
(`LinkedTo.Remove(x)` keeps the entries different from `x`). -/
def KeepLinks (keep : PinRef → Bool) (p : UEdGraphPin) : UEdGraphPin :=
  { p with LinkedTo := p.LinkedTo.filter keep }

/-- Embeds `UEdGraphPin::HasAnyConnections`. -/
def HasAnyConnections (pin : UEdGraphPin) : Bool := decide (pin.LinkedTo.length > 0)

/-- Embeds `This->BreakLinkTo(ToPin)`. -/
def BreakLinkTo (g : UEdGraph) (This ToPin : PinRef) : UEdGraph :=
  match g.Objects[ToPin.Owner]? with
  | none => g
  | some _ =>
    match GetPin g This with
    | none => g
    | some pin =>
      if ToPin ∈ pin.LinkedTo then
        let g := ModifyPin g This (KeepLinks (fun r => decide (r ≠ ToPin)))
        ModifyPin g ToPin (KeepLinks (fun r => decide (r ≠ This)))
      else g

/-- Embeds `This->BreakAllPinLinks()`: the links are popped off a copy of `LinkedTo`. -/
def BreakAllPinLinks (g : UEdGraph) (This : PinRef) : UEdGraph :=
  match GetPin g This with
  | none => g
  | some pin => pin.LinkedTo.reverse.foldl (fun g OtherPin => BreakLinkTo g This OtherPin) g

/-- Embeds `This->MakeLinkTo(ToPin)`. -/
def MakeLinkTo (g : UEdGraph) (This ToPin : PinRef) : UEdGraph :=
  match g.Objects[ToPin.Owner]? with
  | none => g
  | some _ =>
    match GetPin g This with
    | none => g
    | some pin =>
      if ToPin ∈ pin.LinkedTo then g
      else
        let g := ModifyPin g This (fun p => { p with LinkedTo := p.LinkedTo ++ [ToPin] })
        ModifyPin g ToPin (fun p => { p with LinkedTo := p.LinkedTo ++ [This] })

/-- The argument handed to `CanCreateConnection` for a pin pointer. -/
def PinPtrOf (g : UEdGraph) (ref : PinRef) : Option PinPtr :=
  match GetPin g ref with
  | none => none
  | some pin => some ⟨some ref.Owner, pin⟩

/-- Embeds `UEdGraphSchema::TryCreateConnection(PinA, PinB)`, with the schema's
`CanCreateConnection`. -/
def TryCreateConnection (g : UEdGraph) (PinA PinB : PinRef) : UEdGraph :=
  match (CanCreateConnection (PinPtrOf g PinA) (PinPtrOf g PinB)).Response with
  | .CONNECT_RESPONSE_MAKE => MakeLinkTo g PinA PinB
  | .CONNECT_RESPONSE_BREAK_OTHERS_A => MakeLinkTo (BreakAllPinLinks g PinA) PinA PinB
  | .CONNECT_RESPONSE_BREAK_OTHERS_B => MakeLinkTo (BreakAllPinLinks g PinB) PinA PinB
  | .CONNECT_RESPONSE_BREAK_OTHERS_AB =>
    MakeLinkTo (BreakAllPinLinks (BreakAllPinLinks g PinA) PinB) PinA PinB
  | _ => g

/-- Embeds `UEdGraph::RemoveNode(node)`: takes the node out of `Nodes` and breaks all
links of its pins (`BreakAllNodeLinks`).  This is all that the base
`UEdGraphNode::DestroyNode` does. -/
def RemoveNode (g : UEdGraph) (node : Nat) : UEdGraph :=
  let g := { g with Nodes := g.Nodes.filter (fun a => decide (a ≠ node)) }
  match g.Objects[node]? with
  | none => g
  | some n => (List.range n.Pins.length).foldl (fun g i => BreakAllPinLinks g ⟨node, i⟩) g

/-- Embeds `node->DestroyNode()`, a virtual call: `UInputSequenceGraphNode_Press`
(lines 1043-1056) first destroys the node linked to each of its connected
action pins; every other class uses the base implementation.  The first
argument bounds the depth of the recursion. -/
def DestroyNode : Nat → UEdGraph → Nat → Except Fault UEdGraph
  | 0, _, _ => .error .outOfFuel
  | fuel + 1, g, node =>
    match g.Objects[node]? with
    | none => .error .nullDeref
    | some n =>
      if n.Class = .Press then
        match (List.range n.Pins.length).foldlM (fun (g : UEdGraph) (i : Nat) =>
            match GetPin g ⟨node, i⟩ with
            | none => Except.ok g
            | some FromPin =>
              if FromPin.PinCategory = PC_Action ∧ HasAnyConnections FromPin = true then
                match FromPin.LinkedTo[0]? with
                | none => Except.error Fault.nullDeref
                | some linked =>
                  match g.Objects[linked.Owner]? with
                  | none => Except.error Fault.nullDeref
                  | some _ => DestroyNode fuel g linked.Owner
              else Except.ok g) g with
        | .error f => .error f
        | .ok g => .ok (RemoveNode g node)
      else .ok (RemoveNode g node)

/-- Embeds `NewObject<T>(ParentGraph)` followed by `ParentGraph->AddNode(node)`: the
new object gets the next free address. -/
def AddNode (g : UEdGraph) (n : UEdGraphNode) : UEdGraph :=
  { g with Objects := g.Objects ++ [n], Nodes := g.Nodes ++ [g.Objects.length] }

/-- Embeds `node->CreatePin(Direction, Category, Name)`: appends a pin without links. -/
def CreatePin (g : UEdGraph) (node : Nat) (Direction : EEdGraphPinDirection) (Category : FName)
    (Name : FName) : UEdGraph :=
  ModifyNode g node (fun n => { n with Pins := n.Pins ++ [⟨Name, Category, Direction, []⟩] })

/-- Embeds `UInputSequenceGraphNode_Input::AllocateDefaultPins` (lines 1015-1019),
inherited by the Release node. -/
def Input_AllocateDefaultPins (g : UEdGraph) (node : Nat) : UEdGraph :=
  let g := CreatePin g node .EGPD_Input PC_Exec NAME_None
  CreatePin g node .EGPD_Output PC_Exec NAME_None

/-- Embeds `UInputSequenceGraphNode_Release::AutowireNewNode(FromPin)` (lines 1104-1111). -/
def Release_AutowireNewNode (g : UEdGraph) (node : Nat) (FromPin : PinRef) :
    Except Fault UEdGraph :=
  match GetPin g FromPin with
  | none => .error .nullDeref
  | some pin =>
    if pin.Direction = .EGPD_Output ∧ pin.PinCategory ≠ PC_Exec then
      match g.Objects[node]? with
      | none => .error .nullDeref
      | some n =>
        let OtherPin : PinRef := ⟨node, n.Pins.length⟩
        let g := CreatePin g node .EGPD_Input PC_Action pin.PinName
        .ok (TryCreateConnection g FromPin OtherPin)
    else .ok g

/-- Embeds `UEdGraphNode::SnapToGrid` on one coordinate: the nearest multiple of the
grid size (`GridSnapSize * RoundToInt(pos / GridSnapSize)`), for a positive
grid size. -/
def SnapToGrid (pos : Int) (GridSnapSize : Nat) : Int :=
  GridSnapSize * ((2 * pos + GridSnapSize) / (2 * GridSnapSize))

/-! ## `SGraphPin_Action`: the toggle button (lines 2385-2453) -/

/-- Embeds `SGraphPin_Action::ToolTipText_Raw_TogglePin`; the argument is `GetPinObj()`. -/
def ToolTipText_Raw_TogglePin (g : UEdGraph) (PinObj : Option PinRef) : String :=
  match PinObj with
  | none => "Invalid pin object!"
  | some FromPin =>
    match GetPin g FromPin with
    | none => "Invalid pin object!"
    | some pin =>
      if HasAnyConnections pin then "Click to set CLICK mode" else "Click to set PRESS mode"

/-- Embeds `SGraphPin_Action::OnClicked_Raw_TogglePin`: the graph after the click.  The
arguments are `GetPinObj()`, the GUID drawn by `CreateNewGuid` and the editor's
`GridSnapSize`; `fuel` bounds the recursion of `DestroyNode`. -/
def OnClicked_Raw_TogglePin (g : UEdGraph) (fuel : Nat) (PinObj : Option PinRef)
    (NewGuid : FGuid) (GridSnapSize : Nat) : Except Fault UEdGraph :=
  match PinObj with
  | none => .ok g
  | some FromPin =>
    match GetPin g FromPin, g.Objects[FromPin.Owner]? with
    | some pin, some FromNode =>
      if HasAnyConnections pin then
        match pin.LinkedTo[0]? with
        | none => .error .nullDeref
        | some linked =>
          match g.Objects[linked.Owner]? with
          | none => .error .nullDeref
          | some _ => DestroyNode fuel g linked.Owner
      else
        let ResultNode := g.Objects.length
        let g := AddNode g ⟨.Release, 0, [], 0, 0, []⟩
        let g := ModifyNode g ResultNode (fun n => { n with NodeGuid := NewGuid })
        let g := Input_AllocateDefaultPins g ResultNode
        match Release_AutowireNewNode g ResultNode FromPin with
        | .error f => .error f
        | .ok g =>
          let g := ModifyNode g ResultNode (fun n =>
            { n with NodePosX := FromNode.NodePosX + 300, NodePosY := FromNode.NodePosY })
          let g := ModifyNode g ResultNode (fun n =>
            { n with NodePosX := SnapToGrid n.NodePosX GridSnapSize,
                     NodePosY := SnapToGrid n.NodePosY GridSnapSize })
          if FromNode.Class.IsInput then
            match TMap.Find FromNode.PinsInputActions pin.PinName with
            | some InputAction =>
              .ok (ModifyNode g ResultNode (fun n =>
                { n with PinsInputActions :=
                    TMap.Add n.PinsInputActions pin.PinName InputAction }))
            | none => .ok g
          else .ok g
    | _, _ => .error .nullDeref

/-- The relation `NoLink p q g`: in `g` the pin `p` is not linked to `q`. -/
def NoLink (p q : PinRef) (g : UEdGraph) : Prop :=
  ∀ pin : UEdGraphPin, GetPin g p = some pin → q ∉ pin.LinkedTo

/-- What stays true while the links of a node are broken, for a pin `p` whose
only link goes to `q`: `Nodes` is untouched, `p` exists and links to nothing
but `q`, and as long as `p` still links to `q` the link back is there. -/
structure UnlinkInv (p q : PinRef) (Nodes0 : List Nat) (g : UEdGraph) : Prop where
  nodes : g.Nodes = Nodes0
  pin : ∃ pin : UEdGraphPin, GetPin g p = some pin ∧ ∀ x ∈ pin.LinkedTo, x = q
  link : NoLink p q g ∨ ∃ pq : UEdGraphPin, GetPin g q = some pq ∧ p ∈ pq.LinkedTo

/-! ## Sample graphs -/

/-- Start → Press → Hub → (Release → GoToStart, GoToStart); the Press node has a
linked action pin `Jump` (wired to the Release node) and an unlinked pin `Fire`. -/
def sampleGraph : UEdGraph :=
  { Objects :=
      [ ⟨.Start, 100, [⟨"", PC_Exec, .EGPD_Output, [⟨1, 0⟩]⟩], -300, 0, []⟩,
        ⟨.Press, 101,
          [⟨"", PC_Exec, .EGPD_Input, [⟨0, 0⟩]⟩, ⟨"", PC_Exec, .EGPD_Output, [⟨2, 0⟩]⟩,
            ⟨"Jump", PC_Action, .EGPD_Output, [⟨3, 2⟩]⟩, ⟨"Fire", PC_Action, .EGPD_Output, []⟩,
            ⟨"Add pin", PC_Add, .EGPD_Output, []⟩], 0, 0, []⟩,
        ⟨.Hub, 102,
          [⟨"", PC_Exec, .EGPD_Input, [⟨1, 1⟩]⟩, ⟨"1", PC_Exec, .EGPD_Output, [⟨3, 0⟩]⟩,
            ⟨"2", PC_Exec, .EGPD_Output, [⟨4, 0⟩]⟩, ⟨"Add pin", PC_HubAdd, .EGPD_Output, []⟩],
          300, 0, []⟩,
        ⟨.Release, 103,
          [⟨"", PC_Exec, .EGPD_Input, [⟨2, 1⟩]⟩, ⟨"", PC_Exec, .EGPD_Output, [⟨5, 0⟩]⟩,
            ⟨"Jump", PC_Action, .EGPD_Input, [⟨1, 2⟩]⟩], 600, 0, []⟩,
        ⟨.GoToStart, 104, [⟨"", PC_Exec, .EGPD_Input, [⟨2, 2⟩]⟩], 600, 200, []⟩,
        ⟨.GoToStart, 105, [⟨"", PC_Exec, .EGPD_Input, [⟨3, 1⟩]⟩], 900, 0, []⟩ ],
    Nodes := [0, 1, 2, 3, 4, 5] }

/-- The states `PreSave` emits for `sampleGraph`. -/
def sampleStates : List FInputSequenceState :=
  [ { DepthIndex := 0, FirstLayerParentIndex := -1, PressedActions := [], IsInputNode := false,
      IsAxisNode := false, InputActions := [], NextIndice := [1] },
    { DepthIndex := 1, FirstLayerParentIndex := 0, PressedActions := [], IsInputNode := true,
      IsAxisNode := false,
      InputActions := [("Jump", ⟨[.IE_Pressed]⟩), ("Fire", ⟨[.IE_Pressed, .IE_Released]⟩)],
      NextIndice := [2, 3] },
    { DepthIndex := 2, FirstLayerParentIndex := 1, PressedActions := [], IsInputNode := true,
      IsAxisNode := false, InputActions := [("Jump", ⟨[.IE_Released]⟩)], NextIndice := [4] },
    { DepthIndex := 2, FirstLayerParentIndex := 1, PressedActions := ["Jump"],
      IsInputNode := false, IsAxisNode := false, InputActions := [], NextIndice := [] },
    { DepthIndex := 3, FirstLayerParentIndex := 1, PressedActions := [], IsInputNode := false,
      IsAxisNode := false, InputActions := [], NextIndice := [] } ]

/-- Start → Press → GoToStart, a chain. -/
def chainGraph : UEdGraph :=
  { Objects :=
      [ ⟨.Start, 7, [⟨"", PC_Exec, .EGPD_Output, [⟨1, 0⟩]⟩], -300, 0, []⟩,
        ⟨.Press, 8,
          [⟨"", PC_Exec, .EGPD_Input, [⟨0, 0⟩]⟩, ⟨"", PC_Exec, .EGPD_Output, [⟨2, 0⟩]⟩,
            ⟨"Add pin", PC_Add, .EGPD_Output, []⟩], 0, 0, []⟩,
        ⟨.GoToStart, 9, [⟨"", PC_Exec, .EGPD_Input, [⟨1, 1⟩]⟩], 300, 0, []⟩ ],
    Nodes := [0, 1, 2] }

/-- The states `PreSave` emits for `chainGraph`. -/
def chainStates : List FInputSequenceState :=
  [ { DepthIndex := 0, FirstLayerParentIndex := -1, PressedActions := [], IsInputNode := false,
      IsAxisNode := false, InputActions := [], NextIndice := [1] },
    { DepthIndex := 1, FirstLayerParentIndex := 0, PressedActions := [], IsInputNode := true,
      IsAxisNode := false, InputActions := [], NextIndice := [2] },
    { DepthIndex := 2, FirstLayerParentIndex := 1, PressedActions := [], IsInputNode := false,
      IsAxisNode := false, InputActions := [], NextIndice := [] } ]

/-- The pin widget classes the factory instantiates with `SNew`. -/
inductive SGraphPinClass where
  | SGraphPin_HubExec
  | SGraphPinExec
  | SGraphPin_Action
  | SGraphPin_Add
  | SGraphPin_2DAxis
  | SGraphPin_Axis
  | SGraphPin_HubAdd
deriving DecidableEq, Repr

/-- What the factory reads of `InPin`: whether `InPin->GetSchema()` is a
`UInputSequenceGraphSchema`, the pin category, and the class of
`InPin->GetOwningNode()` (`none` for a null owner). -/
structure FactoryPin where
  SchemaIsInputSequence : Bool
  PinCategory : FName
  OwningNode : Option NodeClass
deriving DecidableEq, Repr

/-- Embeds `FInputSequenceGraphPinFactory::CreatePin` (lines 156-179); `none` is `nullptr`. -/
def FInputSequenceGraphPinFactory.CreatePin (InPin : FactoryPin) : Option SGraphPinClass :=
  if InPin.SchemaIsInputSequence then
    if InPin.PinCategory = PC_Exec then
      if InPin.OwningNode = some NodeClass.Hub then some .SGraphPin_HubExec
      else some .SGraphPinExec
    else if InPin.PinCategory = PC_Action then some .SGraphPin_Action
    else if InPin.PinCategory = PC_Add then some .SGraphPin_Add
    else if InPin.PinCategory = PC_2DAxis then some .SGraphPin_2DAxis
    else if InPin.PinCategory = PC_Axis then some .SGraphPin_Axis
    else if InPin.PinCategory = PC_HubAdd then some .SGraphPin_HubAdd
    else none
  else none

/-! ## `FInputSequenceAssetEditor::OnSelectionChanged` (lines 3388-3404) -/

/-- The object handed to `DetailsView->SetObject`: a node (by address) or the
input sequence asset of the editor. -/
inductive DetailsObject where
  | Node (a : Nat)
  | InputSequenceAsset
deriving DecidableEq, Repr

/-- Embeds `FInputSequenceAssetEditor::OnSelectionChanged` (lines 3388-3404): the
object shown by the details view afterwards.  `selectedNodes` lists the
selected objects by address, `*selectedNodes.begin()` is its first entry; the
casts fail on a null pointer. -/
def OnSelectionChanged (g : UEdGraph) (selectedNodes : List Nat) : DetailsObject :=
  if selectedNodes.length = 1 then
    match selectedNodes.head? with
    | none => .InputSequenceAsset
    | some a =>
      match g.Objects[a]? with
      | none => .InputSequenceAsset
      | some n =>
        if n.Class.IsInput then .Node a
        else if n.Class = .Comment then .Node a
        else .InputSequenceAsset
  else .InputSequenceAsset

/-! ## `FInputSequenceAssetEditor::PasteNodes` (lines 3644-3710)

The graph editor widget belongs to the engine.  Its state, as far as
`PasteNodes` touches it, is the graph it edits, the selection set and the paste
location.  The clipboard text is represented by the node objects it describes
(none when the text does not parse); `CreateNewGuid` draws the new guid of a
node from a supply indexed by the node's address. -/

structure SGraphEditor where
  CurrentGraph : UEdGraph
  SelectedNodes : List Nat
  PasteLocation : ℚ × ℚ

/-- The asset editor: `GraphEditorPtr.Pin()` is `none` when the widget is gone. -/
structure FInputSequenceAssetEditor where
  GraphEditorPtr : Option SGraphEditor

/-- Embeds `SGraphEditor::ClearSelectionSet`. -/
def ClearSelectionSet (graphEditor : SGraphEditor) : SGraphEditor :=
  { graphEditor with SelectedNodes := [] }

/-- Embeds `SGraphEditor::SetNodeSelection(Node, bSelect)`. -/
def SetNodeSelection (graphEditor : SGraphEditor) (Node : Nat) (bSelect : Bool) : SGraphEditor :=
  { graphEditor with
    SelectedNodes :=
      if bSelect then TSet.Add graphEditor.SelectedNodes Node
      else TSet.Remove graphEditor.SelectedNodes Node }

/-- Embeds `FEdGraphUtilities::ImportNodesFromText`: the described nodes become new
objects of the graph, at the next free addresses, and are added to its `Nodes`
array; the second component is the out-parameter `PastedNodes`. -/
def ImportNodesFromText (g : UEdGraph) (TextToImport : List UEdGraphNode) : UEdGraph × List Nat :=
  let PastedNodes := List.range' g.Objects.length TextToImport.length
  ({ g with Objects := g.Objects ++ TextToImport, Nodes := g.Nodes ++ PastedNodes }, PastedNodes)

/-- The position `(NodePosX, NodePosY)` read through a node pointer. -/
def NodePosOf (g : UEdGraph) (Node : Nat) : Except Fault (Int × Int) :=
  match g.Objects[Node]? with
  | none => .error .nullDeref
  | some n => .ok (n.NodePosX, n.NodePosY)

/-- Lines 3687-3701: one iteration of the second loop over `PastedNodes`, for a
node and the position computed for it by lines 3692-3693. -/
def PasteNodesStep (NewGuid : Nat → FGuid) (GridSnapSize : Nat) (graphEditor : SGraphEditor)
    (Node : Nat × (Int × Int)) : SGraphEditor :=
  let graphEditor := SetNodeSelection graphEditor Node.1 true
  { graphEditor with
    CurrentGraph :=
      ModifyNode graphEditor.CurrentGraph Node.1 (fun n =>
        { n with
          NodePosX := SnapToGrid Node.2.1 GridSnapSize
          NodePosY := SnapToGrid Node.2.2 GridSnapSize
          NodeGuid := NewGuid Node.1 }) }

/-- Embeds `FInputSequenceAssetEditor::PasteNodes` (lines 3644-3710). -/
def PasteNodes (editor : FInputSequenceAssetEditor) (TextToImport : List UEdGraphNode)
    (NewGuid : Nat → FGuid) (GridSnapSize : Nat) : Except Fault FInputSequenceAssetEditor :=
  match editor.GraphEditorPtr with
  | none => .ok editor
  | some graphEditor =>
    let Location := graphEditor.PasteLocation
    let graphEditor := ClearSelectionSet graphEditor
    let imported := ImportNodesFromText graphEditor.CurrentGraph TextToImport
    let graphEditor := { graphEditor with CurrentGraph := imported.1 }
    let PastedNodes := imported.2
    match PastedNodes.mapM (NodePosOf graphEditor.CurrentGraph) with
    | .error f => .error f
    | .ok positions =>
      let moved := PasteReposition positions Location
      .ok { GraphEditorPtr :=
              some ((PastedNodes.zip moved).foldl (PasteNodesStep NewGuid GridSnapSize)
                graphEditor) }

/-! ## Exec links and the walk through hubs

The vocabulary in which the behaviour of `GetNextNodes` and the reach of
`PreSave` are stated. -/

/-- An output pin of category `PC_Exec`: the test of line 202. -/
def IsExecOutput (pin : UEdGraphPin) : Bool :=
  decide (pin.PinCategory = PC_Exec ∧ pin.Direction = .EGPD_Output)

/-- A `Cast<UInputSequenceGraphNode_Hub>` of the pointer `a` succeeds. -/
def IsHub (g : UEdGraph) (a : Nat) : Bool :=
  match g.Objects[a]? with
  | none => false
  | some n => decide (n.Class = .Hub)

/-- The owning nodes of the pins linked to the output `PC_Exec` pins of the node at
`a`, in pin order then link order (a null owner is not a node and is left out). -/
def ExecLinkedNodes (g : UEdGraph) (a : Nat) : List Nat :=
  match g.Objects[a]? with
  | none => []
  | some n =>
    (n.Pins.filter IsExecOutput).flatMap (fun pin =>
      (pin.LinkedTo.map PinRef.Owner).filter (fun b => (g.Objects[b]?).isSome))

/-- An exec link leads from node `a` to node `b`. -/
def ExecLink (g : UEdGraph) (a b : Nat) : Prop := b ∈ ExecLinkedNodes g a

/-- An exec link leads from node `a` to the Hub node `b`. -/
def HubStep (g : UEdGraph) (a b : Nat) : Prop := b ∈ ExecLinkedNodes g a ∧ IsHub g b = true

/-- The list `r` is what `GetNextNodes(n, out)` appends to `out`: the call returns
`out ++ r` for every `out`, whenever the recursion budget is large enough. -/
def NextNodes (g : UEdGraph) (n : Nat) (r : List Nat) : Prop :=
  ∃ fuel, ∀ fuel', fuel ≤ fuel' → ∀ out, GetNextNodes g fuel' n out = .ok (out ++ r)

/-- The result `x` of a call that appends to an out-parameter, seen from a
caller that already holds `out`. -/
def appendTo (out : List Nat) : Except Fault (List Nat) → Except Fault (List Nat)
  | .ok r => .ok (out ++ r)
  | .error e => .error e

/-- Runs `s` on the members of a list in order and concatenates the results. -/
def concatM {α : Type} (s : α → Except Fault (List Nat)) : List α → Except Fault (List Nat)
  | [] => .ok []
  | a :: l =>
    match s a with
    | .error e => .error e
    | .ok r => appendTo r (concatM s l)

/-- Lines 208-217: what one linked node `t` contributes to the result, with
`fuel` the budget of the recursive call. -/
def NextSegment (g : UEdGraph) (fuel : Nat) (t : Nat) : Except Fault (List Nat) :=
  match g.Objects[t]? with
  | none => .ok []
  | some linkedNode =>
    if linkedNode.Class = .Hub then GetNextNodes g fuel t [] else .ok [t]

theorem PressPins_fields (pins : List UEdGraphPin) (st : FInputSequenceState) (pa : List FName) :
    (PressPins pins st pa).1.DepthIndex = st.DepthIndex ∧
    (PressPins pins st pa).1.FirstLayerParentIndex = st.FirstLayerParentIndex ∧
    (PressPins pins st pa).1.PressedActions = st.PressedActions ∧
    (PressPins pins st pa).1.NextIndice = st.NextIndice := by
  unfold PressPins
  induction pins generalizing st pa with
  | nil => simp
  | cons p ps ih =>
    simp only [List.foldl_cons]
    split_ifs <;> exact ih _ _

theorem ReleasePins_fields (pins : List UEdGraphPin) (st : FInputSequenceState) (pa : List FName) :
    (ReleasePins pins st pa).1.DepthIndex = st.DepthIndex ∧
    (ReleasePins pins st pa).1.FirstLayerParentIndex = st.FirstLayerParentIndex ∧
    (ReleasePins pins st pa).1.NextIndice = st.NextIndice := by
  unfold ReleasePins
  induction pins generalizing st pa with
  | nil => simp
  | cons p ps ih =>
    simp only [List.foldl_cons]
    split_ifs <;> exact ih _ _

theorem AxisPins_fields (pins : List UEdGraphPin) (st : FInputSequenceState) :
    (AxisPins pins st).DepthIndex = st.DepthIndex ∧
    (AxisPins pins st).FirstLayerParentIndex = st.FirstLayerParentIndex ∧
    (AxisPins pins st).PressedActions = st.PressedActions ∧
    (AxisPins pins st).NextIndice = st.NextIndice := by
  unfold AxisPins
  induction pins generalizing st with
  | nil => simp
  | cons p ps ih =>
    simp only [List.foldl_cons]
    split_ifs
    · exact ih _
    · split
      · exact ih _
      · exact ih _
    · exact ih _

theorem EmplaceState_DepthIndex (node : UEdGraphNode) (e : FNodesQueueEntry) :
    (EmplaceState node e).1.DepthIndex = e.DepthIndex := by
  unfold EmplaceState
  simp only
  split_ifs
  · exact (PressPins_fields _ _ _).1
  · exact (ReleasePins_fields _ _ _).1
  · exact (AxisPins_fields _ _).1
  · rfl
  · rfl

theorem EmplaceState_NextIndice (node : UEdGraphNode) (e : FNodesQueueEntry) :
    (EmplaceState node e).1.NextIndice = [] := by
  unfold EmplaceState
  simp only
  split_ifs
  · exact (PressPins_fields _ _ _).2.2.2
  · exact (ReleasePins_fields _ _ _).2.2
  · exact (AxisPins_fields _ _).2.2.2
  · rfl
  · rfl

/-! ## Containers: lookup after insertion -/

theorem TMap.Find_Add {κ ν : Type} [DecidableEq κ] (m : List (κ × ν)) (k k' : κ) (v : ν) :
    TMap.Find (TMap.Add m k v) k' = if k = k' then some v else TMap.Find m k' := by
  induction m with
  | nil => simp [TMap.Add, TMap.Find]
  | cons e m ih =>
    obtain ⟨a, b⟩ := e
    by_cases h : a = k
    · subst h
      by_cases h' : a = k' <;> simp [TMap.Add, TMap.Find, h']
    · by_cases h' : a = k'
      · subst h'
        have hk : ¬ k = a := fun e => h e.symm
        simp [TMap.Add, TMap.Find, h, hk]
      · simp [TMap.Add, TMap.Find, h, h', ih]

/-! ## Exec paths and the emission trace -/

theorem FollowPath_append (g : UEdGraph) (fuel : Nat) (a b : Nat) (p : List Nat) (m c : Nat)
    (l : List Nat) (hp : FollowPath g fuel a p = some b)
    (hl : GetNextNodes g fuel b [] = .ok l) (hc : l[m]? = some c) :
    FollowPath g fuel a (p ++ [m]) = some c := by
  induction p generalizing a with
  | nil =>
    simp only [FollowPath, Option.some.injEq] at hp
    subst hp
    simp [FollowPath, hl, hc]
  | cons q qs ih =>
    simp only [FollowPath, List.cons_append] at hp ⊢
    cases hq : GetNextNodes g fuel a [] with
    | error f => simp [hq] at hp
    | ok l' =>
      simp only [hq] at hp ⊢
      cases hq' : l'[q]? with
      | none => simp [hq'] at hp
      | some d =>
        simp only [hq'] at hp ⊢
        exact ih d hp

theorem Kids_getElem? (x : Emission) (i : Nat) (pressed : List FName) (l : List Nat) (m : Nat) :
    (Kids x i pressed l)[m]? =
      (l[m]?).map (fun c => ⟨ChildEntry x.entry i pressed c, i, x.path ++ [m], x.anc ++ [i]⟩) := by
  simp [Kids, List.getElem?_mapIdx]

theorem Kids_entries (x : Emission) (i : Nat) (pressed : List FName) (l : List Nat) :
    (Kids x i pressed l).map Emission.entry = l.map (ChildEntry x.entry i pressed) := by
  apply List.ext_getElem?
  intro m
  simp only [List.getElem?_map, Kids_getElem?, Option.map_map]
  cases l[m]? <;> rfl

theorem Inv_init (g : UEdGraph) (fuel root : Nat) :
    Inv g fuel root [⟨⟨root, 0, INDEX_NONE, []⟩, 0, [], []⟩]
      { States := [], linkedNodesMapping := [], indexMapping := [],
        graphNodesQueue := [⟨root, 0, INDEX_NONE, []⟩] } where
  hqueue := by simp
  hlen := by simp
  hlnm := by simp
  hroot := by simp
  hproc := by intro i x hi; simp at hi
  hparent := by
    intro j y hj hy
    have : j < 1 := by
      have := (List.getElem?_eq_some.mp hy).1
      simpa using this
    omega
  hinj := by
    intro j j' x y hx hy _
    have h1 := (List.getElem?_eq_some.mp hx).1
    have h2 := (List.getElem?_eq_some.mp hy).1
    simp at h1 h2
    omega
  hfollow := by
    intro j y hy
    have h1 := (List.getElem?_eq_some.mp hy).1
    simp at h1
    subst h1
    simp at hy
    subst hy
    simp [FollowPath]
  hsorted := by
    intro i j x y _ hx hy
    have h1 := (List.getElem?_eq_some.mp hx).1
    have h2 := (List.getElem?_eq_some.mp hy).1
    simp at h1 h2
    subst h1 h2
    simp at hx hy
    subst hx hy
    exact le_refl _
  hbound := by
    intro j x y hx hy
    have h2 := (List.getElem?_eq_some.mp hy).1
    simp at h2
    subst h2
    simp at hx hy
    subst hx hy
    simp
  hidx := by intro guid j h; simp [TMap.Find] at h
  hidx' := by intro i x obj hi; simp at hi

theorem Inv_step {g : UEdGraph} {fuel root : Nat} {T : List Emission} {vars : PreSaveVars}
    {entry : FNodesQueueEntry} {rest : List FNodesQueueEntry} {node : UEdGraphNode}
    {l : List Nat} {guids : List FGuid}
    (hinv : Inv g fuel root T vars)
    (hq : vars.graphNodesQueue = entry :: rest)
    (hobj : g.Objects[entry.Node]? = some node)
    (hnext : GetNextNodes g fuel entry.Node [] = .ok l)
    (hguids : l.mapM (NodeGuidOf g) = .ok guids) :
    ∃ x : Emission, T[vars.States.length]? = some x ∧ x.entry = entry ∧
      Inv g fuel root (T ++ Kids x vars.States.length (EmplaceState node entry).2 l)
        { States := vars.States ++ [(EmplaceState node entry).1]
          linkedNodesMapping := vars.linkedNodesMapping ++ [guids]
          indexMapping := TMap.Add vars.indexMapping node.NodeGuid vars.States.length
          graphNodesQueue :=
            rest ++ l.map (ChildEntry entry vars.States.length (EmplaceState node entry).2) } := by
  obtain ⟨hqueue, hlen, hlnm, hroot, hproc, hparent, hinj, hfollow, hsorted, hbound, hidx, hidx'⟩ :=
    hinv
  have hdrop : (T.drop vars.States.length).map Emission.entry = entry :: rest := by
    rw [← hqueue, hq]
  have hn : vars.States.length < T.length := by
    by_contra hcon
    rw [List.drop_eq_nil_of_le (by omega)] at hdrop
    simp at hdrop
  have hx : T[vars.States.length]? = some T[vars.States.length] := List.getElem?_eq_getElem hn
  rw [List.drop_eq_getElem_cons hn, List.map_cons] at hdrop
  have hxe : (T[vars.States.length]).entry = entry := (List.cons.inj hdrop).1
  have hrest : (T.drop (vars.States.length + 1)).map Emission.entry = rest := (List.cons.inj hdrop).2
  refine ⟨T[vars.States.length], hx, hxe, ?_⟩
  generalize T[vars.States.length] = x at hx hxe
  subst hxe
  generalize hn' : vars.States.length = n at *
  generalize hpr : (EmplaceState node x.entry).2 = pressed
  have hmono : ∀ (j : Nat) (y : Emission), T[j]? = some y → (T ++ Kids x n pressed l)[j]? = some y := by
    intro j y hy
    rw [List.getElem?_append_left (List.getElem?_eq_some.mp hy).1]
    exact hy
  have hsplit : ∀ (j : Nat) (y : Emission), (T ++ Kids x n pressed l)[j]? = some y →
      (j < T.length ∧ T[j]? = some y) ∨
      (T.length ≤ j ∧ ∃ c, l[j - T.length]? = some c ∧
        y = ⟨ChildEntry x.entry n pressed c, n, x.path ++ [j - T.length], x.anc ++ [n]⟩) := by
    intro j y hy
    by_cases hj : j < T.length
    · left
      rw [List.getElem?_append_left hj] at hy
      exact ⟨hj, hy⟩
    · right
      rw [List.getElem?_append_right (by omega), Kids_getElem?] at hy
      refine ⟨by omega, ?_⟩
      cases hc : l[j - T.length]? with
      | none => simp [hc] at hy
      | some c =>
        simp only [hc, Option.map_some', Option.some.injEq] at hy
        exact ⟨c, rfl, hy.symm⟩
  have hsorted' : ∀ (i j : Nat) (a b : Emission), i ≤ j →
      (T ++ Kids x n pressed l)[i]? = some a → (T ++ Kids x n pressed l)[j]? = some b →
      a.entry.DepthIndex ≤ b.entry.DepthIndex := by
    intro i j a b hij ha hb
    rcases hsplit i a ha with ⟨hi, ha'⟩ | ⟨hi, c, _, ha'⟩
    · rcases hsplit j b hb with ⟨hj, hb'⟩ | ⟨hj, d, _, hb'⟩
      · exact hsorted i j a b hij ha' hb'
      · have := hbound i x a hx ha'
        subst hb'
        simpa [ChildEntry] using this
    · rcases hsplit j b hb with ⟨hj, hb'⟩ | ⟨hj, d, _, hb'⟩
      · omega
      · subst ha' hb'
        simp [ChildEntry]
  refine
    { hqueue := ?_, hlen := ?_, hlnm := ?_, hroot := ?_, hproc := ?_, hparent := ?_, hinj := ?_,
      hfollow := ?_, hsorted := ?_, hbound := ?_, hidx := ?_, hidx' := ?_ }
  · -- hqueue
    simp only [List.length_append, List.length_singleton, hn']
    rw [List.drop_append_of_le_length (by omega), List.map_append, hrest, Kids_entries]
  · simp only [List.length_append, List.length_singleton, hn']
    omega
  · simp only [List.length_append, List.length_singleton, hn']
    rw [hlnm]
  · exact hmono 0 _ hroot
  · -- hproc
    intro i a hi ha
    simp only [List.length_append, List.length_singleton, hn'] at hi
    by_cases hin : i < n
    · have ha' : T[i]? = some a := by
        rcases hsplit i a ha with ⟨_, h⟩ | ⟨h, _⟩
        · exact h
        · omega
      obtain ⟨obj, l', guids', cs, h1, h2, h3, h4, h5, h6, h7⟩ := hproc i a hin ha'
      refine ⟨obj, l', guids', cs, h1, ?_, h3, h4, ?_, h6, ?_⟩
      · rw [List.getElem?_append_left (by omega)]
        exact h2
      · rw [List.getElem?_append_left (by rw [hlnm]; omega)]
        exact h5
      · intro m c hc
        exact hmono _ _ (h7 m c hc)
    · have hi' : i = n := by omega
      subst hi'
      have ha' : a = x := by
        have := hmono i x hx
        rw [this] at ha
        exact (Option.some.inj ha).symm
      subst ha'
      refine ⟨node, l, guids, T.length, hobj, ?_, hnext, hguids, ?_, hn, ?_⟩
      · rw [List.getElem?_append_right (by omega)]
        simp [hn']
      · rw [List.getElem?_append_right (by rw [hlnm])]
        simp [hlnm]
      · intro m c hc
        rw [List.getElem?_append_right (by omega), Kids_getElem?]
        simp [hc, hpr]
  · -- hparent
    intro j y hj hy
    simp only [List.length_append, List.length_singleton, hn']
    rcases hsplit j y hy with ⟨_, hy'⟩ | ⟨hjT, c, hc, hy'⟩
    · obtain ⟨h1, h2, a, obj, l', m, h3, h4, h5, h6, h7⟩ := hparent j y hj hy'
      exact ⟨by omega, h2, a, obj, l', m, hmono _ _ h3, h4, h5, h6, h7⟩
    · subst hy'
      refine ⟨by simp, by simp; omega, x, node, l, j - T.length, hmono _ _ hx, hobj, hnext, ?_, ?_⟩
      · simpa [ChildEntry] using hc
      · simp [ChildEntry, hpr]
  · -- hinj
    intro j j' a b ha hb hab
    have key : ∀ (j j' : Nat) (a b : Emission), j < T.length → T[j]? = some a →
        T.length ≤ j' → b.path = x.path ++ [j' - T.length] → a.path = b.path → False := by
      intro j j' a b hjl ha hj' hbp hab
      by_cases hj0 : j = 0
      · subst hj0
        rw [hroot] at ha
        have := Option.some.inj ha
        subst this
        rw [hbp] at hab
        simp at hab
      · obtain ⟨h1, h2, p, obj, l', m, h3, h4, h5, h6, h7⟩ := hparent j a (by omega) ha
        have hap : a.path = p.path ++ [m] := by rw [h7]
        rw [hap, hbp] at hab
        have hpp : p.path = x.path := (List.append_inj' hab rfl).1
        have := hinj _ _ p x h3 hx hpp
        omega
    rcases hsplit j a ha with ⟨hjl, ha'⟩ | ⟨hjl, c, hc, ha'⟩
    · rcases hsplit j' b hb with ⟨hjl', hb'⟩ | ⟨hjl', d, hd, hb'⟩
      · exact hinj j j' a b ha' hb' hab
      · exact (key j j' a b hjl ha' hjl' (by rw [hb']) hab).elim
    · rcases hsplit j' b hb with ⟨hjl', hb'⟩ | ⟨hjl', d, hd, hb'⟩
      · exact (key j' j b a hjl' hb' hjl (by rw [ha']) hab.symm).elim
      · subst ha' hb'
        simp only at hab
        have := (List.append_inj' hab rfl).2
        simp at this
        omega
  · -- hfollow
    intro j y hy
    rcases hsplit j y hy with ⟨_, hy'⟩ | ⟨hjT, c, hc, hy'⟩
    · exact hfollow j y hy'
    · subst hy'
      exact FollowPath_append g fuel root x.entry.Node x.path _ c l (hfollow _ x hx) hnext hc
  · exact hsorted'
  · -- hbound
    intro j a b ha hb
    simp only [List.length_append, List.length_singleton, hn'] at ha
    have h1 : x.entry.DepthIndex ≤ a.entry.DepthIndex :=
      hsorted' n (n + 1) x a (by omega) (hmono _ _ hx) ha
    rcases hsplit j b hb with ⟨_, hb'⟩ | ⟨hjT, c, hc, hb'⟩
    · have := hbound j x b hx hb'
      omega
    · subst hb'
      simp only [ChildEntry]
      omega
  · -- hidx
    intro guid j hfind
    simp only [List.length_append, List.length_singleton, hn']
    rw [TMap.Find_Add] at hfind
    split_ifs at hfind with hg
    · have hj : n = j := Option.some.inj hfind
      subst hj
      exact ⟨by omega, x, node, hmono _ _ hx, hobj, hg⟩
    · obtain ⟨h1, a, obj, h2, h3, h4⟩ := hidx guid j hfind
      exact ⟨by omega, a, obj, hmono _ _ h2, h3, h4⟩
  · -- hidx'
    intro i a obj hi ha hao
    simp only [List.length_append, List.length_singleton, hn'] at hi
    rw [TMap.Find_Add]
    split_ifs with hg
    · exact ⟨n, rfl⟩
    · by_cases hin : i < n
      · have ha' : T[i]? = some a := by
          rcases hsplit i a ha with ⟨_, h⟩ | ⟨h, _⟩
          · exact h
          · omega
        exact hidx' i a obj hin ha' hao
      · have hi' : i = n := by omega
        subst hi'
        have ha' : a = x := by
          have := hmono i x hx
          rw [this] at ha
          exact (Option.some.inj ha).symm
        subst ha'
        rw [hobj] at hao
        have := Option.some.inj hao
        subst this
        exact (hg rfl).elim

theorem PreSaveLoop_inv (g : UEdGraph) (fuel root : Nat) :
    ∀ (k : Nat) (vars vars' : PreSaveVars) (T : List Emission),
      Inv g fuel root T vars → PreSaveLoop g fuel k vars = .ok vars' →
      ∃ T' : List Emission, Inv g fuel root T' vars' ∧ vars'.graphNodesQueue = [] := by
  intro k
  induction k with
  | zero =>
    intro vars vars' T hinv hrun
    unfold PreSaveLoop at hrun
    split at hrun
    · rename_i hq
      cases hrun
      exact ⟨T, hinv, hq⟩
    · cases hrun
  | succ k ih =>
    intro vars vars' T hinv hrun
    unfold PreSaveLoop at hrun
    split at hrun
    · rename_i hq
      cases hrun
      exact ⟨T, hinv, hq⟩
    · rename_i entry rest hq
      split at hrun
      · cases hrun
      · rename_i node hobj
        split at hrun
        · cases hrun
        · simp only at hrun
          split at hrun
          · cases hrun
          · rename_i l hnext
            split at hrun
            · cases hrun
            · rename_i guids hguids
              obtain ⟨x, _, _, hinv'⟩ := Inv_step hinv hq hobj hnext hguids
              exact ih _ _ _ hinv' hrun

/-- The trace of a completed run of `PreSave`. -/
theorem PreSave_trace {g : UEdGraph} {fuel : Nat} {S : List FInputSequenceState}
    (h : PreSave g fuel = .ok S) :
    ∃ (root : Nat) (T : List Emission) (vars : PreSaveVars),
      g.Nodes[0]? = some root ∧ Inv g fuel root T vars ∧ T.length = vars.States.length ∧
      S = LinkStates vars := by
  unfold PreSave at h
  split at h
  · cases h
  · rename_i root hroot
    split at h
    · cases h
    · rename_i vars hrun
      obtain ⟨T, hinv, hq⟩ := PreSaveLoop_inv g fuel root _ _ _ _ (Inv_init g fuel root) hrun
      refine ⟨root, T, vars, hroot, hinv, ?_, ?_⟩
      · have h1 := hinv.hqueue
        rw [hq] at h1
        have h2 : T.drop vars.States.length = [] := List.map_eq_nil_iff.mp h1.symm
        have h3 := List.drop_eq_nil_iff.mp h2
        have h4 := hinv.hlen
        omega
      · cases h
        rfl

theorem LinkStates_getElem? (vars : PreSaveVars) (i : Nat) :
    (LinkStates vars)[i]? = (vars.States[i]?).map (fun s =>
      match vars.linkedNodesMapping[i]? with
      | none => s
      | some guids => { s with NextIndice := s.NextIndice ++ LinkedIndices vars.indexMapping guids }) := by
  unfold LinkStates
  rw [List.getElem?_map, List.getElem?_enum]
  cases vars.States[i]? <;> rfl

theorem LinkStates_length (vars : PreSaveVars) : (LinkStates vars).length = vars.States.length := by
  simp [LinkStates]

/-! ## C1: breadth-first order -/

/-- The state emitted at position `j` of a completed run. -/
theorem Inv_state_at {g : UEdGraph} {fuel root : Nat} {T : List Emission} {vars : PreSaveVars}
    (hinv : Inv g fuel root T vars) (hlen : T.length = vars.States.length)
    {j : Nat} {x : Emission} (hx : T[j]? = some x) :
    ∃ (obj : UEdGraphNode) (l : List Nat) (guids : List FGuid) (cs : Nat),
      g.Objects[x.entry.Node]? = some obj ∧
      (LinkStates vars)[j]? = some
        { (EmplaceState obj x.entry).1 with NextIndice := LinkedIndices vars.indexMapping guids } ∧
      GetNextNodes g fuel x.entry.Node [] = .ok l ∧
      l.mapM (NodeGuidOf g) = .ok guids ∧
      j < cs ∧
      ∀ m c, l[m]? = some c →
        T[cs + m]? = some ⟨ChildEntry x.entry j (EmplaceState obj x.entry).2 c, j,
          x.path ++ [m], x.anc ++ [j]⟩ := by
  have hj : j < vars.States.length := by
    have := (List.getElem?_eq_some.mp hx).1
    omega
  obtain ⟨obj, l, guids, cs, h1, h2, h3, h4, h5, h6, h7⟩ := hinv.hproc j x hj hx
  refine ⟨obj, l, guids, cs, h1, ?_, h3, h4, h6, h7⟩
  rw [LinkStates_getElem?, h2, h5]
  simp [EmplaceState_NextIndice]

/-- C1. `PreSave` emits states in breadth-first order.  For every completed run
there are the dequeued entries `E` (one per state, in order) and the indices
`parent` such that: state `j` is built from entry `E[j]`; entry `0` is
`Nodes[0]` at depth 0; every later entry `j` is the entry that the iteration
emplacing state `parent[j] < j` enqueued for a node returned by `GetNextNodes`,
and its state's `DepthIndex` is one more than that of state `parent[j]`;
`DepthIndex` is non-decreasing along `States`, so that a state of smaller
depth always precedes a state of larger depth. -/
theorem PreSave_breadth_first (g : UEdGraph) (fuel : Nat) (S : List FInputSequenceState)
    (hrun : PreSave g fuel = .ok S) :
    ∃ (E : List FNodesQueueEntry) (parent : List Nat),
      E.length = S.length ∧ parent.length = S.length ∧
      (∀ (j : Nat) (e : FNodesQueueEntry), E[j]? = some e →
        ∃ s, S[j]? = some s ∧ BuiltFrom g s e ∧ s.DepthIndex = e.DepthIndex) ∧
      (∃ (root : Nat) (s0 : FInputSequenceState), g.Nodes[0]? = some root ∧
        E[0]? = some ⟨root, 0, INDEX_NONE, []⟩ ∧ S[0]? = some s0 ∧ s0.DepthIndex = 0) ∧
      (∀ (j : Nat) (e : FNodesQueueEntry) (s : FInputSequenceState),
        0 < j → E[j]? = some e → S[j]? = some s →
        ∃ (p : Nat) (ep : FNodesQueueEntry) (sp : FInputSequenceState) (objp : UEdGraphNode)
          (l : List Nat),
          parent[j]? = some p ∧ p < j ∧ E[p]? = some ep ∧ S[p]? = some sp ∧
          g.Objects[ep.Node]? = some objp ∧
          GetNextNodes g fuel ep.Node [] = .ok l ∧ e.Node ∈ l ∧
          e = ChildEntry ep p (EmplaceState objp ep).2 e.Node ∧
          s.DepthIndex = sp.DepthIndex + 1) ∧
      (∀ (i j : Nat) (si sj : FInputSequenceState), i ≤ j → S[i]? = some si → S[j]? = some sj →
        si.DepthIndex ≤ sj.DepthIndex) ∧
      (∀ (i j : Nat) (si sj : FInputSequenceState), S[i]? = some si → S[j]? = some sj →
        si.DepthIndex < sj.DepthIndex → i < j) := by
  obtain ⟨root, T, vars, hroot, hinv, hlen, hS⟩ := PreSave_trace hrun
  subst hS
  have hSlen : (LinkStates vars).length = T.length := by rw [LinkStates_length, hlen]
  -- the state at `j` and its entry
  have hst : ∀ (j : Nat) (x : Emission), T[j]? = some x →
      ∃ s, (LinkStates vars)[j]? = some s ∧ BuiltFrom g s x.entry ∧
        s.DepthIndex = x.entry.DepthIndex := by
    intro j x hx
    obtain ⟨obj, l, guids, cs, h1, h2, _⟩ := Inv_state_at hinv hlen hx
    exact ⟨_, h2, ⟨obj, h1, rfl⟩, by simp [EmplaceState_DepthIndex]⟩
  have hTS : ∀ (j : Nat) (s : FInputSequenceState), (LinkStates vars)[j]? = some s →
      ∃ x, T[j]? = some x ∧ s.DepthIndex = x.entry.DepthIndex := by
    intro j s hs
    have hj : j < T.length := by
      have := (List.getElem?_eq_some.mp hs).1
      omega
    obtain ⟨s', hs', _, hd⟩ := hst j _ (List.getElem?_eq_getElem hj)
    rw [hs] at hs'
    cases hs'
    exact ⟨_, List.getElem?_eq_getElem hj, hd⟩
  have hmono : ∀ (i j : Nat) (si sj : FInputSequenceState), i ≤ j →
      (LinkStates vars)[i]? = some si → (LinkStates vars)[j]? = some sj →
      si.DepthIndex ≤ sj.DepthIndex := by
    intro i j si sj hij hi hj
    obtain ⟨xi, hxi, hdi⟩ := hTS i si hi
    obtain ⟨xj, hxj, hdj⟩ := hTS j sj hj
    rw [hdi, hdj]
    exact hinv.hsorted i j xi xj hij hxi hxj
  refine ⟨T.map Emission.entry, T.map Emission.parent, by simp [hSlen], by simp [hSlen],
    ?_, ?_, ?_, hmono, ?_⟩
  · intro j e he
    rw [List.getElem?_map] at he
    cases hx : T[j]? with
    | none => simp [hx] at he
    | some x =>
      simp only [hx, Option.map_some', Option.some.injEq] at he
      subst he
      exact hst j x hx
  · obtain ⟨s0, hs0, _, hd⟩ := hst 0 _ hinv.hroot
    refine ⟨root, s0, hroot, ?_, hs0, hd⟩
    rw [List.getElem?_map, hinv.hroot]
    rfl
  · intro j e s hj he hs
    rw [List.getElem?_map] at he
    cases hy : T[j]? with
    | none => simp [hy] at he
    | some y =>
      simp only [hy, Option.map_some', Option.some.injEq] at he
      subst he
      obtain ⟨_, hpj, x, obj, l, m, hx, hobj, hnext, hm, hyeq⟩ := hinv.hparent j y hj hy
      obtain ⟨sp, hsp, _, hdp⟩ := hst _ x hx
      obtain ⟨s', hs', _, hd⟩ := hst j y hy
      rw [hs] at hs'
      cases hs'
      refine ⟨y.parent, x.entry, sp, obj, l, ?_, hpj, ?_, hsp, hobj, hnext, ?_, ?_, ?_⟩
      · rw [List.getElem?_map, hy]
        rfl
      · rw [List.getElem?_map, hx]
        rfl
      · exact List.getElem?_mem hm
      · exact congrArg Emission.entry hyeq
      · rw [hd, hdp, hyeq]
        simp [ChildEntry]
  · intro i j si sj hi hj hlt
    by_contra hcon
    have := hmono j i sj si (by omega) hj hi
    omega

/-! ## C2: pressed-action sets -/

theorem PressPins_pressed (pins : List UEdGraphPin) (st : FInputSequenceState) (pa : List FName) :
    (PressPins pins st pa).2 =
      ((pins.filter (fun pin => decide (pin.PinCategory = PC_Action ∧ pin.LinkedTo ≠ []))).map
        UEdGraphPin.PinName).foldl TSet.Add pa := by
  unfold PressPins
  induction pins generalizing st pa with
  | nil => rfl
  | cons p ps ih =>
    simp only [List.foldl_cons]
    by_cases hc : p.PinCategory = PC_Action
    · by_cases hl : p.LinkedTo.length = 0
      · have hl' : p.LinkedTo = [] := List.length_eq_zero.mp hl
        simp only [hc, hl, if_true]
        rw [ih]
        simp [List.filter_cons, hc, hl']
      · have hl' : p.LinkedTo ≠ [] := fun h => hl (by rw [h]; rfl)
        simp only [hc, hl, if_true, if_false]
        rw [ih]
        simp [List.filter_cons, hc, hl']
    · simp only [hc, if_false]
      rw [ih]
      simp [List.filter_cons, hc]

theorem ReleasePins_pressed (pins : List UEdGraphPin) (st : FInputSequenceState)
    (pa : List FName) :
    (ReleasePins pins st pa).2 =
      ((pins.filter (fun pin => decide (pin.PinCategory = PC_Action))).map
        UEdGraphPin.PinName).foldl TSet.Remove pa ∧
    (ReleasePins pins st pa).1.PressedActions =
      ((pins.filter (fun pin => decide (pin.PinCategory = PC_Action))).map
        UEdGraphPin.PinName).foldl TSet.Remove st.PressedActions := by
  unfold ReleasePins
  induction pins generalizing st pa with
  | nil => exact ⟨rfl, rfl⟩
  | cons p ps ih =>
    simp only [List.foldl_cons]
    by_cases hc : p.PinCategory = PC_Action
    · simp only [hc, if_true]
      rw [(ih _ _).1, (ih _ _).2]
      simp [List.filter_cons, hc]
    · simp only [hc, if_false]
      rw [(ih _ _).1, (ih _ _).2]
      simp [List.filter_cons, hc]

theorem EmplaceState_pressed (node : UEdGraphNode) (e : FNodesQueueEntry) :
    (EmplaceState node e).2 = PressedAfter node e.PressedActions := by
  unfold EmplaceState PressedAfter LinkedActionNames ActionNames
  simp only
  by_cases hP : node.Class = .Press
  · simp [hP, NodeClass.IsInput, PressPins_pressed]
  · by_cases hR : node.Class = .Release
    · simp [hR, NodeClass.IsInput, (ReleasePins_pressed _ _ _).1]
    · simp only [hP, hR, if_false]
      split_ifs <;> rfl

theorem EmplaceState_PressedActions (node : UEdGraphNode) (e : FNodesQueueEntry) :
    (EmplaceState node e).1.PressedActions = PressedOwn node e.PressedActions := by
  unfold EmplaceState PressedOwn ActionNames
  simp only
  by_cases hP : node.Class = .Press
  · simp [hP, NodeClass.IsInput, (PressPins_fields _ _ _).2.2.1]
  · by_cases hR : node.Class = .Release
    · simp [hR, NodeClass.IsInput, (ReleasePins_pressed _ _ _).2]
    · simp only [hP, hR, if_false]
      split_ifs
      · exact (AxisPins_fields _ _).2.2.1
      · rfl
      · rfl

theorem PressedAlong_snoc (g : UEdGraph) (E : List FNodesQueueEntry) (anc : List Nat) (p : Nat)
    (e : FNodesQueueEntry) (obj : UEdGraphNode) (he : E[p]? = some e)
    (ho : g.Objects[e.Node]? = some obj) :
    PressedAlong g E (anc ++ [p]) = PressedAfter obj (PressedAlong g E anc) := by
  unfold PressedAlong
  rw [List.foldl_append]
  simp only [List.foldl_cons, List.foldl_nil, he, ho]

/-- The pressed set carried by an entry is the fold along its ancestors. -/
theorem Inv_pressed {g : UEdGraph} {fuel root : Nat} {T : List Emission} {vars : PreSaveVars}
    (hinv : Inv g fuel root T vars) :
    ∀ (j : Nat) (y : Emission), T[j]? = some y →
      y.entry.PressedActions = PressedAlong g (T.map Emission.entry) y.anc := by
  intro j
  induction j using Nat.strong_induction_on with
  | _ j ih =>
    intro y hy
    by_cases hj : j = 0
    · subst hj
      rw [hinv.hroot] at hy
      cases hy
      rfl
    · obtain ⟨_, hpj, x, obj, l, m, hx, hobj, _, _, hyeq⟩ := hinv.hparent j y (by omega) hy
      have hxp := ih y.parent hpj x hx
      have hE : (T.map Emission.entry)[y.parent]? = some x.entry := by
        rw [List.getElem?_map, hx]
        rfl
      rw [hyeq]
      simp only [ChildEntry]
      rw [PressedAlong_snoc g _ x.anc y.parent x.entry obj hE hobj, EmplaceState_pressed, hxp]

/-- C2. `PreSave` propagates pressed-action sets along each path.  For every
completed run there are the dequeued entries `E`, the indices `parent` of the
enqueuing states and the ancestor lists `anc` (the state indices on the path
that enqueued a state: empty for `Nodes[0]`, else the ancestors of the parent
followed by the parent) such that the pressed set carried by the entry of a
state is `PressedAlong` its ancestors (start from the empty set; a Press
ancestor adds the names of its linked action pins, a Release ancestor removes
the names of its action pins), and the state's `PressedActions` is that set
changed by `PressedOwn` (only a Release node removes its own action-pin
names; a Press node's linked pins show only in what its successors receive). -/
theorem PreSave_pressed_actions (g : UEdGraph) (fuel : Nat) (S : List FInputSequenceState)
    (hrun : PreSave g fuel = .ok S) :
    ∃ (E : List FNodesQueueEntry) (parent : List Nat) (anc : List (List Nat)),
      E.length = S.length ∧ parent.length = S.length ∧ anc.length = S.length ∧
      anc[0]? = some [] ∧
      (∃ root : Nat, g.Nodes[0]? = some root ∧ E[0]? = some ⟨root, 0, INDEX_NONE, []⟩) ∧
      (∀ (j : Nat) (e : FNodesQueueEntry), 0 < j → E[j]? = some e →
        ∃ (p : Nat) (ep : FNodesQueueEntry) (ancp : List Nat) (l : List Nat),
          parent[j]? = some p ∧ p < j ∧ E[p]? = some ep ∧ anc[p]? = some ancp ∧
          anc[j]? = some (ancp ++ [p]) ∧
          GetNextNodes g fuel ep.Node [] = .ok l ∧ e.Node ∈ l) ∧
      (∀ (j : Nat) (s : FInputSequenceState), S[j]? = some s →
        ∃ (e : FNodesQueueEntry) (obj : UEdGraphNode) (ancj : List Nat),
          E[j]? = some e ∧ g.Objects[e.Node]? = some obj ∧ anc[j]? = some ancj ∧
          s = { (EmplaceState obj e).1 with NextIndice := s.NextIndice } ∧
          e.PressedActions = PressedAlong g E ancj ∧
          s.PressedActions = PressedOwn obj (PressedAlong g E ancj) ∧
          (EmplaceState obj e).2 = PressedAfter obj (PressedAlong g E ancj)) := by
  obtain ⟨root, T, vars, hroot, hinv, hlen, hS⟩ := PreSave_trace hrun
  subst hS
  have hSlen : (LinkStates vars).length = T.length := by rw [LinkStates_length, hlen]
  refine ⟨T.map Emission.entry, T.map Emission.parent, T.map Emission.anc, by simp [hSlen],
    by simp [hSlen], by simp [hSlen], ?_, ⟨root, hroot, ?_⟩, ?_, ?_⟩
  · rw [List.getElem?_map, hinv.hroot]
    rfl
  · rw [List.getElem?_map, hinv.hroot]
    rfl
  · intro j e hj he
    rw [List.getElem?_map] at he
    cases hy : T[j]? with
    | none => simp [hy] at he
    | some y =>
      simp only [hy, Option.map_some', Option.some.injEq] at he
      subst he
      obtain ⟨_, hpj, x, obj, l, m, hx, hobj, hnext, hm, hyeq⟩ := hinv.hparent j y hj hy
      refine ⟨y.parent, x.entry, x.anc, l, ?_, hpj, ?_, ?_, ?_, hnext, List.getElem?_mem hm⟩
      · rw [List.getElem?_map, hy]
        rfl
      · rw [List.getElem?_map, hx]
        rfl
      · rw [List.getElem?_map, hx]
        rfl
      · rw [List.getElem?_map, hy]
        simp only [Option.map_some', Option.some.injEq]
        exact congrArg Emission.anc hyeq
  · intro j s hs
    have hj : j < T.length := by
      have := (List.getElem?_eq_some.mp hs).1
      omega
    have hx : T[j]? = some T[j] := List.getElem?_eq_getElem hj
    generalize T[j] = x at hx
    obtain ⟨obj, l, guids, cs, h1, h2, _⟩ := Inv_state_at hinv hlen hx
    rw [hs] at h2
    have hs' := Option.some.inj h2
    have hpr := Inv_pressed hinv j x hx
    refine ⟨x.entry, obj, x.anc, ?_, h1, ?_, ?_, hpr, ?_, ?_⟩
    · rw [List.getElem?_map, hx]
      rfl
    · rw [List.getElem?_map, hx]
      rfl
    · rw [hs']
    · rw [hs']
      simp only
      rw [EmplaceState_PressedActions, hpr]
    · rw [EmplaceState_pressed, hpr]

/-! ## C3: input-action requirements -/

theorem TMap.AddAll_append {κ ν : Type} [DecidableEq κ] (m kvs kvs' : List (κ × ν)) :
    TMap.AddAll m (kvs ++ kvs') = TMap.AddAll (TMap.AddAll m kvs) kvs' := by
  simp [TMap.AddAll, List.foldl_append]

theorem TMap.AddAll_cons {κ ν : Type} [DecidableEq κ] (m kvs : List (κ × ν)) (kv : κ × ν) :
    TMap.AddAll m (kv :: kvs) = TMap.AddAll (TMap.Add m kv.1 kv.2) kvs := rfl

theorem TMap.mem_keys_Add {κ ν : Type} [DecidableEq κ] (m : List (κ × ν)) (k k' : κ) (v : ν) :
    k' ∈ (TMap.Add m k v).map Prod.fst ↔ k' = k ∨ k' ∈ m.map Prod.fst := by
  induction m with
  | nil => simp [TMap.Add]
  | cons e m ih =>
    obtain ⟨a, b⟩ := e
    by_cases h : a = k
    · subst h
      simp [TMap.Add]
    · simp only [TMap.Add, h, if_false, List.map_cons, List.mem_cons, ih]
      tauto

theorem TMap.nodup_keys_Add {κ ν : Type} [DecidableEq κ] (m : List (κ × ν)) (k : κ) (v : ν)
    (h : (m.map Prod.fst).Nodup) : ((TMap.Add m k v).map Prod.fst).Nodup := by
  induction m with
  | nil => simp [TMap.Add]
  | cons e m ih =>
    obtain ⟨a, b⟩ := e
    simp only [List.map_cons, List.nodup_cons] at h
    by_cases hk : a = k
    · subst hk
      simpa [TMap.Add] using h
    · simp only [TMap.Add, hk, if_false, List.map_cons, List.nodup_cons, TMap.mem_keys_Add]
      refine ⟨?_, ih h.2⟩
      rintro (h' | h')
      · exact h'.elim
      · exact h.1 h'

theorem TMap.mem_keys_AddAll {κ ν : Type} [DecidableEq κ] (m kvs : List (κ × ν)) (k : κ) :
    k ∈ (TMap.AddAll m kvs).map Prod.fst ↔ k ∈ m.map Prod.fst ∨ k ∈ kvs.map Prod.fst := by
  induction kvs generalizing m with
  | nil => simp [TMap.AddAll]
  | cons kv kvs ih =>
    rw [TMap.AddAll_cons, ih, TMap.mem_keys_Add]
    simp only [List.map_cons, List.mem_cons]
    tauto

theorem TMap.nodup_keys_AddAll {κ ν : Type} [DecidableEq κ] (m kvs : List (κ × ν))
    (h : (m.map Prod.fst).Nodup) : ((TMap.AddAll m kvs).map Prod.fst).Nodup := by
  induction kvs generalizing m with
  | nil => simpa [TMap.AddAll] using h
  | cons kv kvs ih =>
    rw [TMap.AddAll_cons]
    exact ih _ (TMap.nodup_keys_Add m kv.1 kv.2 h)

theorem TMap.Find_AddAll_of_not_mem {κ ν : Type} [DecidableEq κ] (m kvs : List (κ × ν)) (k : κ)
    (h : ∀ kv ∈ kvs, kv.1 ≠ k) : TMap.Find (TMap.AddAll m kvs) k = TMap.Find m k := by
  induction kvs generalizing m with
  | nil => rfl
  | cons kv kvs ih =>
    rw [TMap.AddAll_cons, ih _ (fun kv' hkv' => h kv' (List.mem_cons_of_mem _ hkv')),
      TMap.Find_Add]
    simp [h kv (List.mem_cons_self _ _)]

theorem TMap.Find_AddAll_mem {κ ν : Type} [DecidableEq κ] (m kvs : List (κ × ν)) (k : κ) (v : ν)
    (h : TMap.Find (TMap.AddAll m kvs) k = some v) : TMap.Find m k = some v ∨ (k, v) ∈ kvs := by
  induction kvs generalizing m with
  | nil => exact Or.inl h
  | cons kv kvs ih =>
    rw [TMap.AddAll_cons] at h
    rcases ih _ h with h' | h'
    · rw [TMap.Find_Add] at h'
      split_ifs at h' with hk
      · right
        cases h'
        subst hk
        exact List.mem_cons_self _ _
      · exact Or.inl h'
    · exact Or.inr (List.mem_cons_of_mem _ h')

theorem TMap.length_AddAll_nil {κ ν : Type} [DecidableEq κ] (kvs : List (κ × ν)) :
    (TMap.AddAll [] kvs).length = (kvs.map Prod.fst).dedup.length := by
  have h1 : ((TMap.AddAll [] kvs).map Prod.fst).Nodup :=
    TMap.nodup_keys_AddAll [] kvs (by simp)
  have h2 : ((TMap.AddAll [] kvs).map Prod.fst).Perm (kvs.map Prod.fst).dedup := by
    rw [List.perm_ext_iff_of_nodup h1 (List.nodup_dedup _)]
    intro k
    rw [TMap.mem_keys_AddAll, List.mem_dedup]
    simp
  have := h2.length_eq
  simpa using this

/-- The pairs a Press node adds, in pin order. -/
theorem PressPins_InputActions (pins : List UEdGraphPin) (st : FInputSequenceState)
    (pa : List FName) :
    (PressPins pins st pa).1.InputActions =
      TMap.AddAll st.InputActions
        ((pins.filter (fun pin => decide (pin.PinCategory = PC_Action))).map
          (fun pin => (pin.PinName, PressRequirement pin))) := by
  unfold PressPins
  induction pins generalizing st pa with
  | nil => rfl
  | cons p ps ih =>
    simp only [List.foldl_cons]
    by_cases hc : p.PinCategory = PC_Action
    · by_cases hl : p.LinkedTo.length = 0
      · have hl' : p.LinkedTo = [] := List.length_eq_zero.mp hl
        simp only [hc, hl, if_true]
        rw [ih]
        simp [List.filter_cons, hc, TMap.AddAll_cons, PressRequirement, hl',
          waitForPressAndRelease]
      · have hl' : p.LinkedTo ≠ [] := fun h => hl (by rw [h]; rfl)
        simp only [hc, hl, if_true, if_false]
        rw [ih]
        simp [List.filter_cons, hc, TMap.AddAll_cons, PressRequirement, hl', waitForPress]
    · simp only [hc, if_false]
      rw [ih]
      simp [List.filter_cons, hc]

/-- The pairs a Release node adds, in pin order. -/
theorem ReleasePins_InputActions (pins : List UEdGraphPin) (st : FInputSequenceState)
    (pa : List FName) :
    (ReleasePins pins st pa).1.InputActions =
      TMap.AddAll st.InputActions
        ((pins.filter (fun pin => decide (pin.PinCategory = PC_Action))).map
          (fun pin => (pin.PinName, (⟨[.IE_Released]⟩ : FInputActionState)))) := by
  unfold ReleasePins
  induction pins generalizing st pa with
  | nil => rfl
  | cons p ps ih =>
    simp only [List.foldl_cons]
    by_cases hc : p.PinCategory = PC_Action
    · simp only [hc, if_true]
      rw [ih]
      simp [List.filter_cons, hc, TMap.AddAll_cons, waitForRelease]
    · simp only [hc, if_false]
      rw [ih]
      simp [List.filter_cons, hc]

theorem TMap.Find_of_mem_keys {κ ν : Type} [DecidableEq κ] (m : List (κ × ν)) (k : κ)
    (h : k ∈ m.map Prod.fst) : ∃ v, TMap.Find m k = some v := by
  induction m with
  | nil => simp at h
  | cons e m ih =>
    obtain ⟨a, b⟩ := e
    by_cases hk : a = k
    · exact ⟨b, by simp [TMap.Find, hk]⟩
    · simp only [List.map_cons, List.mem_cons] at h
      rcases h with h | h
      · exact (hk h.symm).elim
      · obtain ⟨v, hv⟩ := ih h
        exact ⟨v, by simp [TMap.Find, hk, hv]⟩

/-- The value registered under the name of a pin that no later action pin shares. -/
theorem TMap.Find_AddAll_last {ν : Type} (f : UEdGraphPin → ν) (pins : List UEdGraphPin)
    (i : Nat) (pin : UEdGraphPin) (hi : pins[i]? = some pin) (hc : pin.PinCategory = PC_Action)
    (hlast : ∀ (i' : Nat) (pin' : UEdGraphPin), i < i' → pins[i']? = some pin' →
      pin'.PinCategory = PC_Action → pin'.PinName ≠ pin.PinName) :
    TMap.Find (TMap.AddAll []
      ((pins.filter (fun pin => decide (pin.PinCategory = PC_Action))).map
        (fun pin => (pin.PinName, f pin)))) pin.PinName = some (f pin) := by
  obtain ⟨hlt, hget⟩ := List.getElem?_eq_some.mp hi
  have hsplit : pins = pins.take i ++ pin :: pins.drop (i + 1) := by
    rw [← hget, ← List.drop_eq_getElem_cons hlt, List.take_append_drop]
  have hpost : ∀ kv ∈ ((pins.drop (i + 1)).filter
      (fun pin => decide (pin.PinCategory = PC_Action))).map (fun pin => (pin.PinName, f pin)),
      kv.1 ≠ pin.PinName := by
    intro kv hkv
    obtain ⟨pin', hmem, rfl⟩ := List.mem_map.mp hkv
    obtain ⟨hmem', hc'⟩ := List.mem_filter.mp hmem
    obtain ⟨k, hk⟩ := List.getElem?_of_mem hmem'
    rw [List.getElem?_drop] at hk
    exact hlast (i + 1 + k) pin' (by omega) hk (by simpa using hc')
  rw [hsplit, List.filter_append, List.map_append, TMap.AddAll_append, List.filter_cons]
  simp only [hc, decide_True, if_true, List.map_cons, TMap.AddAll_cons]
  rw [TMap.Find_AddAll_of_not_mem _ _ _ hpost, TMap.Find_Add]
  simp

theorem EmplaceState_Press (node : UEdGraphNode) (e : FNodesQueueEntry)
    (h : node.Class = .Press) :
    (EmplaceState node e).1.InputActions =
      TMap.AddAll [] ((node.Pins.filter (fun pin => decide (pin.PinCategory = PC_Action))).map
        (fun pin => (pin.PinName, PressRequirement pin))) := by
  unfold EmplaceState
  simp [h, NodeClass.IsInput, PressPins_InputActions]

theorem EmplaceState_Release (node : UEdGraphNode) (e : FNodesQueueEntry)
    (h : node.Class = .Release) :
    (EmplaceState node e).1.InputActions =
      TMap.AddAll [] ((node.Pins.filter (fun pin => decide (pin.PinCategory = PC_Action))).map
        (fun pin => (pin.PinName, (⟨[.IE_Released]⟩ : FInputActionState)))) := by
  unfold EmplaceState
  simp [h, NodeClass.IsInput, ReleasePins_InputActions]

theorem EmplaceState_not_input (node : UEdGraphNode) (e : FNodesQueueEntry)
    (h : node.Class.IsInput = false) : (EmplaceState node e).1.InputActions = [] := by
  unfold EmplaceState
  simp [h]

theorem keys_kvs {ν : Type} (f : UEdGraphPin → ν) (node : UEdGraphNode) :
    ((node.Pins.filter (fun pin => decide (pin.PinCategory = PC_Action))).map
      (fun pin => (pin.PinName, f pin))).map Prod.fst = ActionNames node := by
  simp [ActionNames, List.map_map, Function.comp_def]

/-- C3. `PreSave` emits the input-action requirements of each node.  For every
state of a completed run, built from entry `e` with node object `obj`:
if `obj` is a Press node, `InputActions` has exactly one entry per distinct
`PC_Action` pin name, every entry is the `PressRequirement` of an action pin of
that name, and a pin whose name no later action pin shares (every pin, when the
names are distinct) has its own requirement registered: `[Pressed, Released]`
without a link, `[Pressed]` with at least one link; if `obj` is a Release node,
`InputActions` has exactly one entry per distinct `PC_Action` pin name and each
maps to `[Released]`; if `obj` is not an Input node, `InputActions` is empty. -/
theorem PreSave_input_actions (g : UEdGraph) (fuel : Nat) (S : List FInputSequenceState)
    (hrun : PreSave g fuel = .ok S) :
    ∃ E : List FNodesQueueEntry, E.length = S.length ∧
      ∀ (j : Nat) (s : FInputSequenceState), S[j]? = some s →
        ∃ (e : FNodesQueueEntry) (obj : UEdGraphNode),
          E[j]? = some e ∧ g.Objects[e.Node]? = some obj ∧
          s = { (EmplaceState obj e).1 with NextIndice := s.NextIndice } ∧
          (obj.Class = .Press →
            (s.InputActions.map Prod.fst).Nodup ∧
            (∀ name : FName, name ∈ s.InputActions.map Prod.fst ↔ name ∈ ActionNames obj) ∧
            s.InputActions.length = (ActionNames obj).dedup.length ∧
            (∀ (name : FName) (v : FInputActionState), TMap.Find s.InputActions name = some v →
              ∃ pin ∈ obj.Pins, pin.PinCategory = PC_Action ∧ pin.PinName = name ∧
                v = PressRequirement pin) ∧
            (∀ (i : Nat) (pin : UEdGraphPin), obj.Pins[i]? = some pin →
              pin.PinCategory = PC_Action →
              (∀ (i' : Nat) (pin' : UEdGraphPin), i < i' → obj.Pins[i']? = some pin' →
                pin'.PinCategory = PC_Action → pin'.PinName ≠ pin.PinName) →
              TMap.Find s.InputActions pin.PinName =
                some (if pin.LinkedTo = [] then ⟨[.IE_Pressed, .IE_Released]⟩
                  else ⟨[.IE_Pressed]⟩))) ∧
          (obj.Class = .Release →
            (s.InputActions.map Prod.fst).Nodup ∧
            (∀ name : FName, name ∈ s.InputActions.map Prod.fst ↔ name ∈ ActionNames obj) ∧
            s.InputActions.length = (ActionNames obj).dedup.length ∧
            (∀ name : FName, name ∈ ActionNames obj →
              TMap.Find s.InputActions name = some ⟨[.IE_Released]⟩)) ∧
          (obj.Class.IsInput = false → s.InputActions = []) := by
  obtain ⟨root, T, vars, hroot, hinv, hlen, hS⟩ := PreSave_trace hrun
  subst hS
  have hSlen : (LinkStates vars).length = T.length := by rw [LinkStates_length, hlen]
  refine ⟨T.map Emission.entry, by simp [hSlen], ?_⟩
  intro j s hs
  have hj : j < T.length := by
    have := (List.getElem?_eq_some.mp hs).1
    omega
  have hx : T[j]? = some T[j] := List.getElem?_eq_getElem hj
  generalize T[j] = x at hx
  obtain ⟨obj, l, guids, cs, h1, h2, _⟩ := Inv_state_at hinv hlen hx
  rw [hs] at h2
  have hs' := Option.some.inj h2
  have hIA : s.InputActions = (EmplaceState obj x.entry).1.InputActions := by rw [hs']
  refine ⟨x.entry, obj, ?_, h1, ?_, ?_, ?_, ?_⟩
  · rw [List.getElem?_map, hx]
    rfl
  · rw [hs']
  · intro hP
    rw [hIA, EmplaceState_Press obj x.entry hP]
    refine ⟨TMap.nodup_keys_AddAll _ _ (by simp), ?_, ?_, ?_, ?_⟩
    · intro name
      rw [TMap.mem_keys_AddAll, keys_kvs]
      simp
    · rw [TMap.length_AddAll_nil, keys_kvs]
    · intro name v hv
      rcases TMap.Find_AddAll_mem _ _ _ _ hv with h | h
      · simp [TMap.Find] at h
      · obtain ⟨pin, hmem, heq⟩ := List.mem_map.mp h
        obtain ⟨hmem', hc'⟩ := List.mem_filter.mp hmem
        simp only [Prod.mk.injEq] at heq
        exact ⟨pin, hmem', by simpa using hc', heq.1, heq.2.symm⟩
    · intro i pin hi hc hlast
      exact TMap.Find_AddAll_last PressRequirement obj.Pins i pin hi hc hlast
  · intro hR
    rw [hIA, EmplaceState_Release obj x.entry hR]
    refine ⟨TMap.nodup_keys_AddAll _ _ (by simp), ?_, ?_, ?_⟩
    · intro name
      rw [TMap.mem_keys_AddAll, keys_kvs]
      simp
    · rw [TMap.length_AddAll_nil, keys_kvs]
    · intro name hname
      have hk : name ∈ (TMap.AddAll []
          ((obj.Pins.filter (fun pin => decide (pin.PinCategory = PC_Action))).map
            (fun pin => (pin.PinName, (⟨[.IE_Released]⟩ : FInputActionState))))).map Prod.fst := by
        rw [TMap.mem_keys_AddAll, keys_kvs]
        exact Or.inr hname
      obtain ⟨v, hv⟩ := TMap.Find_of_mem_keys _ _ hk
      rcases TMap.Find_AddAll_mem _ _ _ _ hv with h | h
      · simp [TMap.Find] at h
      · obtain ⟨pin, _, heq⟩ := List.mem_map.mp h
        simp only [Prod.mk.injEq] at heq
        rw [hv, ← heq.2]
  · intro hN
    rw [hIA, EmplaceState_not_input obj x.entry hN]

/-! ## `GetNextNodes`: what it returns -/

theorem foldlM_ok_inv {α β : Type} (P : β → Prop) (f : β → α → Except Fault β) :
    ∀ (l : List α) (init r : β), P init →
      (∀ (b : β) (a : α) (b' : β), a ∈ l → P b → f b a = .ok b' → P b') →
      l.foldlM f init = .ok r → P r := by
  intro l
  induction l with
  | nil =>
    intro init r h0 _ hres
    simp only [List.foldlM_nil] at hres
    cases hres
    exact h0
  | cons a l ih =>
    intro init r h0 hstep hres
    rw [List.foldlM_cons] at hres
    cases hfa : f init a with
    | error e =>
      rw [hfa] at hres
      cases hres
    | ok b' =>
      rw [hfa] at hres
      exact ih b' r (hstep init a b' (List.mem_cons_self _ _) h0 hfa)
        (fun b a' b'' ha' => hstep b a' b'' (List.mem_cons_of_mem _ ha')) hres

/-- Every node that `GetNextNodes` appends exists and is not a Hub node. -/
theorem GetNextNodes_targets (g : UEdGraph) :
    ∀ (fuel node : Nat) (out r : List Nat), GetNextNodes g fuel node out = .ok r →
      (∀ c ∈ out, ∃ obj, g.Objects[c]? = some obj ∧ obj.Class ≠ .Hub) →
      ∀ c ∈ r, ∃ obj, g.Objects[c]? = some obj ∧ obj.Class ≠ .Hub := by
  intro fuel
  induction fuel with
  | zero =>
    intro node out r h
    simp [GetNextNodes] at h
  | succ fuel ih =>
    intro node out r h hout
    unfold GetNextNodes at h
    split at h
    · cases h
      exact hout
    · rename_i n hn
      refine foldlM_ok_inv (fun o => ∀ c ∈ o, ∃ obj, g.Objects[c]? = some obj ∧ obj.Class ≠ .Hub)
        _ n.Pins out r hout ?_ h
      intro b pin b' _ hb hstep
      split_ifs at hstep with hcond
      · refine foldlM_ok_inv
          (fun o => ∀ c ∈ o, ∃ obj, g.Objects[c]? = some obj ∧ obj.Class ≠ .Hub)
          _ pin.LinkedTo b b' hb ?_ hstep
        intro o linkedPin o' _ ho hstep'
        split at hstep'
        · cases hstep'
          exact ho
        · rename_i linkedNode hln
          split_ifs at hstep' with hhub
          · exact ih _ _ _ hstep' ho
          · cases hstep'
            intro c hc
            rcases List.mem_append.mp hc with hc | hc
            · exact ho c hc
            · simp only [List.mem_singleton] at hc
              subst hc
              exact ⟨linkedNode, hln, hhub⟩
      · cases hstep
        exact hb

/-! ## C4: linking the states -/

theorem mapM_ok_getElem? {α β : Type} (f : α → Except Fault β) :
    ∀ (l : List α) (r : List β), l.mapM f = .ok r →
      r.length = l.length ∧
      ∀ (m : Nat) (a : α), l[m]? = some a → ∃ b, f a = .ok b ∧ r[m]? = some b := by
  intro l
  induction l with
  | nil =>
    intro r h
    simp only [List.mapM_nil] at h
    cases h
    exact ⟨rfl, by intro m a hm; simp at hm⟩
  | cons a l ih =>
    intro r h
    rw [List.mapM_cons] at h
    cases hfa : f a with
    | error e =>
      rw [hfa] at h
      cases h
    | ok b =>
      rw [hfa] at h
      cases hl : l.mapM f with
      | error e =>
        rw [hl] at h
        cases h
      | ok bs =>
        rw [hl] at h
        cases h
        obtain ⟨h1, h2⟩ := ih bs hl
        refine ⟨by simp [h1], ?_⟩
        intro m a' hm
        cases m with
        | zero =>
          simp only [List.getElem?_cons_zero, Option.some.injEq] at hm
          subst hm
          exact ⟨b, hfa, by simp⟩
        | succ m =>
          simp only [List.getElem?_cons_succ] at hm
          obtain ⟨b', hb', hr'⟩ := h2 m a' hm
          exact ⟨b', hb', by simpa using hr'⟩

theorem filterMap_eq_map_range {α : Type} (f : α → Option Nat) :
    ∀ (l : List α) (t : Nat → Nat), (∀ (m : Nat) (a : α), l[m]? = some a → f a = some (t m)) →
      l.filterMap f = (List.range l.length).map t := by
  intro l
  induction l with
  | nil => intro t _; rfl
  | cons a l ih =>
    intro t h
    have h0 : f a = some (t 0) := h 0 a (by simp)
    have hrest := ih (fun m => t (m + 1)) (fun m a' hm => h (m + 1) a' (by simpa using hm))
    rw [List.filterMap_cons_some h0, hrest, List.length_cons, List.range_succ_eq_map,
      List.map_cons, List.map_map]
    rfl

/-- In a completed run two states built from the same node coincide, provided
every non-hub node is reached by at most one exec path. -/
theorem Inv_unique_node {g : UEdGraph} {fuel root : Nat} {T : List Emission} {vars : PreSaveVars}
    (hinv : Inv g fuel root T vars) (hlen : T.length = vars.States.length)
    (hpath : ∀ (p q : List Nat) (a : Nat) (obj : UEdGraphNode),
      g.Objects[a]? = some obj → obj.Class ≠ .Hub →
      FollowPath g fuel root p = some a → FollowPath g fuel root q = some a → p = q)
    (j j' : Nat) (x y : Emission) (hx : T[j]? = some x) (hy : T[j']? = some y)
    (hxy : x.entry.Node = y.entry.Node) : j = j' := by
  obtain ⟨obj, _, _, _, hobj, _⟩ := Inv_state_at hinv hlen hx
  have hkid : ∀ (k : Nat) (z : Emission), 0 < k → T[k]? = some z →
      ∃ o, g.Objects[z.entry.Node]? = some o ∧ o.Class ≠ .Hub := by
    intro k z hk hz
    obtain ⟨_, _, w, _, l, m, _, _, hnext, hm, _⟩ := hinv.hparent k z hk hz
    exact GetNextNodes_targets g fuel _ [] l hnext (by simp) _ (List.getElem?_mem hm)
  by_cases hhub : obj.Class = .Hub
  · have hj : j = 0 := by
      by_contra hne
      obtain ⟨o, ho, hoc⟩ := hkid j x (by omega) hx
      rw [hobj] at ho
      cases ho
      exact hoc hhub
    have hj' : j' = 0 := by
      by_contra hne
      obtain ⟨o, ho, hoc⟩ := hkid j' y (by omega) hy
      rw [← hxy, hobj] at ho
      cases ho
      exact hoc hhub
    omega
  · have h1 := hinv.hfollow j x hx
    have h2 := hinv.hfollow j' y hy
    rw [← hxy] at h2
    exact hinv.hinj j j' x y hx hy (hpath _ _ _ obj hobj hhub h1 h2)

/-- C4. `PreSave` links the ordered states into a state machine.  For a
completed run on a graph whose node GUIDs are pairwise distinct and in which
every non-hub node is reached from `Nodes[0]` by at most one exec path, with
`E` the dequeued entries (one per state): no two states are built from the same
node, and the `NextIndice` of the state built from node `n` lists, in the order
of `GetNextNodes(n)`, the indices of the states built from the returned nodes;
each such index is greater than the state's own index and designates a state
whose `DepthIndex` is one greater. -/
theorem PreSave_next_indices (g : UEdGraph) (fuel : Nat) (S : List FInputSequenceState)
    (hrun : PreSave g fuel = .ok S)
    (hguid : ∀ (a b : Nat) (na nb : UEdGraphNode), g.Objects[a]? = some na →
      g.Objects[b]? = some nb → na.NodeGuid = nb.NodeGuid → a = b)
    (hpath : ∀ (root : Nat) (p q : List Nat) (a : Nat) (obj : UEdGraphNode),
      g.Nodes[0]? = some root → g.Objects[a]? = some obj → obj.Class ≠ .Hub →
      FollowPath g fuel root p = some a → FollowPath g fuel root q = some a → p = q) :
    ∃ E : List FNodesQueueEntry, E.length = S.length ∧
      (∀ (j : Nat) (s : FInputSequenceState), S[j]? = some s →
        ∃ e, E[j]? = some e ∧ BuiltFrom g s e) ∧
      (∀ (i j : Nat) (ei ej : FNodesQueueEntry), E[i]? = some ei → E[j]? = some ej →
        ei.Node = ej.Node → i = j) ∧
      (∀ (i : Nat) (s : FInputSequenceState) (e : FNodesQueueEntry),
        S[i]? = some s → E[i]? = some e →
        ∃ l : List Nat, GetNextNodes g fuel e.Node [] = .ok l ∧
          s.NextIndice.length = l.length ∧ s.NextIndice.Nodup ∧
          ∀ (m c : Nat), l[m]? = some c →
            ∃ (j : Nat) (ej : FNodesQueueEntry) (sj : FInputSequenceState),
              s.NextIndice[m]? = some j ∧ E[j]? = some ej ∧ ej.Node = c ∧ S[j]? = some sj ∧
              i < j ∧ sj.DepthIndex = s.DepthIndex + 1) := by
  obtain ⟨root, T, vars, hroot, hinv, hlen, hS⟩ := PreSave_trace hrun
  subst hS
  have hSlen : (LinkStates vars).length = T.length := by rw [LinkStates_length, hlen]
  have huniq := Inv_unique_node hinv hlen (fun p q a obj => hpath root p q a obj hroot)
  have hE : ∀ (j : Nat) (e : FNodesQueueEntry), (T.map Emission.entry)[j]? = some e →
      ∃ x, T[j]? = some x ∧ x.entry = e := by
    intro j e he
    rw [List.getElem?_map] at he
    cases hx : T[j]? with
    | none => simp [hx] at he
    | some x =>
      simp only [hx, Option.map_some', Option.some.injEq] at he
      exact ⟨x, rfl, he⟩
  refine ⟨T.map Emission.entry, by simp [hSlen], ?_, ?_, ?_⟩
  · intro j s hs
    have hj : j < T.length := by
      have := (List.getElem?_eq_some.mp hs).1
      omega
    have hx : T[j]? = some T[j] := List.getElem?_eq_getElem hj
    generalize T[j] = x at hx
    obtain ⟨obj, l, guids, cs, h1, h2, _⟩ := Inv_state_at hinv hlen hx
    rw [hs] at h2
    refine ⟨x.entry, ?_, obj, h1, ?_⟩
    · rw [List.getElem?_map, hx]
      rfl
    · rw [Option.some.inj h2]
  · intro i j ei ej hi hj hij
    obtain ⟨x, hx, rfl⟩ := hE i ei hi
    obtain ⟨y, hy, rfl⟩ := hE j ej hj
    exact huniq i j x y hx hy hij
  · intro i s e hs he
    obtain ⟨x, hx, rfl⟩ := hE i e he
    obtain ⟨obj, l, guids, cs, hobj, hst, hnext, hguids, hcs, hblock⟩ := Inv_state_at hinv hlen hx
    rw [hs] at hst
    have hs' := Option.some.inj hst
    obtain ⟨hglen, hgget⟩ := mapM_ok_getElem? (NodeGuidOf g) l guids hguids
    -- the index registered for the guid of the `m`-th linked node
    have hfind : ∀ (m : Nat) (gd : FGuid), guids[m]? = some gd →
        TMap.Find vars.indexMapping gd = some (cs + m) := by
      intro m gd hgd
      have hm : m < l.length := by
        have := (List.getElem?_eq_some.mp hgd).1
        omega
      have hc : l[m]? = some l[m] := List.getElem?_eq_getElem hm
      generalize l[m] = c at hc
      obtain ⟨gd', hgd', hgm⟩ := hgget m c hc
      rw [hgd] at hgm
      cases hgm
      have hkid := hblock m c hc
      obtain ⟨objc, _, _, _, hobjc, _⟩ := Inv_state_at hinv hlen hkid
      simp only [ChildEntry] at hobjc
      have hgc : objc.NodeGuid = gd := by
        simp only [NodeGuidOf, hobjc] at hgd'
        cases hgd'
        rfl
      have hlt : cs + m < vars.States.length := by
        have := (List.getElem?_eq_some.mp hkid).1
        omega
      obtain ⟨j, hj⟩ := hinv.hidx' (cs + m) _ objc hlt hkid (by simpa [ChildEntry] using hobjc)
      obtain ⟨_, y, objy, hy, hobjy, hgy⟩ := hinv.hidx _ j hj
      have hnode : y.entry.Node = c := hguid _ _ objy objc hobjy hobjc hgy
      have hjeq : j = cs + m := huniq j (cs + m) y _ hy hkid (by simpa [ChildEntry] using hnode)
      rw [← hgc, hj, hjeq]
    have hNI : s.NextIndice = (List.range l.length).map (fun m => cs + m) := by
      rw [hs']
      simp only [LinkedIndices]
      rw [filterMap_eq_map_range _ guids (fun m => cs + m) hfind, hglen]
    refine ⟨l, hnext, by rw [hNI]; simp, ?_, ?_⟩
    · rw [hNI]
      exact (List.nodup_range _).map (fun a b hab => by simpa using hab)
    · intro m c hc
      have hm : m < l.length := (List.getElem?_eq_some.mp hc).1
      have hkid := hblock m c hc
      obtain ⟨objc, _, _, _, _, hstc, _⟩ := Inv_state_at hinv hlen hkid
      refine ⟨cs + m, ChildEntry x.entry i (EmplaceState obj x.entry).2 c, _, ?_, ?_, ?_, hstc,
        by omega, ?_⟩
      · rw [hNI, List.getElem?_map, List.getElem?_range hm]
        rfl
      · rw [List.getElem?_map, hkid]
        rfl
      · rfl
      · rw [hs']
        simp [EmplaceState_DepthIndex, ChildEntry]

/-! ## Witnesses for C1-C4 -/

/-- Witness for C1: the run on `sampleGraph`. -/
theorem PreSave_breadth_first_witness :
    PreSave sampleGraph 10 = .ok sampleStates ∧
    (∃ (E : List FNodesQueueEntry) (parent : List Nat),
      E.length = sampleStates.length ∧ parent.length = sampleStates.length ∧
      (∀ (j : Nat) (e : FNodesQueueEntry), E[j]? = some e →
        ∃ s, sampleStates[j]? = some s ∧ BuiltFrom sampleGraph s e ∧ s.DepthIndex = e.DepthIndex) ∧
      (∃ (root : Nat) (s0 : FInputSequenceState), sampleGraph.Nodes[0]? = some root ∧
        E[0]? = some ⟨root, 0, INDEX_NONE, []⟩ ∧ sampleStates[0]? = some s0 ∧ s0.DepthIndex = 0) ∧
      (∀ (j : Nat) (e : FNodesQueueEntry) (s : FInputSequenceState),
        0 < j → E[j]? = some e → sampleStates[j]? = some s →
        ∃ (p : Nat) (ep : FNodesQueueEntry) (sp : FInputSequenceState) (objp : UEdGraphNode)
          (l : List Nat),
          parent[j]? = some p ∧ p < j ∧ E[p]? = some ep ∧ sampleStates[p]? = some sp ∧
          sampleGraph.Objects[ep.Node]? = some objp ∧
          GetNextNodes sampleGraph 10 ep.Node [] = .ok l ∧ e.Node ∈ l ∧
          e = ChildEntry ep p (EmplaceState objp ep).2 e.Node ∧
          s.DepthIndex = sp.DepthIndex + 1) ∧
      (∀ (i j : Nat) (si sj : FInputSequenceState), i ≤ j → sampleStates[i]? = some si → sampleStates[j]? = some sj →
        si.DepthIndex ≤ sj.DepthIndex) ∧
      (∀ (i j : Nat) (si sj : FInputSequenceState), sampleStates[i]? = some si → sampleStates[j]? = some sj →
        si.DepthIndex < sj.DepthIndex → i < j)) :=
  ⟨by decide, PreSave_breadth_first sampleGraph 10 sampleStates (by decide)⟩

/-- Witness for C2: the run on `sampleGraph`. -/
theorem PreSave_pressed_actions_witness :
    PreSave sampleGraph 10 = .ok sampleStates ∧
    (∃ (E : List FNodesQueueEntry) (parent : List Nat) (anc : List (List Nat)),
      E.length = sampleStates.length ∧ parent.length = sampleStates.length ∧ anc.length = sampleStates.length ∧
      anc[0]? = some [] ∧
      (∃ root : Nat, sampleGraph.Nodes[0]? = some root ∧ E[0]? = some ⟨root, 0, INDEX_NONE, []⟩) ∧
      (∀ (j : Nat) (e : FNodesQueueEntry), 0 < j → E[j]? = some e →
        ∃ (p : Nat) (ep : FNodesQueueEntry) (ancp : List Nat) (l : List Nat),
          parent[j]? = some p ∧ p < j ∧ E[p]? = some ep ∧ anc[p]? = some ancp ∧
          anc[j]? = some (ancp ++ [p]) ∧
          GetNextNodes sampleGraph 10 ep.Node [] = .ok l ∧ e.Node ∈ l) ∧
      (∀ (j : Nat) (s : FInputSequenceState), sampleStates[j]? = some s →
        ∃ (e : FNodesQueueEntry) (obj : UEdGraphNode) (ancj : List Nat),
          E[j]? = some e ∧ sampleGraph.Objects[e.Node]? = some obj ∧ anc[j]? = some ancj ∧
          s = { (EmplaceState obj e).1 with NextIndice := s.NextIndice } ∧
          e.PressedActions = PressedAlong sampleGraph E ancj ∧
          s.PressedActions = PressedOwn obj (PressedAlong sampleGraph E ancj) ∧
          (EmplaceState obj e).2 = PressedAfter obj (PressedAlong sampleGraph E ancj))) :=
  ⟨by decide, PreSave_pressed_actions sampleGraph 10 sampleStates (by decide)⟩

/-- Witness for C3: the run on `sampleGraph`. -/
theorem PreSave_input_actions_witness :
    PreSave sampleGraph 10 = .ok sampleStates ∧
    (∃ E : List FNodesQueueEntry, E.length = sampleStates.length ∧
      ∀ (j : Nat) (s : FInputSequenceState), sampleStates[j]? = some s →
        ∃ (e : FNodesQueueEntry) (obj : UEdGraphNode),
          E[j]? = some e ∧ sampleGraph.Objects[e.Node]? = some obj ∧
          s = { (EmplaceState obj e).1 with NextIndice := s.NextIndice } ∧
          (obj.Class = .Press →
            (s.InputActions.map Prod.fst).Nodup ∧
            (∀ name : FName, name ∈ s.InputActions.map Prod.fst ↔ name ∈ ActionNames obj) ∧
            s.InputActions.length = (ActionNames obj).dedup.length ∧
            (∀ (name : FName) (v : FInputActionState), TMap.Find s.InputActions name = some v →
              ∃ pin ∈ obj.Pins, pin.PinCategory = PC_Action ∧ pin.PinName = name ∧
                v = PressRequirement pin) ∧
            (∀ (i : Nat) (pin : UEdGraphPin), obj.Pins[i]? = some pin →
              pin.PinCategory = PC_Action →
              (∀ (i' : Nat) (pin' : UEdGraphPin), i < i' → obj.Pins[i']? = some pin' →
                pin'.PinCategory = PC_Action → pin'.PinName ≠ pin.PinName) →
              TMap.Find s.InputActions pin.PinName =
                some (if pin.LinkedTo = [] then ⟨[.IE_Pressed, .IE_Released]⟩
                  else ⟨[.IE_Pressed]⟩))) ∧
          (obj.Class = .Release →
            (s.InputActions.map Prod.fst).Nodup ∧
            (∀ name : FName, name ∈ s.InputActions.map Prod.fst ↔ name ∈ ActionNames obj) ∧
            s.InputActions.length = (ActionNames obj).dedup.length ∧
            (∀ name : FName, name ∈ ActionNames obj →
              TMap.Find s.InputActions name = some ⟨[.IE_Released]⟩)) ∧
          (obj.Class.IsInput = false → s.InputActions = [])) :=
  ⟨by decide, PreSave_input_actions sampleGraph 10 sampleStates (by decide)⟩

theorem chainGraph_guids : ∀ (a b : Nat) (na nb : UEdGraphNode), chainGraph.Objects[a]? = some na →
    chainGraph.Objects[b]? = some nb → na.NodeGuid = nb.NodeGuid → a = b := by
  intro a b na nb ha hb hg
  obtain ⟨hla, rfl⟩ := List.getElem?_eq_some.mp ha
  obtain ⟨hlb, rfl⟩ := List.getElem?_eq_some.mp hb
  simp only [chainGraph, List.length_cons, List.length_nil] at hla hlb
  interval_cases a <;> interval_cases b <;> simp [chainGraph] at hg ⊢

theorem chainGraph_follow : ∀ (p : List Nat) (s a : Nat), s ≤ 2 →
    FollowPath chainGraph 5 s p = some a → p = List.replicate (a - s) 0 ∧ s ≤ a ∧ a ≤ 2 := by
  intro p
  induction p with
  | nil =>
    intro s a hs h
    simp only [FollowPath, Option.some.injEq] at h
    subst h
    simp [hs]
  | cons c cs ih =>
    intro s a hs h
    have h0 : GetNextNodes chainGraph 5 0 [] = .ok [1] := by decide
    have h1 : GetNextNodes chainGraph 5 1 [] = .ok [2] := by decide
    have h2 : GetNextNodes chainGraph 5 2 [] = .ok [] := by decide
    interval_cases s
    · simp only [FollowPath, h0] at h
      cases c with
      | zero =>
        simp only [List.getElem?_cons_zero] at h
        obtain ⟨h3, h4, h5⟩ := ih 1 a (by omega) h
        refine ⟨?_, by omega, h5⟩
        rw [h3]
        have : a - 0 = (a - 1) + 1 := by omega
        rw [this, List.replicate_succ]
      | succ c => simp at h
    · simp only [FollowPath, h1] at h
      cases c with
      | zero =>
        simp only [List.getElem?_cons_zero] at h
        obtain ⟨h3, h4, h5⟩ := ih 2 a (by omega) h
        refine ⟨?_, by omega, h5⟩
        rw [h3]
        have : a - 1 = (a - 2) + 1 := by omega
        rw [this, List.replicate_succ]
      | succ c => simp at h
    · simp [FollowPath, h2] at h

theorem chainGraph_paths : ∀ (root : Nat) (p q : List Nat) (a : Nat) (obj : UEdGraphNode),
    chainGraph.Nodes[0]? = some root → chainGraph.Objects[a]? = some obj → obj.Class ≠ .Hub →
    FollowPath chainGraph 5 root p = some a → FollowPath chainGraph 5 root q = some a →
    p = q := by
  intro root p q a obj hroot _ _ hp hq
  have hr : root = 0 := by
    simp only [chainGraph, List.getElem?_cons_zero, Option.some.injEq] at hroot
    exact hroot.symm
  subst hr
  rw [(chainGraph_follow p 0 a (by omega) hp).1, (chainGraph_follow q 0 a (by omega) hq).1]

/-- Witness for C4: the run on `chainGraph`, whose GUIDs are distinct and whose
nodes are each reached by one exec path. -/
theorem PreSave_next_indices_witness :
    PreSave chainGraph 5 = .ok chainStates ∧
    (∀ (a b : Nat) (na nb : UEdGraphNode), chainGraph.Objects[a]? = some na →
      chainGraph.Objects[b]? = some nb → na.NodeGuid = nb.NodeGuid → a = b) ∧
    (∀ (root : Nat) (p q : List Nat) (a : Nat) (obj : UEdGraphNode),
      chainGraph.Nodes[0]? = some root → chainGraph.Objects[a]? = some obj → obj.Class ≠ .Hub →
      FollowPath chainGraph 5 root p = some a → FollowPath chainGraph 5 root q = some a →
      p = q) ∧
    (∃ E : List FNodesQueueEntry, E.length = chainStates.length ∧
      (∀ (j : Nat) (s : FInputSequenceState), chainStates[j]? = some s →
        ∃ e, E[j]? = some e ∧ BuiltFrom chainGraph s e) ∧
      (∀ (i j : Nat) (ei ej : FNodesQueueEntry), E[i]? = some ei → E[j]? = some ej →
        ei.Node = ej.Node → i = j) ∧
      (∀ (i : Nat) (s : FInputSequenceState) (e : FNodesQueueEntry),
        chainStates[i]? = some s → E[i]? = some e →
        ∃ l : List Nat, GetNextNodes chainGraph 5 e.Node [] = .ok l ∧
          s.NextIndice.length = l.length ∧ s.NextIndice.Nodup ∧
          ∀ (m c : Nat), l[m]? = some c →
            ∃ (j : Nat) (ej : FNodesQueueEntry) (sj : FInputSequenceState),
              s.NextIndice[m]? = some j ∧ E[j]? = some ej ∧ ej.Node = c ∧ chainStates[j]? = some sj ∧
              i < j ∧ sj.DepthIndex = s.DepthIndex + 1)) :=
  ⟨by decide, chainGraph_guids, chainGraph_paths,
    PreSave_next_indices chainGraph 5 chainStates (by decide) chainGraph_guids chainGraph_paths⟩

/-! ## C5: `CanCreateConnection` -/

/-- C5. `CanCreateConnection` disallows a connection exactly when a pin is
null, or both pins are on the same node, or both have the same direction, or
their categories differ; the message is that of the first of these checks, in
this order, that applies; in every other case the response is
`CONNECT_RESPONSE_BREAK_OTHERS_AB` with an empty message.  An Exec pin is never
connectable to an Input Action pin, in either order. -/
theorem CanCreateConnection_spec (pinA pinB : Option PinPtr) :
    ((CanCreateConnection pinA pinB).Response = .CONNECT_RESPONSE_DISALLOW ↔
      (pinA = none ∨ pinB = none ∨
        ∃ a b, pinA = some a ∧ pinB = some b ∧
          (a.OwningNode = b.OwningNode ∨ a.Pin.Direction = b.Pin.Direction ∨
            a.Pin.PinCategory ≠ b.Pin.PinCategory))) ∧
    ((pinA = none ∨ pinB = none) →
      CanCreateConnection pinA pinB =
        ⟨.CONNECT_RESPONSE_DISALLOW, "One or Both of the pins was null"⟩) ∧
    (∀ a b, pinA = some a → pinB = some b →
      (a.OwningNode = b.OwningNode →
        CanCreateConnection pinA pinB =
          ⟨.CONNECT_RESPONSE_DISALLOW, "Both pins are on the same node"⟩) ∧
      (a.OwningNode ≠ b.OwningNode → a.Pin.Direction = b.Pin.Direction →
        CanCreateConnection pinA pinB =
          ⟨.CONNECT_RESPONSE_DISALLOW,
            "Both pins have same direction (both input or both output)"⟩) ∧
      (a.OwningNode ≠ b.OwningNode → a.Pin.Direction ≠ b.Pin.Direction →
        a.Pin.PinCategory ≠ b.Pin.PinCategory →
        CanCreateConnection pinA pinB =
          ⟨.CONNECT_RESPONSE_DISALLOW,
            "The pin types are mismatched (Flow pins should be connected to Flow pins, Input Action pins - to Input Action pins)"⟩) ∧
      (a.OwningNode ≠ b.OwningNode → a.Pin.Direction ≠ b.Pin.Direction →
        a.Pin.PinCategory = b.Pin.PinCategory →
        CanCreateConnection pinA pinB = ⟨.CONNECT_RESPONSE_BREAK_OTHERS_AB, ""⟩) ∧
      ((a.Pin.PinCategory = PC_Exec ∧ b.Pin.PinCategory = PC_Action) ∨
        (a.Pin.PinCategory = PC_Action ∧ b.Pin.PinCategory = PC_Exec) →
        (CanCreateConnection pinA pinB).Response = .CONNECT_RESPONSE_DISALLOW)) := by
  have hne : PC_Exec ≠ PC_Action := by decide
  refine ⟨?_, ?_, ?_⟩
  · cases pinA with
    | none => simp [CanCreateConnection]
    | some a =>
      cases pinB with
      | none => simp [CanCreateConnection]
      | some b =>
        simp only [CanCreateConnection, false_or, Option.some.injEq, exists_and_left,
          exists_eq_left', reduceCtorEq]
        by_cases h1 : a.OwningNode = b.OwningNode
        · simp [h1]
        · by_cases h2 : a.Pin.Direction = b.Pin.Direction
          · simp [h1, h2]
          · by_cases h3 : a.Pin.PinCategory = b.Pin.PinCategory
            · simp [h1, h2, h3]
            · simp [h1, h2, h3]
  · rintro (h | h)
    · subst h
      cases pinB <;> rfl
    · subst h
      cases pinA <;> rfl
  · intro a b ha hb
    subst ha hb
    refine ⟨?_, ?_, ?_, ?_, ?_⟩
    · intro h1
      simp [CanCreateConnection, h1]
    · intro h1 h2
      simp [CanCreateConnection, h1, h2]
    · intro h1 h2 h3
      simp [CanCreateConnection, h1, h2, h3]
    · intro h1 h2 h3
      simp [CanCreateConnection, h1, h2, h3]
    · intro h
      have h3 : a.Pin.PinCategory ≠ b.Pin.PinCategory := by
        rcases h with ⟨ha, hb⟩ | ⟨ha, hb⟩
        · rw [ha, hb]
          exact hne
        · rw [ha, hb]
          exact hne.symm
      simp only [CanCreateConnection]
      split_ifs <;> rfl

/-! ## C6: `GetGraphContextActions` -/

/-- C6. `GetGraphContextActions` offers exactly the templates Axis, Press and
Hub, GoToStart if and only if there is no source pin or the source pin is an
output pin, and Start if and only if the graph holds no Start node; each at
most once, and never Release. -/
theorem GetGraphContextActions_spec (g : UEdGraph) (FromPin : Option UEdGraphPin) :
    (∀ c : NodeClass, c ∈ GetGraphContextActions g FromPin ↔
      (c = .Axis ∨ c = .Press ∨ c = .Hub ∨
        (c = .GoToStart ∧
          (FromPin = none ∨ ∃ pin, FromPin = some pin ∧ pin.Direction = .EGPD_Output)) ∨
        (c = .Start ∧
          ¬ ∃ (a : Nat) (n : UEdGraphNode), a ∈ g.Nodes ∧ g.Objects[a]? = some n ∧
            n.Class = .Start))) ∧
    (GetGraphContextActions g FromPin).Nodup ∧
    NodeClass.Release ∉ GetGraphContextActions g FromPin := by
  have hstart : HasNodeOfClass g .Start = true ↔
      ∃ (a : Nat) (n : UEdGraphNode), a ∈ g.Nodes ∧ g.Objects[a]? = some n ∧ n.Class = .Start := by
    simp only [HasNodeOfClass, List.any_eq_true]
    constructor
    · rintro ⟨a, ha, h⟩
      cases hn : g.Objects[a]? with
      | none => simp [hn] at h
      | some n =>
        simp only [hn, decide_eq_true_eq] at h
        exact ⟨a, n, ha, hn, h⟩
    · rintro ⟨a, n, ha, hn, hc⟩
      exact ⟨a, ha, by simp [hn, hc]⟩
  generalize (∃ (a : Nat) (n : UEdGraphNode), a ∈ g.Nodes ∧ g.Objects[a]? = some n ∧
    n.Class = .Start) = P at hstart ⊢
  by_cases hs : HasNodeOfClass g .Start = true
  · have hs' := hstart.mp hs
    cases FromPin with
    | none =>
      simp only [GetGraphContextActions, AddNewActionIfHasNo, hs, if_true]
      refine ⟨?_, by decide, by decide⟩
      intro c
      cases c <;> simp [hs']
    | some pin =>
      by_cases hd : pin.Direction = .EGPD_Output
      · simp only [GetGraphContextActions, AddNewActionIfHasNo, hs, if_true, hd]
        refine ⟨?_, by decide, by decide⟩
        intro c
        cases c <;> simp [hs', hd]
      · simp only [GetGraphContextActions, AddNewActionIfHasNo, hs, if_true, hd, if_false]
        refine ⟨?_, by decide, by decide⟩
        intro c
        cases c <;> simp [hs', hd]
  · have hs' : ¬ P := fun h => hs (hstart.mpr h)
    cases FromPin with
    | none =>
      simp only [GetGraphContextActions, AddNewActionIfHasNo, hs, if_false]
      refine ⟨?_, by decide, by decide⟩
      intro c
      cases c <;> simp [hs']
    | some pin =>
      by_cases hd : pin.Direction = .EGPD_Output
      · simp only [GetGraphContextActions, AddNewActionIfHasNo, hs, if_false, hd, if_true]
        refine ⟨?_, by decide, by decide⟩
        intro c
        cases c <;> simp [hs', hd]
      · simp only [GetGraphContextActions, AddNewActionIfHasNo, hs, if_false, hd]
        refine ⟨?_, by decide, by decide⟩
        intro c
        cases c <;> simp [hs', hd]

/-! ## C8: the paired axis name is split back -/

theorem FString.Find_cons (c : Char) (s sub : List Char) :
    FString.Find (c :: s) sub =
      if sub.isPrefixOf (c :: s) then some 0 else (FString.Find s sub).map (fun i => i + 1) :=
  rfl

theorem FString.Find_append_sep (A B : List Char)
    (hcontains : ¬ separator.data <:+: A) (hends : ¬ [' ', '^'] <:+ A) :
    FString.Find (A ++ (separator.data ++ B)) separator.data = some A.length := by
  have hsep : separator.data = [' ', '^', ' '] := rfl
  induction A with
  | nil =>
    rw [hsep]
    cases B <;> simp [FString.Find, List.isPrefixOf]
  | cons c A ih =>
    have hin' : ¬ separator.data <:+: A :=
      fun h => hcontains (h.trans (List.infix_cons (List.infix_refl _)))
    have hsu' : ¬ [' ', '^'] <:+ A := fun h => hends (h.trans (List.suffix_cons c A))
    have hnot : List.isPrefixOf separator.data (c :: (A ++ (separator.data ++ B))) = false := by
      rw [hsep] at hcontains ⊢
      match A, hends, hcontains with
      | [], _, _ => simp [List.isPrefixOf]
      | [d], hs, _ =>
        by_contra hcon
        simp only [List.cons_append, List.nil_append, List.isPrefixOf, Bool.and_true,
          Bool.not_eq_false, Bool.and_eq_true, beq_iff_eq] at hcon
        apply hs
        rw [← hcon.1, ← hcon.2.1]
      | d :: e :: A', _, hi =>
        by_contra hcon
        simp only [List.cons_append, List.isPrefixOf, Bool.and_true, Bool.not_eq_false,
          Bool.and_eq_true, beq_iff_eq] at hcon
        apply hi
        obtain ⟨h1, h2, h3⟩ := hcon
        rw [← h1, ← h2, ← h3]
        exact (List.prefix_append [' ', '^', ' '] A').isInfix
    rw [List.cons_append, FString.Find_cons, hnot, ih hin' hsu']
    rfl

/-- C8. A paired 2D axis name `A ^ B`, built as `A + separator + B`, is split
back at the first occurrence of the separator into `lhs = A` and `rhs = B`,
provided `A` neither contains the separator nor ends with `" ^"`. -/
theorem Split_paired_name (A B : String)
    (hcontains : ¬ separator.data <:+: A.data) (hends : ¬ " ^".data <:+ A.data) :
    FString.Split (A ++ separator ++ B) separator = some (A, B) := by
  have hfind := FString.Find_append_sep A.data B.data hcontains hends
  unfold FString.Split
  simp only [String.data_append, List.append_assoc]
  rw [hfind]
  simp only [Option.some.injEq, Prod.mk.injEq]
  constructor
  · rw [List.take_left' rfl]
  · rw [← List.drop_drop, List.drop_left' rfl, List.drop_left' rfl]

/-- Witness for C8: the pair of axis names `MoveForward` and `MoveRight`. -/
theorem Split_paired_name_witness :
    (¬ separator.data <:+: ("MoveForward" : String).data) ∧
    (¬ " ^".data <:+ ("MoveForward" : String).data) ∧
    FString.Split ("MoveForward" ++ separator ++ "MoveRight") separator =
      some ("MoveForward", "MoveRight") :=
  ⟨by decide, by decide,
    Split_paired_name "MoveForward" "MoveRight" (by decide) (by decide)⟩

/-! ## C9: the full round -/

/-- C9. Full round: when the two angle values of a 2D axis pin differ by more
than 360 degrees, the compiled range is exactly `-pi/2 .. 3*pi/2`, whatever the
values (over the reals). -/
theorem AngularRange_full_round (fuel : Nat) (X Y : ℝ) (h : 360 < |X - Y|) :
    AngularRange Real.pi fuel X Y = some (-(Real.pi / 2), 3 * Real.pi / 2) := by
  have hpi : 0 < Real.pi := Real.pi_pos
  have hcond : FMath.Max (FMath.DegreesToRadians Real.pi X) (FMath.DegreesToRadians Real.pi Y) -
      FMath.Min (FMath.DegreesToRadians Real.pi X) (FMath.DegreesToRadians Real.pi Y) >
      2 * Real.pi := by
    unfold FMath.Max FMath.Min FMath.DegreesToRadians
    have h180 : 0 < Real.pi / 180 := by positivity
    rcases lt_or_le (X - Y) 0 with hneg | hpos
    · rw [abs_of_neg hneg] at h
      have hxy : X * (Real.pi / 180) < Y * (Real.pi / 180) := by nlinarith
      have hyx : ¬ Y * (Real.pi / 180) < X * (Real.pi / 180) := not_lt.mpr hxy.le
      rw [if_pos hxy, if_neg hyx]
      nlinarith
    · rw [abs_of_nonneg hpos] at h
      have hyx : Y * (Real.pi / 180) < X * (Real.pi / 180) := by nlinarith
      have hxy : ¬ X * (Real.pi / 180) < Y * (Real.pi / 180) := not_lt.mpr hyx.le
      rw [if_pos hyx, if_neg hxy]
      nlinarith
  unfold AngularRange
  simp only [hcond, if_true]
  congr 2
  ring

/-- Witness for C9: the angle values 0 and 361 degrees. -/
theorem AngularRange_full_round_witness :
    360 < |(0 : ℝ) - 361| ∧
    AngularRange Real.pi 0 (0 : ℝ) 361 = some (-(Real.pi / 2), 3 * Real.pi / 2) :=
  ⟨by norm_num [abs_of_neg], AngularRange_full_round 0 0 361 (by norm_num [abs_of_neg])⟩

/-! ## C10: repositioning of pasted nodes -/

/-- C10 (the code at the failing input).  Two pasted nodes at `(0, 0)` and
`(16, 0)` and the paste location `(0.5, 0)`: the average is `(8, 0)`, the new
positions are `-7.5` and `8.5` truncated toward zero, so the nodes end up 15
units apart instead of 16. -/
theorem PasteReposition_distance_changes :
    PasteReposition [(0, 0), (16, 0)] (1 / 2, 0) = [(-7, 0), (8, 0)] ∧
    ((16 : Int) - 0 ≠ 8 - (-7)) := by
  refine ⟨?_, by decide⟩
  have h1 : TruncToInt (-(15 / 2)) = -7 := by
    unfold TruncToInt
    rw [if_neg (by norm_num)]
    rw [Int.ceil_eq_iff]
    norm_num
  have h2 : TruncToInt (17 / 2) = 8 := by
    unfold TruncToInt
    rw [if_pos (by norm_num)]
    rw [Int.floor_eq_iff]
    norm_num
  have h3 : TruncToInt 0 = 0 := by
    unfold TruncToInt
    simp
  simp only [PasteReposition, List.foldl_cons, List.foldl_nil, List.length_cons, List.length_nil,
    List.map_cons, List.map_nil]
  norm_num [h1, h2, h3]

/-! ## C7: the toggle button of an action pin -/

theorem ModifyNode_Objects (g : UEdGraph) (a b : Nat) (f : UEdGraphNode → UEdGraphNode) :
    (ModifyNode g a f).Objects[b]? = if b = a then (g.Objects[b]?).map f else g.Objects[b]? := by
  unfold ModifyNode
  cases h : g.Objects[a]? with
  | none =>
    by_cases hb : b = a
    · subst hb
      simp [h]
    · simp [hb]
  | some n =>
    have ha : a < g.Objects.length := (List.getElem?_eq_some.mp h).1
    simp only [List.getElem?_set]
    by_cases hb : b = a
    · subst hb
      simp [h, ha]
    · have hb' : ¬ a = b := fun e => hb e.symm
      simp [hb, hb']

theorem ModifyNode_Nodes (g : UEdGraph) (a : Nat) (f : UEdGraphNode → UEdGraphNode) :
    (ModifyNode g a f).Nodes = g.Nodes := by
  unfold ModifyNode
  cases g.Objects[a]? <;> rfl

theorem ModifyPin_Nodes (g : UEdGraph) (r : PinRef) (f : UEdGraphPin → UEdGraphPin) :
    (ModifyPin g r f).Nodes = g.Nodes := ModifyNode_Nodes _ _ _

theorem GetPin_ModifyPin (g : UEdGraph) (r r' : PinRef) (f : UEdGraphPin → UEdGraphPin) :
    GetPin (ModifyPin g r f) r' = if r' = r then (GetPin g r').map f else GetPin g r' := by
  unfold GetPin ModifyPin
  rw [ModifyNode_Objects]
  by_cases ho : r'.Owner = r.Owner
  · rw [if_pos ho]
    cases hn : g.Objects[r'.Owner]? with
    | none => simp
    | some n =>
      simp only [Option.map_some']
      by_cases hi : r'.Index = r.Index
      · have hr : r' = r := by
          cases r
          cases r'
          simp_all
        subst hr
        cases hp : n.Pins[r'.Index]? with
        | none => simp [hp]
        | some pin =>
          have hlt : r'.Index < n.Pins.length := (List.getElem?_eq_some.mp hp).1
          simp [List.getElem?_set, hlt]
      · have hr : ¬ r' = r := fun e => hi (by rw [e])
        have hi' : ¬ r.Index = r'.Index := fun e => hi e.symm
        rw [if_neg hr]
        cases hp : n.Pins[r.Index]? with
        | none => rfl
        | some pin => simp [List.getElem?_set, hi']
  · have hr : ¬ r' = r := fun e => ho (by rw [e])
    rw [if_neg ho, if_neg hr]

theorem ModifyPin_Objects_isSome (g : UEdGraph) (r : PinRef) (f : UEdGraphPin → UEdGraphPin)
    (a : Nat) : ((ModifyPin g r f).Objects[a]?).isSome = (g.Objects[a]?).isSome := by
  unfold ModifyPin
  rw [ModifyNode_Objects]
  split_ifs <;> cases g.Objects[a]? <;> rfl

/-- The pins after a link between `A` and `B` has been taken out on both sides. -/
theorem GetPin_unlink (g : UEdGraph) (A B r : PinRef) :
    GetPin (ModifyPin (ModifyPin g A (KeepLinks (fun x => decide (x ≠ B)))) B
        (KeepLinks (fun x => decide (x ≠ A)))) r =
      (GetPin g r).map
        (KeepLinks (fun x => !(decide (r = A ∧ x = B)) && !(decide (r = B ∧ x = A)))) := by
  rw [GetPin_ModifyPin, GetPin_ModifyPin]
  cases hp : GetPin g r with
  | none => split_ifs <;> rfl
  | some pin =>
    by_cases hA : r = A
    · by_cases hB : r = B
      · subst hA
        subst hB
        simp only [if_true, Option.map_some', KeepLinks, List.filter_filter, Option.some.injEq]
        congr 1
        apply List.filter_congr
        intro x _
        by_cases hx : x = r <;> simp [hx]
      · subst hA
        have hAB : ¬ r = B := hB
        simp only [hAB, if_true, if_false, Option.map_some', KeepLinks, Option.some.injEq]
        congr 1
        apply List.filter_congr
        intro x _
        by_cases hx : x = B <;> simp [hx, hAB]
    · by_cases hB : r = B
      · subst hB
        simp only [hA, if_true, if_false, Option.map_some', KeepLinks, Option.some.injEq]
        congr 1
        apply List.filter_congr
        intro x _
        by_cases hx : x = A <;> simp [hx, hA]
      · have : pin.LinkedTo.filter
            (fun x => !(decide (r = A ∧ x = B)) && !(decide (r = B ∧ x = A))) = pin.LinkedTo := by
          rw [List.filter_eq_self]
          intro x _
          simp [hA, hB]
        rw [if_neg hB, if_neg hA]
        simp only [Option.map_some', KeepLinks, this]

theorem BreakLinkTo_eq (g : UEdGraph) (A B : PinRef) :
    BreakLinkTo g A B = g ∨
    ((∃ pinA : UEdGraphPin, GetPin g A = some pinA ∧ B ∈ pinA.LinkedTo) ∧
      BreakLinkTo g A B =
        ModifyPin (ModifyPin g A (KeepLinks (fun x => decide (x ≠ B)))) B
          (KeepLinks (fun x => decide (x ≠ A)))) := by
  unfold BreakLinkTo
  cases g.Objects[B.Owner]? with
  | none => exact Or.inl rfl
  | some n =>
    cases hA : GetPin g A with
    | none => exact Or.inl rfl
    | some pinA =>
      simp only
      by_cases hB : B ∈ pinA.LinkedTo
      · rw [if_pos hB]
        exact Or.inr ⟨⟨pinA, rfl, hB⟩, rfl⟩
      · rw [if_neg hB]
        exact Or.inl rfl

theorem unlink_NoLink (p q A B : PinRef) (g : UEdGraph) (h : NoLink p q g) :
    NoLink p q (ModifyPin (ModifyPin g A (KeepLinks (fun x => decide (x ≠ B)))) B
      (KeepLinks (fun x => decide (x ≠ A)))) := by
  intro pin hpin
  rw [GetPin_unlink] at hpin
  cases hp : GetPin g p with
  | none => simp [hp] at hpin
  | some pin0 =>
    simp only [hp, Option.map_some', Option.some.injEq] at hpin
    subst hpin
    intro hq
    exact h pin0 hp (List.mem_filter.mp hq).1

theorem unlink_UnlinkInv (p q A B : PinRef) (Nodes0 : List Nat) (g : UEdGraph)
    (h : UnlinkInv p q Nodes0 g) :
    UnlinkInv p q Nodes0 (ModifyPin (ModifyPin g A (KeepLinks (fun x => decide (x ≠ B)))) B
      (KeepLinks (fun x => decide (x ≠ A)))) := by
  obtain ⟨hn, ⟨pin0, hp0, hsub⟩, hlink⟩ := h
  refine ⟨by rw [ModifyPin_Nodes, ModifyPin_Nodes, hn], ?_, ?_⟩
  · refine ⟨_, by rw [GetPin_unlink, hp0]; rfl, ?_⟩
    intro x hx
    exact hsub x (List.mem_filter.mp hx).1
  · rcases hlink with hno | ⟨pq, hq, hmem⟩
    · exact Or.inl (unlink_NoLink p q A B g hno)
    · by_cases hrem : (q = A ∧ p = B) ∨ (q = B ∧ p = A)
      · left
        intro pin hpin
        rw [GetPin_unlink, hp0] at hpin
        simp only [Option.map_some', Option.some.injEq] at hpin
        subst hpin
        intro hmem'
        have := (List.mem_filter.mp hmem').2
        rcases hrem with ⟨h1, h2⟩ | ⟨h1, h2⟩
        · simp [h1, h2] at this
        · simp [h1, h2] at this
      · right
        refine ⟨_, by rw [GetPin_unlink, hq]; rfl, ?_⟩
        simp only [KeepLinks]
        apply List.mem_filter.mpr
        refine ⟨hmem, ?_⟩
        simp only [not_or, not_and] at hrem
        simp only [Bool.and_eq_true, Bool.not_eq_true', decide_eq_false_iff_not, not_and]
        exact hrem

theorem BreakLinkTo_NoLink (p q A B : PinRef) (g : UEdGraph) (h : NoLink p q g) :
    NoLink p q (BreakLinkTo g A B) := by
  rcases BreakLinkTo_eq g A B with he | ⟨_, he⟩
  · rw [he]
    exact h
  · rw [he]
    exact unlink_NoLink p q A B g h

theorem BreakLinkTo_UnlinkInv (p q A B : PinRef) (Nodes0 : List Nat) (g : UEdGraph)
    (h : UnlinkInv p q Nodes0 g) : UnlinkInv p q Nodes0 (BreakLinkTo g A B) := by
  rcases BreakLinkTo_eq g A B with he | ⟨_, he⟩
  · rw [he]
    exact h
  · rw [he]
    exact unlink_UnlinkInv p q A B Nodes0 g h

/-- Breaking the link from `q` to `p` leaves `p` without a link to `q`. -/
theorem BreakLinkTo_breaks (p q : PinRef) (Nodes0 : List Nat) (g : UEdGraph)
    (h : UnlinkInv p q Nodes0 g) : NoLink p q (BreakLinkTo g q p) := by
  obtain ⟨_, ⟨pin0, hp0, _⟩, hlink⟩ := h
  have hown : ∃ n, g.Objects[p.Owner]? = some n := by
    unfold GetPin at hp0
    cases hn : g.Objects[p.Owner]? with
    | none => simp [hn] at hp0
    | some n => exact ⟨n, rfl⟩
  obtain ⟨n, hn⟩ := hown
  unfold BreakLinkTo
  simp only [hn]
  cases hq : GetPin g q with
  | none =>
    simp only
    rcases hlink with hno | ⟨pq, hq', _⟩
    · exact hno
    · rw [hq] at hq'
      cases hq'
  | some pq =>
    simp only
    by_cases hmem : p ∈ pq.LinkedTo
    · rw [if_pos hmem]
      intro pin hpin
      rw [GetPin_unlink, hp0] at hpin
      simp only [Option.map_some', Option.some.injEq] at hpin
      subst hpin
      intro hmem'
      have := (List.mem_filter.mp hmem').2
      simp at this
    · rw [if_neg hmem]
      rcases hlink with hno | ⟨pq', hq', hmem'⟩
      · exact hno
      · rw [hq] at hq'
        cases hq'
        exact (hmem hmem').elim

theorem foldl_BreakLinkTo (p q This : PinRef) (Nodes0 : List Nat) :
    ∀ (L : List PinRef) (g : UEdGraph), UnlinkInv p q Nodes0 g →
      UnlinkInv p q Nodes0 (L.foldl (fun g OtherPin => BreakLinkTo g This OtherPin) g) ∧
      (NoLink p q g → NoLink p q (L.foldl (fun g OtherPin => BreakLinkTo g This OtherPin) g)) ∧
      (This = q → p ∈ L →
        NoLink p q (L.foldl (fun g OtherPin => BreakLinkTo g This OtherPin) g)) := by
  intro L
  induction L with
  | nil =>
    intro g h
    exact ⟨h, fun hn => hn, fun _ hmem => by simp at hmem⟩
  | cons x L ih =>
    intro g h
    simp only [List.foldl_cons]
    have h1 := BreakLinkTo_UnlinkInv p q This x Nodes0 g h
    obtain ⟨ih1, ih2, ih3⟩ := ih (BreakLinkTo g This x) h1
    refine ⟨ih1, fun hn => ih2 (BreakLinkTo_NoLink p q This x g hn), ?_⟩
    intro hT hmem
    rcases List.mem_cons.mp hmem with hx | hx
    · subst hT
      subst hx
      exact ih2 (BreakLinkTo_breaks p This Nodes0 g h)
    · exact ih3 hT hx

theorem BreakAllPinLinks_UnlinkInv (p q This : PinRef) (Nodes0 : List Nat) (g : UEdGraph)
    (h : UnlinkInv p q Nodes0 g) :
    UnlinkInv p q Nodes0 (BreakAllPinLinks g This) ∧
    (NoLink p q g → NoLink p q (BreakAllPinLinks g This)) ∧
    (This = q → NoLink p q (BreakAllPinLinks g This)) := by
  unfold BreakAllPinLinks
  cases hT : GetPin g This with
  | none =>
    refine ⟨h, fun hn => hn, ?_⟩
    intro hq
    rcases h.link with hno | ⟨pq, hq', _⟩
    · exact hno
    · rw [← hq, hT] at hq'
      cases hq'
  | some pin =>
    simp only
    obtain ⟨f1, f2, f3⟩ := foldl_BreakLinkTo p q This Nodes0 pin.LinkedTo.reverse g h
    refine ⟨f1, f2, ?_⟩
    intro hq
    rcases h.link with hno | ⟨pq, hq', hmem⟩
    · exact f2 hno
    · rw [← hq, hT] at hq'
      cases hq'
      exact f3 hq (List.mem_reverse.mpr hmem)

theorem foldl_BreakAllPinLinks (p q : PinRef) (node : Nat) (Nodes0 : List Nat) :
    ∀ (L : List Nat) (g : UEdGraph), UnlinkInv p q Nodes0 g →
      UnlinkInv p q Nodes0 (L.foldl (fun g i => BreakAllPinLinks g ⟨node, i⟩) g) ∧
      (NoLink p q g → NoLink p q (L.foldl (fun g i => BreakAllPinLinks g ⟨node, i⟩) g)) ∧
      (q.Owner = node → q.Index ∈ L →
        NoLink p q (L.foldl (fun g i => BreakAllPinLinks g ⟨node, i⟩) g)) := by
  intro L
  induction L with
  | nil =>
    intro g h
    exact ⟨h, fun hn => hn, fun _ hmem => by simp at hmem⟩
  | cons i L ih =>
    intro g h
    simp only [List.foldl_cons]
    obtain ⟨b1, b2, b3⟩ := BreakAllPinLinks_UnlinkInv p q ⟨node, i⟩ Nodes0 g h
    obtain ⟨ih1, ih2, ih3⟩ := ih _ b1
    refine ⟨ih1, fun hn => ih2 (b2 hn), ?_⟩
    intro ho hmem
    rcases List.mem_cons.mp hmem with hx | hx
    · have hq : (⟨node, i⟩ : PinRef) = q := by
        cases q
        simp_all
      exact ih2 (b3 hq)
    · exact ih3 ho hx

/-- Removing the node that owns `q` leaves `p`, whose only link went to `q`,
without any link, and takes the node out of `Nodes`. -/
theorem RemoveNode_unlinks (g : UEdGraph) (p q : PinRef) (pin pq : UEdGraphPin)
    (hp : GetPin g p = some pin) (hsub : ∀ x ∈ pin.LinkedTo, x = q)
    (hq : GetPin g q = some pq) (hback : p ∈ pq.LinkedTo) :
    q.Owner ∉ (RemoveNode g q.Owner).Nodes ∧
    ∃ pin' : UEdGraphPin, GetPin (RemoveNode g q.Owner) p = some pin' ∧ pin'.LinkedTo = [] := by
  obtain ⟨n, hn, hidx⟩ : ∃ n, g.Objects[q.Owner]? = some n ∧ n.Pins[q.Index]? = some pq := by
    unfold GetPin at hq
    cases hn : g.Objects[q.Owner]? with
    | none => simp [hn] at hq
    | some n =>
      simp only [hn] at hq
      exact ⟨n, rfl, hq⟩
  have hlt : q.Index < n.Pins.length := (List.getElem?_eq_some.mp hidx).1
  have h0 : UnlinkInv p q (g.Nodes.filter (fun a => decide (a ≠ q.Owner)))
      { g with Nodes := g.Nodes.filter (fun a => decide (a ≠ q.Owner)) } :=
    ⟨rfl, ⟨pin, hp, hsub⟩, Or.inr ⟨pq, hq, hback⟩⟩
  obtain ⟨f1, _, f3⟩ := foldl_BreakAllPinLinks p q q.Owner _ (List.range n.Pins.length) _ h0
  have hno := f3 rfl (List.mem_range.mpr hlt)
  have hR : RemoveNode g q.Owner =
      (List.range n.Pins.length).foldl (fun g i => BreakAllPinLinks g ⟨q.Owner, i⟩)
        { g with Nodes := g.Nodes.filter (fun a => decide (a ≠ q.Owner)) } := by
    unfold RemoveNode
    simp only [hn]
  rw [hR]
  refine ⟨?_, ?_⟩
  · rw [f1.nodes]
    intro hmem
    have := (List.mem_filter.mp hmem).2
    simp at this
  · obtain ⟨pin', hp', hsub'⟩ := f1.pin
    refine ⟨pin', hp', ?_⟩
    apply List.eq_nil_iff_forall_not_mem.mpr
    intro x hx
    have hxq := hsub' x hx
    subst hxq
    exact hno pin' hp' hx

theorem ModifyNode_last (O : List UEdGraphNode) (Ns : List Nat)
    (D : List (PinRef × FVector)) (x : UEdGraphNode)
    (f : UEdGraphNode → UEdGraphNode) :
    ModifyNode ⟨O ++ [x], Ns, D⟩ O.length f = ⟨O ++ [f x], Ns, D⟩ := by
  unfold ModifyNode
  simp

theorem GetPin_append (O : List UEdGraphNode) (Ns Ns' : List Nat)
    (D : List (PinRef × FVector)) (x : UEdGraphNode)
    (r : PinRef) (h : r.Owner < O.length) :
    GetPin ⟨O ++ [x], Ns, D⟩ r = GetPin ⟨O, Ns', D⟩ r := by
  unfold GetPin
  simp only
  rw [List.getElem?_append_left h]

theorem GetPin_last (O : List UEdGraphNode) (Ns : List Nat)
    (D : List (PinRef × FVector)) (x : UEdGraphNode) (i : Nat) :
    GetPin ⟨O ++ [x], Ns, D⟩ ⟨O.length, i⟩ = x.Pins[i]? := by
  unfold GetPin
  simp

theorem GetPin_ModifyNode_pins (g : UEdGraph) (a : Nat) (f : UEdGraphNode → UEdGraphNode)
    (hf : ∀ n, (f n).Pins = n.Pins) (r : PinRef) : GetPin (ModifyNode g a f) r = GetPin g r := by
  unfold GetPin
  rw [ModifyNode_Objects]
  split_ifs with h
  · cases g.Objects[r.Owner]? with
    | none => rfl
    | some n => simp [hf]
  · rfl

theorem ModifyNode_class (g : UEdGraph) (a b : Nat) (f : UEdGraphNode → UEdGraphNode)
    (hf : ∀ n, (f n).Class = n.Class) :
    ((ModifyNode g a f).Objects[b]?).map UEdGraphNode.Class =
      (g.Objects[b]?).map UEdGraphNode.Class := by
  rw [ModifyNode_Objects]
  split_ifs with h
  · cases g.Objects[b]? with
    | none => rfl
    | some n => simp [hf]
  · rfl

theorem ModifyNode_length (g : UEdGraph) (a : Nat) (f : UEdGraphNode → UEdGraphNode) :
    (ModifyNode g a f).Objects.length = g.Objects.length := by
  unfold ModifyNode
  cases g.Objects[a]? <;> simp

theorem ModifyPin_class (g : UEdGraph) (r : PinRef) (b : Nat) (f : UEdGraphPin → UEdGraphPin) :
    ((ModifyPin g r f).Objects[b]?).map UEdGraphNode.Class =
      (g.Objects[b]?).map UEdGraphNode.Class := by
  unfold ModifyPin
  apply ModifyNode_class
  intro n
  cases n.Pins[r.Index]? <;> rfl

theorem BreakAllPinLinks_unlinked (g : UEdGraph) (r : PinRef) (pin : UEdGraphPin)
    (h : GetPin g r = some pin) (hl : pin.LinkedTo = []) : BreakAllPinLinks g r = g := by
  unfold BreakAllPinLinks
  rw [h]
  simp [hl]

/-- The click on an unconnected output action pin: the graph after the new
Release node has been created, wired and placed. -/
theorem Toggle_create (g : UEdGraph) (p : PinRef) (FromNode : UEdGraphNode) (pin : UEdGraphPin)
    (hobj : g.Objects[p.Owner]? = some FromNode) (hpin : GetPin g p = some pin)
    (hdir : pin.Direction = .EGPD_Output) (hcat : pin.PinCategory = PC_Action)
    (hlinks : pin.LinkedTo = []) (fuel : Nat) (NewGuid : FGuid) (GridSnapSize : Nat) :
    ∃ g' : UEdGraph, OnClicked_Raw_TogglePin g fuel (some p) NewGuid GridSnapSize = .ok g' ∧
      GetPin g' p = some { pin with LinkedTo := [⟨g.Objects.length, 2⟩] } ∧
      GetPin g' ⟨g.Objects.length, 2⟩ =
        some ⟨pin.PinName, PC_Action, .EGPD_Input, [p]⟩ ∧
      (g'.Objects[g.Objects.length]?).map UEdGraphNode.Class = some .Release ∧
      g.Objects.length ∈ g'.Nodes ∧ g'.Objects.length = g.Objects.length + 1 := by
  have hlt : p.Owner < g.Objects.length := (List.getElem?_eq_some.mp hobj).1
  have hne : PC_Action ≠ PC_Exec := by decide
  have hhas : HasAnyConnections pin = false := by simp [HasAnyConnections, hlinks]
  obtain ⟨O, Ns, D⟩ := g
  simp only at hobj hlt ⊢
  -- the graph after `AddNode`, `CreateNewGuid` and `AllocateDefaultPins`
  have h3 : Input_AllocateDefaultPins
      (ModifyNode (AddNode ⟨O, Ns, D⟩ ⟨.Release, 0, [], 0, 0, []⟩) O.length
        (fun n => { n with NodeGuid := NewGuid })) O.length =
      ⟨O ++ [⟨.Release, NewGuid,
        [⟨NAME_None, PC_Exec, .EGPD_Input, []⟩, ⟨NAME_None, PC_Exec, .EGPD_Output, []⟩],
        0, 0, []⟩], Ns ++ [O.length], D⟩ := by
    simp only [AddNode, Input_AllocateDefaultPins, CreatePin, ModifyNode_last]
    rfl
  -- the graph after `AutowireNewNode`
  have hp3 : ∀ (x : UEdGraphNode) (Ns' : List Nat), GetPin ⟨O ++ [x], Ns', D⟩ p = some pin := by
    intro x Ns'
    rw [GetPin_append O Ns' Ns D x p hlt]
    exact hpin
  have hother : ∀ (x : UEdGraphNode) (Ns' : List Nat) (i : Nat), p ≠ (⟨(O ++ [x]).length - 1, i⟩ : PinRef) := by
    intro x Ns' i e
    rw [e] at hlt
    simp at hlt
  have hpO : p ≠ (⟨O.length, 2⟩ : PinRef) := by
    intro e
    rw [e] at hlt
    simp at hlt
  have h4 : Release_AutowireNewNode
      ⟨O ++ [⟨.Release, NewGuid,
        [⟨NAME_None, PC_Exec, .EGPD_Input, []⟩, ⟨NAME_None, PC_Exec, .EGPD_Output, []⟩],
        0, 0, []⟩], Ns ++ [O.length], D⟩ O.length p =
      .ok (ModifyPin (ModifyPin
        ⟨O ++ [⟨.Release, NewGuid,
          [⟨NAME_None, PC_Exec, .EGPD_Input, []⟩, ⟨NAME_None, PC_Exec, .EGPD_Output, []⟩,
            ⟨pin.PinName, PC_Action, .EGPD_Input, []⟩],
          0, 0, []⟩], Ns ++ [O.length], D⟩
        p (fun q => { q with LinkedTo := q.LinkedTo ++ [⟨O.length, 2⟩] }))
        ⟨O.length, 2⟩ (fun q => { q with LinkedTo := q.LinkedTo ++ [p] })) := by
    unfold Release_AutowireNewNode
    rw [hp3]
    simp only [hdir, hcat, ne_eq, hne, not_false_eq_true, and_self, if_true]
    have hobjs : (O ++ [(⟨.Release, NewGuid,
        [⟨NAME_None, PC_Exec, .EGPD_Input, []⟩, ⟨NAME_None, PC_Exec, .EGPD_Output, []⟩],
        0, 0, []⟩ : UEdGraphNode)])[O.length]? = some ⟨.Release, NewGuid,
        [⟨NAME_None, PC_Exec, .EGPD_Input, []⟩, ⟨NAME_None, PC_Exec, .EGPD_Output, []⟩],
        0, 0, []⟩ := by simp
    simp only [hobjs, CreatePin, ModifyNode_last, List.length_cons, List.length_nil,
      List.cons_append, List.nil_append]
    congr 1
    unfold TryCreateConnection PinPtrOf
    rw [hp3, GetPin_last]
    have hown : (some p.Owner : Option Nat) ≠ some O.length := by
      intro e
      have := Option.some.inj e
      omega
    simp only [List.getElem?_cons_succ, List.getElem?_cons_zero, CanCreateConnection, hown,
      if_false, hdir, hcat, reduceCtorEq, ne_eq, not_true_eq_false]
    rw [BreakAllPinLinks_unlinked _ p pin (hp3 _ _) hlinks,
      BreakAllPinLinks_unlinked _ ⟨O.length, 2⟩ ⟨pin.PinName, PC_Action, .EGPD_Input, []⟩
        (by rw [GetPin_last]; rfl) rfl]
    unfold MakeLinkTo
    rw [hp3]
    simp [hlinks]
  unfold OnClicked_Raw_TogglePin
  simp only [hpin, hobj, hhas, Bool.false_eq_true, if_false]
  rw [h3, h4]
  simp only
  -- the remaining steps touch neither pins nor classes
  have hfinal : ∀ g5 g' : UEdGraph,
      (∀ r : PinRef, GetPin g' r = GetPin g5 r) →
      (∀ b : Nat,
        (g'.Objects[b]?).map UEdGraphNode.Class = (g5.Objects[b]?).map UEdGraphNode.Class) →
      g'.Nodes = g5.Nodes → g'.Objects.length = g5.Objects.length →
      g5 = ModifyPin (ModifyPin
        ⟨O ++ [⟨.Release, NewGuid,
          [⟨NAME_None, PC_Exec, .EGPD_Input, []⟩, ⟨NAME_None, PC_Exec, .EGPD_Output, []⟩,
            ⟨pin.PinName, PC_Action, .EGPD_Input, []⟩],
          0, 0, []⟩], Ns ++ [O.length], D⟩
        p (fun q => { q with LinkedTo := q.LinkedTo ++ [⟨O.length, 2⟩] }))
        ⟨O.length, 2⟩ (fun q => { q with LinkedTo := q.LinkedTo ++ [p] }) →
      GetPin g' p = some { pin with LinkedTo := [⟨O.length, 2⟩] } ∧
      GetPin g' ⟨O.length, 2⟩ = some ⟨pin.PinName, PC_Action, .EGPD_Input, [p]⟩ ∧
      (g'.Objects[O.length]?).map UEdGraphNode.Class = some .Release ∧
      O.length ∈ g'.Nodes ∧ g'.Objects.length = O.length + 1 := by
    intro g5 g' hpins hclass hnodes hlen h5
    subst h5
    refine ⟨?_, ?_, ?_, ?_, ?_⟩
    · rw [hpins, GetPin_ModifyPin, if_neg hpO, GetPin_ModifyPin, if_pos rfl, hp3]
      simp [hlinks]
    · have hpO' : ¬ (⟨O.length, 2⟩ : PinRef) = p := fun e => hpO e.symm
      rw [hpins, GetPin_ModifyPin, if_pos rfl, GetPin_ModifyPin, if_neg hpO', GetPin_last]
      simp
    · rw [hclass, ModifyPin_class, ModifyPin_class]
      simp
    · rw [hnodes, ModifyPin_Nodes, ModifyPin_Nodes]
      simp
    · rw [hlen]
      unfold ModifyPin
      rw [ModifyNode_length, ModifyNode_length]
      simp
  generalize hg5 : ModifyPin (ModifyPin
      (⟨O ++ [⟨.Release, NewGuid,
        [⟨NAME_None, PC_Exec, .EGPD_Input, []⟩, ⟨NAME_None, PC_Exec, .EGPD_Output, []⟩,
          ⟨pin.PinName, PC_Action, .EGPD_Input, []⟩],
        0, 0, []⟩], Ns ++ [O.length], D⟩ : UEdGraph)
      p (fun q => { q with LinkedTo := q.LinkedTo ++ [⟨O.length, 2⟩] }))
      ⟨O.length, 2⟩ (fun q => { q with LinkedTo := q.LinkedTo ++ [p] }) = g5
  split_ifs
  · split
    · refine ⟨_, rfl, hfinal g5 _ ?_ ?_ ?_ ?_ hg5.symm⟩
      · intro r
        rw [GetPin_ModifyNode_pins _ _ _ (by intro n; rfl), GetPin_ModifyNode_pins _ _ _ (by intro n; rfl),
          GetPin_ModifyNode_pins _ _ _ (by intro n; rfl)]
      · intro b
        rw [ModifyNode_class _ _ _ _ (by intro n; rfl), ModifyNode_class _ _ _ _ (by intro n; rfl),
          ModifyNode_class _ _ _ _ (by intro n; rfl)]
      · rw [ModifyNode_Nodes, ModifyNode_Nodes, ModifyNode_Nodes]
      · rw [ModifyNode_length, ModifyNode_length, ModifyNode_length]
    · refine ⟨_, rfl, hfinal g5 _ ?_ ?_ ?_ ?_ hg5.symm⟩
      · intro r
        rw [GetPin_ModifyNode_pins _ _ _ (by intro n; rfl), GetPin_ModifyNode_pins _ _ _ (by intro n; rfl)]
      · intro b
        rw [ModifyNode_class _ _ _ _ (by intro n; rfl), ModifyNode_class _ _ _ _ (by intro n; rfl)]
      · rw [ModifyNode_Nodes, ModifyNode_Nodes]
      · rw [ModifyNode_length, ModifyNode_length]
  · refine ⟨_, rfl, hfinal g5 _ ?_ ?_ ?_ ?_ hg5.symm⟩
    · intro r
      rw [GetPin_ModifyNode_pins _ _ _ (by intro n; rfl), GetPin_ModifyNode_pins _ _ _ (by intro n; rfl)]
    · intro b
      rw [ModifyNode_class _ _ _ _ (by intro n; rfl), ModifyNode_class _ _ _ _ (by intro n; rfl)]
    · rw [ModifyNode_Nodes, ModifyNode_Nodes]
    · rw [ModifyNode_length, ModifyNode_length]

/-- C7. Clicking the toggle button of an output `PC_Action` pin `p` with at
most one link switches it between CLICK and PRESS mode.  The graph is taken
well formed at `p`: a link of `p` goes to a pin that links back to `p` and
sits on a node other than a Press node.  Then the click completes, and
afterwards `p` has a connection if and only if it had none before.  An
unconnected `p` gets a new Release node (at the next free address, listed in
`Nodes`) whose third pin is an input `PC_Action` pin named like `p`, which
`CanCreateConnection` accepts and which is linked to `p` both ways; for a
connected `p` the node owning the linked pin is taken out of `Nodes`.  The
tooltip announces CLICK mode exactly when `p` has a connection and PRESS mode
otherwise, before and after the click. -/
theorem OnClicked_Raw_TogglePin_toggles (g : UEdGraph) (p : PinRef) (pin : UEdGraphPin)
    (hpin : GetPin g p = some pin)
    (hdir : pin.Direction = .EGPD_Output) (hcat : pin.PinCategory = PC_Action)
    (hone : pin.LinkedTo.length ≤ 1)
    (hwf : ∀ q ∈ pin.LinkedTo, ∃ (N : UEdGraphNode) (pq : UEdGraphPin),
      g.Objects[q.Owner]? = some N ∧ N.Class ≠ .Press ∧ GetPin g q = some pq ∧ p ∈ pq.LinkedTo)
    (fuel : Nat) (NewGuid : FGuid) (GridSnapSize : Nat) :
    ∃ (g' : UEdGraph) (pin' : UEdGraphPin),
      OnClicked_Raw_TogglePin g (fuel + 1) (some p) NewGuid GridSnapSize = .ok g' ∧
      GetPin g' p = some pin' ∧
      (HasAnyConnections pin' = true ↔ HasAnyConnections pin = false) ∧
      (HasAnyConnections pin = false →
        pin'.LinkedTo = [⟨g.Objects.length, 2⟩] ∧
        g.Objects[g.Objects.length]? = none ∧
        (g'.Objects[g.Objects.length]?).map UEdGraphNode.Class = some .Release ∧
        g.Objects.length ∈ g'.Nodes ∧
        GetPin g' ⟨g.Objects.length, 2⟩ = some ⟨pin.PinName, PC_Action, .EGPD_Input, [p]⟩ ∧
        CanCreateConnection (some ⟨some p.Owner, pin⟩)
          (some ⟨some g.Objects.length, ⟨pin.PinName, PC_Action, .EGPD_Input, []⟩⟩) =
          ⟨.CONNECT_RESPONSE_BREAK_OTHERS_AB, ""⟩) ∧
      (∀ q ∈ pin.LinkedTo, q.Owner ∉ g'.Nodes) ∧
      (ToolTipText_Raw_TogglePin g (some p) =
        if HasAnyConnections pin = true then "Click to set CLICK mode"
        else "Click to set PRESS mode") ∧
      (ToolTipText_Raw_TogglePin g' (some p) =
        if HasAnyConnections pin' = true then "Click to set CLICK mode"
        else "Click to set PRESS mode") := by
  have htip : ∀ (g0 : UEdGraph) (pin0 : UEdGraphPin), GetPin g0 p = some pin0 →
      ToolTipText_Raw_TogglePin g0 (some p) =
        if HasAnyConnections pin0 = true then "Click to set CLICK mode"
        else "Click to set PRESS mode" := by
    intro g0 pin0 h0
    simp only [ToolTipText_Raw_TogglePin, h0]
  obtain ⟨FromNode, hobj⟩ : ∃ n, g.Objects[p.Owner]? = some n := by
    unfold GetPin at hpin
    cases hn : g.Objects[p.Owner]? with
    | none => simp [hn] at hpin
    | some n => exact ⟨n, rfl⟩
  have hlt : p.Owner < g.Objects.length := (List.getElem?_eq_some.mp hobj).1
  cases hL : pin.LinkedTo with
  | nil =>
    obtain ⟨g', hrun, hp', hnew, hclass, hnodes, _⟩ :=
      Toggle_create g p FromNode pin hobj hpin hdir hcat hL (fuel + 1) NewGuid GridSnapSize
    have hhas : HasAnyConnections pin = false := by simp [HasAnyConnections, hL]
    refine ⟨g', _, hrun, hp', ?_, ?_, ?_, htip g pin hpin, htip g' _ hp'⟩
    · simp [HasAnyConnections, hL]
    · intro _
      refine ⟨rfl, List.getElem?_eq_none (le_refl _), hclass, hnodes, hnew, ?_⟩
      have hown : (some p.Owner : Option Nat) ≠ some g.Objects.length := by
        intro e
        have := Option.some.inj e
        omega
      simp [CanCreateConnection, hown, hdir, hcat]
    · intro q hq
      simp at hq
  | cons q rest =>
    have hrest : rest = [] := by
      rw [hL] at hone
      simp only [List.length_cons] at hone
      exact List.length_eq_zero.mp (by omega)
    subst hrest
    obtain ⟨N, pq, hN, hNc, hq, hback⟩ := hwf q (by rw [hL]; exact List.mem_cons_self _ _)
    have hsub : ∀ x ∈ pin.LinkedTo, x = q := by
      intro x hx
      rw [hL] at hx
      simpa using hx
    obtain ⟨hgone, pin', hp', hnil⟩ := RemoveNode_unlinks g p q pin pq hpin hsub hq hback
    have hhas : HasAnyConnections pin = true := by simp [HasAnyConnections, hL]
    have hrun : OnClicked_Raw_TogglePin g (fuel + 1) (some p) NewGuid GridSnapSize =
        .ok (RemoveNode g q.Owner) := by
      unfold OnClicked_Raw_TogglePin
      simp only [hpin, hobj, hhas, if_true, hL, List.getElem?_cons_zero, hN]
      unfold DestroyNode
      simp only [hN, hNc, if_false]
    refine ⟨RemoveNode g q.Owner, pin', hrun, hp', ?_, ?_, ?_, htip g pin hpin,
      htip _ pin' hp'⟩
    · simp [HasAnyConnections, hL, hnil]
    · intro h
      rw [hhas] at h
      cases h
    · intro x hx
      simp only [List.mem_singleton] at hx
      subst hx
      exact hgone

/-- Witness for C7: the linked pin `Jump` of the Press node of `sampleGraph`,
wired to the Release node. -/
theorem OnClicked_Raw_TogglePin_toggles_witness :
    GetPin sampleGraph ⟨1, 2⟩ = some ⟨"Jump", PC_Action, .EGPD_Output, [⟨3, 2⟩]⟩ ∧
    [(⟨3, 2⟩ : PinRef)].length ≤ 1 ∧
    (∀ q ∈ [(⟨3, 2⟩ : PinRef)], ∃ (N : UEdGraphNode) (pq : UEdGraphPin),
      sampleGraph.Objects[q.Owner]? = some N ∧ N.Class ≠ .Press ∧
      GetPin sampleGraph q = some pq ∧ (⟨1, 2⟩ : PinRef) ∈ pq.LinkedTo) ∧
    ∃ (g' : UEdGraph) (pin' : UEdGraphPin),
      OnClicked_Raw_TogglePin sampleGraph (0 + 1) (some ⟨1, 2⟩) 777 16 = .ok g' ∧
      GetPin g' ⟨1, 2⟩ = some pin' ∧
      (HasAnyConnections pin' = true ↔
        HasAnyConnections ⟨"Jump", PC_Action, .EGPD_Output, [⟨3, 2⟩]⟩ = false) ∧
      (∀ q ∈ [(⟨3, 2⟩ : PinRef)], q.Owner ∉ g'.Nodes) := by
  have hwf : ∀ q ∈ [(⟨3, 2⟩ : PinRef)], ∃ (N : UEdGraphNode) (pq : UEdGraphPin),
      sampleGraph.Objects[q.Owner]? = some N ∧ N.Class ≠ .Press ∧
      GetPin sampleGraph q = some pq ∧ (⟨1, 2⟩ : PinRef) ∈ pq.LinkedTo := by
    intro q hq
    simp only [List.mem_singleton] at hq
    subst hq
    exact ⟨_, _, rfl, by decide, rfl, by decide⟩
  refine ⟨by decide, by decide, hwf, ?_⟩
  obtain ⟨g', pin', h1, h2, h3, _, h5, _⟩ :=
    OnClicked_Raw_TogglePin_toggles sampleGraph ⟨1, 2⟩
      ⟨"Jump", PC_Action, .EGPD_Output, [⟨3, 2⟩]⟩ (by decide) rfl rfl (by decide) hwf 0 777 16
  exact ⟨g', pin', h1, h2, h3, h5⟩

/-! ## The pin factory and the details panel -/

/-- C15: `FInputSequenceGraphPinFactory::CreatePin` selects the pin widget by pin
category.  The result is null exactly when the schema of the pin is not
`UInputSequenceGraphSchema` or its category is none of `PC_Exec`, `PC_Action`,
`PC_Add`, `PC_2DAxis`, `PC_Axis`, `PC_HubAdd`.  Under the schema, an exec pin gets
the Hub exec widget if and only if its owning node exists and is a Hub node,
and the stock exec widget otherwise; the other five categories get the
action, add, 2D-axis, axis and hub-add widget respectively. -/
theorem FactoryCreatePin_by_category (InPin : FactoryPin) :
    (FInputSequenceGraphPinFactory.CreatePin InPin = none ↔
      ¬ (InPin.SchemaIsInputSequence = true ∧
        InPin.PinCategory ∈ [PC_Exec, PC_Action, PC_Add, PC_2DAxis, PC_Axis, PC_HubAdd])) ∧
    (InPin.SchemaIsInputSequence = true → InPin.PinCategory = PC_Exec →
      (FInputSequenceGraphPinFactory.CreatePin InPin = some .SGraphPin_HubExec ↔
        InPin.OwningNode = some .Hub) ∧
      (FInputSequenceGraphPinFactory.CreatePin InPin = some .SGraphPinExec ↔
        InPin.OwningNode ≠ some .Hub)) ∧
    (InPin.SchemaIsInputSequence = true → InPin.PinCategory = PC_Action →
      FInputSequenceGraphPinFactory.CreatePin InPin = some .SGraphPin_Action) ∧
    (InPin.SchemaIsInputSequence = true → InPin.PinCategory = PC_Add →
      FInputSequenceGraphPinFactory.CreatePin InPin = some .SGraphPin_Add) ∧
    (InPin.SchemaIsInputSequence = true → InPin.PinCategory = PC_2DAxis →
      FInputSequenceGraphPinFactory.CreatePin InPin = some .SGraphPin_2DAxis) ∧
    (InPin.SchemaIsInputSequence = true → InPin.PinCategory = PC_Axis →
      FInputSequenceGraphPinFactory.CreatePin InPin = some .SGraphPin_Axis) ∧
    (InPin.SchemaIsInputSequence = true → InPin.PinCategory = PC_HubAdd →
      FInputSequenceGraphPinFactory.CreatePin InPin = some .SGraphPin_HubAdd) := by
  obtain ⟨s, c, o⟩ := InPin
  have h21 : PC_Action ≠ PC_Exec := by decide
  have h31 : PC_Add ≠ PC_Exec := by decide
  have h32 : PC_Add ≠ PC_Action := by decide
  have h41 : PC_2DAxis ≠ PC_Exec := by decide
  have h42 : PC_2DAxis ≠ PC_Action := by decide
  have h43 : PC_2DAxis ≠ PC_Add := by decide
  have h51 : PC_Axis ≠ PC_Exec := by decide
  have h52 : PC_Axis ≠ PC_Action := by decide
  have h53 : PC_Axis ≠ PC_Add := by decide
  have h54 : PC_Axis ≠ PC_2DAxis := by decide
  have h61 : PC_HubAdd ≠ PC_Exec := by decide
  have h62 : PC_HubAdd ≠ PC_Action := by decide
  have h63 : PC_HubAdd ≠ PC_Add := by decide
  have h64 : PC_HubAdd ≠ PC_2DAxis := by decide
  have h65 : PC_HubAdd ≠ PC_Axis := by decide
  refine ⟨?_, ?_, ?_, ?_, ?_, ?_, ?_⟩
  · simp only [FInputSequenceGraphPinFactory.CreatePin, List.mem_cons, List.mem_singleton,
      List.mem_nil_iff, or_false]
    split_ifs <;> simp_all
  · intro hs hc
    simp only at hs hc
    subst hs hc
    simp only [FInputSequenceGraphPinFactory.CreatePin, if_true]
    by_cases ho : o = some NodeClass.Hub
    · simp [ho]
    · simp [ho]
  · intro hs hc
    simp only at hs hc
    subst hs hc
    simp [FInputSequenceGraphPinFactory.CreatePin, h21]
  · intro hs hc
    simp only at hs hc
    subst hs hc
    simp [FInputSequenceGraphPinFactory.CreatePin, h31, h32]
  · intro hs hc
    simp only at hs hc
    subst hs hc
    simp [FInputSequenceGraphPinFactory.CreatePin, h41, h42, h43]
  · intro hs hc
    simp only at hs hc
    subst hs hc
    simp [FInputSequenceGraphPinFactory.CreatePin, h51, h52, h53, h54]
  · intro hs hc
    simp only at hs hc
    subst hs hc
    simp [FInputSequenceGraphPinFactory.CreatePin, h61, h62, h63, h64, h65]

/-- C16: the details panel follows the selection.  `OnSelectionChanged` shows a
node in the details view if and only if that node is the one selected object and
it is an Input node (Press, Release, Axis) or a comment node; in every other
case it shows the input sequence asset: in particular for the empty selection,
for a selection of two or more objects, and for a single Start, Hub or
GoToStart node. -/
theorem OnSelectionChanged_follows_selection (g : UEdGraph) (selectedNodes : List Nat) :
    (∀ a, OnSelectionChanged g selectedNodes = .Node a ↔
      selectedNodes = [a] ∧ ∃ n, g.Objects[a]? = some n ∧
        (n.Class ∈ [NodeClass.Input, NodeClass.Press, NodeClass.Release, NodeClass.Axis] ∨
          n.Class = NodeClass.Comment)) ∧
    (OnSelectionChanged g selectedNodes = .InputSequenceAsset ↔
      ¬ ∃ a n, selectedNodes = [a] ∧ g.Objects[a]? = some n ∧
        (n.Class ∈ [NodeClass.Input, NodeClass.Press, NodeClass.Release, NodeClass.Axis] ∨
          n.Class = NodeClass.Comment)) ∧
    (selectedNodes = [] → OnSelectionChanged g selectedNodes = .InputSequenceAsset) ∧
    (2 ≤ selectedNodes.length → OnSelectionChanged g selectedNodes = .InputSequenceAsset) ∧
    (∀ a n, selectedNodes = [a] → g.Objects[a]? = some n →
      n.Class ∈ [NodeClass.Start, NodeClass.Hub, NodeClass.GoToStart] →
      OnSelectionChanged g selectedNodes = .InputSequenceAsset) := by
  have hin : ∀ c : NodeClass, c.IsInput = true ↔
      c ∈ [NodeClass.Input, NodeClass.Press, NodeClass.Release, NodeClass.Axis] := by
    intro c
    cases c <;> simp [NodeClass.IsInput]
  have key : ∀ a, OnSelectionChanged g selectedNodes = .Node a ↔
      selectedNodes = [a] ∧ ∃ n, g.Objects[a]? = some n ∧
        (n.Class ∈ [NodeClass.Input, NodeClass.Press, NodeClass.Release, NodeClass.Axis] ∨
          n.Class = NodeClass.Comment) := by
    intro a
    match selectedNodes with
    | [] => simp [OnSelectionChanged]
    | [b] =>
      simp only [OnSelectionChanged, List.length_singleton, if_true, List.head?_cons]
      cases hb : g.Objects[b]? with
      | none =>
        simp only [List.cons.injEq, and_true]
        constructor
        · intro h
          cases h
        · rintro ⟨rfl, n, hn, _⟩
          rw [hb] at hn
          cases hn
      | some n =>
        simp only [List.cons.injEq, and_true]
        by_cases hi : n.Class.IsInput = true
        · simp only [hi, if_true, DetailsObject.Node.injEq]
          constructor
          · rintro rfl
            exact ⟨rfl, n, hb, Or.inl ((hin _).mp hi)⟩
          · rintro ⟨rfl, _⟩
            rfl
        · by_cases hc : n.Class = NodeClass.Comment
          · rw [if_neg hi, if_pos hc]
            simp only [DetailsObject.Node.injEq]
            constructor
            · rintro rfl
              exact ⟨rfl, n, hb, Or.inr hc⟩
            · rintro ⟨rfl, _⟩
              rfl
          · rw [if_neg hi, if_neg hc]
            constructor
            · intro h
              cases h
            · rintro ⟨rfl, m, hm, hcl⟩
              rw [hb] at hm
              cases hm
              rcases hcl with hcl | hcl
              · exact (hi ((hin _).mpr hcl)).elim
              · exact (hc hcl).elim
    | b :: c :: l => simp [OnSelectionChanged]
  have asset : OnSelectionChanged g selectedNodes = .InputSequenceAsset ↔
      ¬ ∃ a n, selectedNodes = [a] ∧ g.Objects[a]? = some n ∧
        (n.Class ∈ [NodeClass.Input, NodeClass.Press, NodeClass.Release, NodeClass.Axis] ∨
          n.Class = NodeClass.Comment) := by
    constructor
    · rintro h ⟨a, n, hs, hn, hc⟩
      have := (key a).mpr ⟨hs, n, hn, hc⟩
      rw [h] at this
      cases this
    · intro h
      cases hr : OnSelectionChanged g selectedNodes with
      | InputSequenceAsset => rfl
      | Node a =>
        obtain ⟨hs, n, hn, hc⟩ := (key a).mp hr
        exact (h ⟨a, n, hs, hn, hc⟩).elim
  refine ⟨key, asset, ?_, ?_, ?_⟩
  · intro h
    refine asset.mpr ?_
    rintro ⟨a, n, hs, _⟩
    rw [h] at hs
    cases hs
  · intro h
    refine asset.mpr ?_
    rintro ⟨a, n, hs, _⟩
    rw [hs] at h
    simp at h
  · intro a n hs hn hcl
    refine asset.mpr ?_
    rintro ⟨a', n', hs', hn', hcl'⟩
    rw [hs] at hs'
    cases hs'
    rw [hn] at hn'
    cases hn'
    simp only [List.mem_cons, List.mem_singleton, List.mem_nil_iff, or_false] at hcl hcl'
    rcases hcl with h | h | h <;> rw [h] at hcl' <;> simp at hcl'

/-! ## `PasteNodes`: the selection after a paste -/

theorem mapM_ok_of_forall {α β : Type} (f : α → Except Fault β) :
    ∀ (l : List α), (∀ a ∈ l, ∃ b, f a = .ok b) →
      ∃ r, l.mapM f = .ok r ∧ r.length = l.length := by
  intro l
  induction l with
  | nil =>
    intro _
    exact ⟨[], rfl, rfl⟩
  | cons a l ih =>
    intro h
    obtain ⟨b, hb⟩ := h a (List.mem_cons_self _ _)
    obtain ⟨r, hr, hlen⟩ := ih (fun a' ha' => h a' (List.mem_cons_of_mem _ ha'))
    refine ⟨b :: r, ?_, by simp [hlen]⟩
    rw [List.mapM_cons, hb, hr]
    rfl

theorem foldl_TSet_Add {α : Type} [DecidableEq α] :
    ∀ (l acc : List α), (acc ++ l).Nodup → l.foldl TSet.Add acc = acc ++ l := by
  intro l
  induction l with
  | nil =>
    intro acc _
    simp
  | cons a l ih =>
    intro acc h
    have ha : a ∉ acc := by
      intro hmem
      have := (List.nodup_append.mp h).2.2 hmem
      exact this (List.mem_cons_self _ _)
    rw [List.foldl_cons]
    have hadd : TSet.Add acc a = acc ++ [a] := by
      unfold TSet.Add
      rw [if_neg ha]
    rw [hadd, ih (acc ++ [a]) (by simpa using h)]
    simp

theorem PasteNodesStep_fold (NewGuid : Nat → FGuid) (GridSnapSize : Nat) :
    ∀ (l : List (Nat × (Int × Int))) (ed : SGraphEditor),
      (l.foldl (PasteNodesStep NewGuid GridSnapSize) ed).SelectedNodes =
          (l.map Prod.fst).foldl TSet.Add ed.SelectedNodes ∧
        (l.foldl (PasteNodesStep NewGuid GridSnapSize) ed).CurrentGraph.Nodes =
          ed.CurrentGraph.Nodes ∧
        (l.foldl (PasteNodesStep NewGuid GridSnapSize) ed).CurrentGraph.Objects.length =
          ed.CurrentGraph.Objects.length := by
  intro l
  induction l with
  | nil =>
    intro ed
    exact ⟨rfl, rfl, rfl⟩
  | cons x l ih =>
    intro ed
    obtain ⟨h1, h2, h3⟩ := ih (PasteNodesStep NewGuid GridSnapSize ed x)
    rw [List.foldl_cons, h1, h2, h3]
    refine ⟨?_, ?_, ?_⟩
    · simp [PasteNodesStep, SetNodeSelection]
    · simp [PasteNodesStep, SetNodeSelection, ModifyNode_Nodes]
    · simp [PasteNodesStep, SetNodeSelection, ModifyNode_length]

/-- C11: `PasteNodes` clears the selection set and selects the pasted nodes.  For
every editor state with a valid graph editor and every clipboard content, the
call returns, and the selection afterwards is exactly the set `PastedNodes` of
the nodes imported by the paste: each of them is selected once, they are
nodes of the graph, and they are exactly the node objects created by the
import, so that no node object that existed before (in particular none that was
selected before) is selected afterwards.  Without a graph editor nothing
changes. -/
theorem PasteNodes_selects_pasted (graphEditor : SGraphEditor) (TextToImport : List UEdGraphNode)
    (NewGuid : Nat → FGuid) (GridSnapSize : Nat) :
    (∃ after, PasteNodes ⟨some graphEditor⟩ TextToImport NewGuid GridSnapSize = .ok ⟨some after⟩ ∧
      after.SelectedNodes = (ImportNodesFromText graphEditor.CurrentGraph TextToImport).2 ∧
      after.SelectedNodes.Nodup ∧
      after.SelectedNodes.length = TextToImport.length ∧
      after.CurrentGraph.Nodes = graphEditor.CurrentGraph.Nodes ++ after.SelectedNodes ∧
      (∀ a, a ∈ after.SelectedNodes ↔
        graphEditor.CurrentGraph.Objects.length ≤ a ∧ a < after.CurrentGraph.Objects.length) ∧
      (∀ a ∈ graphEditor.SelectedNodes, a < graphEditor.CurrentGraph.Objects.length →
        a ∉ after.SelectedNodes)) ∧
    PasteNodes ⟨none⟩ TextToImport NewGuid GridSnapSize = .ok ⟨none⟩ := by
  refine ⟨?_, rfl⟩
  obtain ⟨g, sel, loc⟩ := graphEditor
  have hpos : ∀ a ∈ List.range' g.Objects.length TextToImport.length,
      ∃ b, NodePosOf ⟨g.Objects ++ TextToImport,
        g.Nodes ++ List.range' g.Objects.length TextToImport.length,
        g.DefaultValues⟩ a = .ok b := by
    intro a ha
    have hlt : a < (g.Objects ++ TextToImport).length := by
      rw [List.length_append]
      exact (List.mem_range'_1.mp ha).2
    refine ⟨(((g.Objects ++ TextToImport)[a]).NodePosX, ((g.Objects ++ TextToImport)[a]).NodePosY), ?_⟩
    simp only [NodePosOf, List.getElem?_eq_getElem hlt]
  obtain ⟨positions, hmap, hlen⟩ := mapM_ok_of_forall _ _ hpos
  have hzip : ((List.range' g.Objects.length TextToImport.length).zip
      (PasteReposition positions loc)).map Prod.fst =
      List.range' g.Objects.length TextToImport.length := by
    apply List.map_fst_zip
    simp [PasteReposition, hlen]
  obtain ⟨h1, h2, h3⟩ := PasteNodesStep_fold NewGuid GridSnapSize
    ((List.range' g.Objects.length TextToImport.length).zip (PasteReposition positions loc))
    ⟨⟨g.Objects ++ TextToImport, g.Nodes ++ List.range' g.Objects.length TextToImport.length,
      g.DefaultValues⟩,
      [], loc⟩
  rw [hzip, foldl_TSet_Add _ _ (by simpa using List.nodup_range' _ _)] at h1
  simp only [List.nil_append] at h1
  simp only at h2 h3
  have hres : PasteNodes ⟨some ⟨g, sel, loc⟩⟩ TextToImport NewGuid GridSnapSize =
      .ok ⟨some (((List.range' g.Objects.length TextToImport.length).zip
        (PasteReposition positions loc)).foldl (PasteNodesStep NewGuid GridSnapSize)
        ⟨⟨g.Objects ++ TextToImport,
          g.Nodes ++ List.range' g.Objects.length TextToImport.length,
          g.DefaultValues⟩, [], loc⟩)⟩ := by
    simp only [PasteNodes, ClearSelectionSet, ImportNodesFromText, hmap]
  refine ⟨_, hres, ?_, ?_, ?_, ?_, ?_, ?_⟩
  · rw [h1]
    rfl
  · rw [h1]
    exact List.nodup_range' _ _
  · rw [h1]
    simp
  · rw [h1, h2]
  · intro a
    rw [h1, h3, List.mem_range'_1, List.length_append]
  · intro a _ ha
    rw [h1, List.mem_range'_1]
    simp only at ha
    omega

/-! ## `GetNextNodes` as a concatenation of segments -/

theorem appendTo_nil (x : Except Fault (List Nat)) : appendTo [] x = x := by
  cases x <;> simp [appendTo]

theorem appendTo_appendTo (a b : List Nat) (x : Except Fault (List Nat)) :
    appendTo a (appendTo b x) = appendTo (a ++ b) x := by
  cases x <;> simp [appendTo]

theorem foldlM_appendTo {α : Type} (step : List Nat → α → Except Fault (List Nat))
    (s : α → Except Fault (List Nat)) :
    ∀ (L : List α) (out : List Nat), (∀ out a, a ∈ L → step out a = appendTo out (s a)) →
      L.foldlM step out = appendTo out (concatM s L) := by
  intro L
  induction L with
  | nil =>
    intro out _
    simp [concatM, appendTo]
    rfl
  | cons a l ih =>
    intro out h
    rw [List.foldlM_cons, h out a (List.mem_cons_self _ _)]
    have ih' := fun o => ih o (fun out' a' ha' => h out' a' (List.mem_cons_of_mem _ ha'))
    simp only [concatM]
    cases hs : s a with
    | error e => rfl
    | ok r =>
      show l.foldlM step (out ++ r) = appendTo out (appendTo r (concatM s l))
      rw [ih', appendTo_appendTo]

theorem concatM_congr {α : Type} (s s' : α → Except Fault (List Nat)) :
    ∀ (L : List α), (∀ a ∈ L, s a = s' a) → concatM s L = concatM s' L := by
  intro L
  induction L with
  | nil =>
    intro _
    rfl
  | cons a l ih =>
    intro h
    simp only [concatM]
    rw [h a (List.mem_cons_self _ _), ih (fun a' ha' => h a' (List.mem_cons_of_mem _ ha'))]

theorem concatM_append {α : Type} (s : α → Except Fault (List Nat)) :
    ∀ (A B : List α), concatM s (A ++ B) =
      match concatM s A with
      | .error e => .error e
      | .ok r => appendTo r (concatM s B) := by
  intro A
  induction A with
  | nil =>
    intro B
    simp [concatM, appendTo_nil]
  | cons a l ih =>
    intro B
    simp only [List.cons_append, concatM]
    cases hs : s a with
    | error e => rfl
    | ok r =>
      change appendTo r (concatM s (l ++ B)) = _
      rw [ih]
      cases hl : concatM s l with
      | error e => rfl
      | ok r' =>
        change appendTo r (appendTo r' (concatM s B)) = appendTo (r ++ r') (concatM s B)
        rw [appendTo_appendTo]

theorem concatM_map {α β : Type} (s : β → Except Fault (List Nat)) (h : α → β) :
    ∀ (L : List α), concatM s (L.map h) = concatM (fun a => s (h a)) L := by
  intro L
  induction L with
  | nil => rfl
  | cons a l ih =>
    simp only [List.map_cons, concatM]
    rw [ih]

theorem concatM_filter {α : Type} (s : α → Except Fault (List Nat)) (p : α → Bool)
    (hp : ∀ a, p a = false → s a = .ok []) :
    ∀ (L : List α), concatM s (L.filter p) = concatM s L := by
  intro L
  induction L with
  | nil => rfl
  | cons a l ih =>
    cases hpa : p a with
    | true =>
      rw [List.filter_cons_of_pos (by simp [hpa])]
      simp only [concatM]
      rw [ih]
    | false =>
      rw [List.filter_cons_of_neg (by simp [hpa])]
      simp only [concatM]
      rw [hp a hpa, ih]
      simp only [appendTo_nil]

theorem concatM_flatMap {α β : Type} (s : β → Except Fault (List Nat)) (h : α → List β) :
    ∀ (L : List α), concatM s (L.flatMap h) = concatM (fun a => concatM s (h a)) L := by
  intro L
  induction L with
  | nil => rfl
  | cons a l ih =>
    rw [List.flatMap_cons, concatM_append]
    simp only [concatM]
    rw [ih]

/-- Membership in a concatenation. -/
theorem concatM_mem {α : Type} (s : α → Except Fault (List Nat)) :
    ∀ (L : List α) (r : List Nat), concatM s L = .ok r →
      (∀ a ∈ L, ∃ seg, s a = .ok seg) ∧
      ∀ c, c ∈ r ↔ ∃ a seg, a ∈ L ∧ s a = .ok seg ∧ c ∈ seg := by
  intro L
  induction L with
  | nil =>
    intro r h
    simp only [concatM] at h
    cases h
    simp
  | cons a l ih =>
    intro r h
    simp only [concatM] at h
    cases hs : s a with
    | error e =>
      rw [hs] at h
      cases h
    | ok seg =>
      rw [hs] at h
      simp only at h
      cases hl : concatM s l with
      | error e =>
        rw [hl] at h
        cases h
      | ok r' =>
        rw [hl] at h
        simp only [appendTo] at h
        cases h
        obtain ⟨h1, h2⟩ := ih r' hl
        refine ⟨?_, ?_⟩
        · intro a' ha'
          rcases List.mem_cons.mp ha' with rfl | ha'
          · exact ⟨seg, hs⟩
          · exact h1 a' ha'
        · intro c
          rw [List.mem_append, h2]
          constructor
          · rintro (hc | ⟨a', seg', ha', hs', hc⟩)
            · exact ⟨a, seg, List.mem_cons_self _ _, hs, hc⟩
            · exact ⟨a', seg', List.mem_cons_of_mem _ ha', hs', hc⟩
          · rintro ⟨a', seg', ha', hs', hc⟩
            rcases List.mem_cons.mp ha' with rfl | ha'
            · rw [hs] at hs'
              cases hs'
              exact Or.inl hc
            · exact Or.inr ⟨a', seg', ha', hs', hc⟩

/-- A concatenation succeeds when each part does. -/
theorem concatM_ok {α : Type} (s : α → Except Fault (List Nat)) :
    ∀ (L : List α), (∀ a ∈ L, ∃ seg, s a = .ok seg) → ∃ r, concatM s L = .ok r := by
  intro L
  induction L with
  | nil =>
    intro _
    exact ⟨[], rfl⟩
  | cons a l ih =>
    intro h
    obtain ⟨seg, hs⟩ := h a (List.mem_cons_self _ _)
    obtain ⟨r, hr⟩ := ih (fun a' ha' => h a' (List.mem_cons_of_mem _ ha'))
    refine ⟨seg ++ r, ?_⟩
    simp only [concatM, hs, hr, appendTo]

/-- A concatenation as a list of segments, one per member. -/
theorem concatM_segments {α : Type} (s : α → Except Fault (List Nat)) :
    ∀ (L : List α) (r : List Nat), concatM s L = .ok r →
      ∃ segs : List (List Nat), List.Forall₂ (fun a seg => a ∈ L ∧ s a = .ok seg) L segs ∧
        r = segs.flatten := by
  intro L
  induction L with
  | nil =>
    intro r h
    simp only [concatM] at h
    cases h
    exact ⟨[], List.Forall₂.nil, rfl⟩
  | cons a l ih =>
    intro r h
    simp only [concatM] at h
    cases hs : s a with
    | error e =>
      rw [hs] at h
      cases h
    | ok seg =>
      rw [hs] at h
      simp only at h
      cases hl : concatM s l with
      | error e =>
        rw [hl] at h
        cases h
      | ok r' =>
        rw [hl] at h
        simp only [appendTo] at h
        cases h
        obtain ⟨segs, h1, h2⟩ := ih r' hl
        exact ⟨seg :: segs, List.Forall₂.cons ⟨List.mem_cons_self _ _, hs⟩
          (h1.imp (fun _ _ h => ⟨List.mem_cons_of_mem _ h.1, h.2⟩)), by simp [h2]⟩

theorem NextSegment_none (g : UEdGraph) (fuel b : Nat)
    (hb : (fun b => (g.Objects[b]?).isSome) b = false) : NextSegment g fuel b = .ok [] := by
  cases h : g.Objects[b]? with
  | none => simp only [NextSegment, h]
  | some n => simp [h] at hb

/-- The recursion equation of `GetNextNodes`, given that the recursive calls do
not depend on what the accumulator already holds. -/
theorem GetNextNodes_succ (g : UEdGraph) (fuel : Nat)
    (hP : ∀ (u : Nat) (out : List Nat),
      GetNextNodes g fuel u out = appendTo out (GetNextNodes g fuel u [])) :
    ∀ (u : Nat) (out : List Nat),
      GetNextNodes g (fuel + 1) u out =
        appendTo out (concatM (NextSegment g fuel) (ExecLinkedNodes g u)) := by
  intro u out
  simp only [GetNextNodes, ExecLinkedNodes]
  cases hn : g.Objects[u]? with
  | none => simp [concatM, appendTo]
  | some n =>
    simp only
    have hinner : ∀ (pin : UEdGraphPin) (out : List Nat),
        pin.LinkedTo.foldlM (fun out linkedPin =>
          match g.Objects[linkedPin.Owner]? with
          | none => Except.ok out
          | some linkedNode =>
            if linkedNode.Class = NodeClass.Hub then GetNextNodes g fuel linkedPin.Owner out
            else Except.ok (out ++ [linkedPin.Owner])) out =
        appendTo out (concatM (fun lp => NextSegment g fuel lp.Owner) pin.LinkedTo) := by
      intro pin out
      refine foldlM_appendTo _ _ _ _ ?_
      intro out lp _
      simp only [NextSegment]
      cases g.Objects[lp.Owner]? with
      | none => simp [appendTo]
      | some ln =>
        simp only
        split_ifs
        · exact hP _ _
        · rfl
    rw [foldlM_appendTo _ (fun pin => if IsExecOutput pin = true then
      concatM (fun lp => NextSegment g fuel lp.Owner) pin.LinkedTo else .ok []) n.Pins out]
    · congr 1
      rw [concatM_flatMap, ← concatM_filter _ IsExecOutput (by intro a ha; simp [ha])]
      refine concatM_congr _ _ _ ?_
      intro pin hpin
      have hc : IsExecOutput pin = true := (List.mem_filter.mp hpin).2
      rw [if_pos hc, concatM_filter _ _ (NextSegment_none g fuel), concatM_map]
    · intro out pin _
      by_cases hc : pin.PinCategory = PC_Exec ∧ pin.Direction = .EGPD_Output
      · rw [if_pos hc, if_pos (by simp [IsExecOutput, hc]), hinner]
      · rw [if_neg hc, if_neg (by simp [IsExecOutput, hc])]
        simp [appendTo]

/-- The recursion equation of `GetNextNodes`, together with its independence
of the accumulator. -/
theorem GetNextNodes_unfold (g : UEdGraph) :
    ∀ (fuel u : Nat) (out : List Nat),
      GetNextNodes g fuel u out = appendTo out (GetNextNodes g fuel u []) ∧
      GetNextNodes g (fuel + 1) u out =
        appendTo out (concatM (NextSegment g fuel) (ExecLinkedNodes g u)) := by
  have hP : ∀ (fuel u : Nat) (out : List Nat),
      GetNextNodes g fuel u out = appendTo out (GetNextNodes g fuel u []) := by
    intro fuel
    induction fuel with
    | zero =>
      intro u out
      simp [GetNextNodes, appendTo]
    | succ fuel ih =>
      intro u out
      rw [GetNextNodes_succ g fuel ih u out, GetNextNodes_succ g fuel ih u [], appendTo_nil]
  intro fuel u out
  exact ⟨hP fuel u out, GetNextNodes_succ g fuel (hP fuel) u out⟩

/-! ## Budget, membership and termination of `GetNextNodes` -/

theorem IsHub_true {g : UEdGraph} {a : Nat} :
    IsHub g a = true ↔ ∃ n, g.Objects[a]? = some n ∧ n.Class = .Hub := by
  unfold IsHub
  cases g.Objects[a]? with
  | none => simp
  | some n => simp

theorem IsHub_false {g : UEdGraph} {a : Nat} {n : UEdGraphNode} (hn : g.Objects[a]? = some n) :
    IsHub g a = false ↔ n.Class ≠ .Hub := by
  unfold IsHub
  rw [hn]
  simp

theorem ExecLinkedNodes_exists {g : UEdGraph} {a b : Nat} (h : b ∈ ExecLinkedNodes g a) :
    (∃ n, g.Objects[a]? = some n) ∧ ∃ m, g.Objects[b]? = some m := by
  unfold ExecLinkedNodes at h
  cases hn : g.Objects[a]? with
  | none =>
    rw [hn] at h
    simp at h
  | some n =>
    rw [hn] at h
    simp only [List.mem_flatMap, List.mem_filter] at h
    obtain ⟨pin, _, _, hb⟩ := h
    refine ⟨⟨n, rfl⟩, ?_⟩
    cases hm : g.Objects[b]? with
    | none => simp [hm] at hb
    | some m => exact ⟨m, rfl⟩

theorem NextSegment_of_hub {g : UEdGraph} {t : Nat} (fuel : Nat) (h : IsHub g t = true) :
    NextSegment g fuel t = GetNextNodes g fuel t [] := by
  obtain ⟨n, hn, hc⟩ := IsHub_true.mp h
  simp only [NextSegment, hn, hc, if_true]

theorem NextSegment_of_not_hub {g : UEdGraph} {t : Nat} {n : UEdGraphNode} (fuel : Nat)
    (hn : g.Objects[t]? = some n) (h : IsHub g t = false) : NextSegment g fuel t = .ok [t] := by
  have hc := (IsHub_false hn).mp h
  simp only [NextSegment, hn, if_neg hc]

theorem concatM_ok_mono {α : Type} (s s' : α → Except Fault (List Nat)) :
    ∀ (L : List α) (r : List Nat), (∀ a ∈ L, ∀ seg, s a = .ok seg → s' a = .ok seg) →
      concatM s L = .ok r → concatM s' L = .ok r := by
  intro L
  induction L with
  | nil =>
    intro r _ h
    exact h
  | cons a l ih =>
    intro r hs h
    simp only [concatM] at h ⊢
    cases hsa : s a with
    | error e =>
      rw [hsa] at h
      cases h
    | ok seg =>
      rw [hsa] at h
      rw [hs a (List.mem_cons_self _ _) seg hsa]
      simp only at h ⊢
      cases hl : concatM s l with
      | error e =>
        rw [hl] at h
        cases h
      | ok r' =>
        rw [hl] at h
        rw [ih r' (fun a' ha' => hs a' (List.mem_cons_of_mem _ ha')) hl]
        exact h

theorem appendTo_ok {out r : List Nat} {x : Except Fault (List Nat)}
    (h : appendTo out x = .ok r) : ∃ r', x = .ok r' ∧ r = out ++ r' := by
  cases x with
  | error e => cases h
  | ok r' =>
    simp only [appendTo] at h
    cases h
    exact ⟨r', rfl, rfl⟩

/-- A larger recursion budget does not change a result. -/
theorem GetNextNodes_mono (g : UEdGraph) :
    ∀ (fuel u : Nat) (out r : List Nat), GetNextNodes g fuel u out = .ok r →
      GetNextNodes g (fuel + 1) u out = .ok r := by
  intro fuel
  induction fuel with
  | zero =>
    intro u out r h
    simp [GetNextNodes] at h
  | succ fuel ih =>
    intro u out r h
    rw [(GetNextNodes_unfold g fuel u out).2] at h
    rw [(GetNextNodes_unfold g (fuel + 1) u out).2]
    obtain ⟨r', hr', rfl⟩ := appendTo_ok h
    rw [concatM_ok_mono (NextSegment g fuel) (NextSegment g (fuel + 1)) _ r' ?_ hr']
    · rfl
    · intro t _ seg hseg
      unfold NextSegment at hseg ⊢
      cases ht : g.Objects[t]? with
      | none =>
        rw [ht] at hseg
        exact hseg
      | some ln =>
        rw [ht] at hseg
        simp only at hseg ⊢
        split_ifs at hseg ⊢ with hc
        · exact ih _ _ _ hseg
        · exact hseg

theorem GetNextNodes_mono_le (g : UEdGraph) {fuel fuel' : Nat} (hle : fuel ≤ fuel')
    {u : Nat} {out r : List Nat} (h : GetNextNodes g fuel u out = .ok r) :
    GetNextNodes g fuel' u out = .ok r := by
  induction hle with
  | refl => exact h
  | step _ ih => exact GetNextNodes_mono g _ _ _ _ ih

/-- The result of `GetNextNodes` does not depend on the budget. -/
theorem GetNextNodes_det (g : UEdGraph) {fuel fuel' u : Nat} {out r r' : List Nat}
    (h : GetNextNodes g fuel u out = .ok r) (h' : GetNextNodes g fuel' u out = .ok r') :
    r = r' := by
  have h1 := GetNextNodes_mono_le g (Nat.le_max_left fuel fuel') h
  have h2 := GetNextNodes_mono_le g (Nat.le_max_right fuel fuel') h'
  rw [h1] at h2
  cases h2
  rfl

/-- The result of a call with another accumulator. -/
theorem GetNextNodes_out (g : UEdGraph) {fuel u : Nat} {r : List Nat}
    (h : GetNextNodes g fuel u [] = .ok r) (out : List Nat) :
    GetNextNodes g fuel u out = .ok (out ++ r) := by
  rw [(GetNextNodes_unfold g fuel u out).1, h]
  rfl

theorem GetNextNodes_out_inv (g : UEdGraph) {fuel u : Nat} {out r : List Nat}
    (h : GetNextNodes g fuel u out = .ok r) :
    ∃ r', GetNextNodes g fuel u [] = .ok r' ∧ r = out ++ r' := by
  rw [(GetNextNodes_unfold g fuel u out).1] at h
  exact appendTo_ok h

/-- What `GetNextNodes` returns for a node: the non-hub nodes at the end of an
exec link that starts at the node or at a Hub node reached from it through Hub
nodes only. -/
theorem GetNextNodes_mem (g : UEdGraph) :
    ∀ (fuel x : Nat) (r : List Nat), GetNextNodes g fuel x [] = .ok r →
      ∀ c, c ∈ r ↔ ∃ h, Relation.ReflTransGen (HubStep g) x h ∧ c ∈ ExecLinkedNodes g h ∧
        IsHub g c = false := by
  intro fuel
  induction fuel with
  | zero =>
    intro x r h
    simp [GetNextNodes] at h
  | succ fuel ih =>
    intro x r h c
    rw [(GetNextNodes_unfold g fuel x []).2, appendTo_nil] at h
    obtain ⟨hall, hmem⟩ := concatM_mem _ _ _ h
    rw [hmem]
    constructor
    · rintro ⟨t, seg, ht, hseg, hc⟩
      obtain ⟨_, m, hm⟩ := ExecLinkedNodes_exists ht
      cases hhub : IsHub g t with
      | true =>
        rw [NextSegment_of_hub fuel hhub] at hseg
        obtain ⟨h', hpath, hc1, hc2⟩ := (ih t seg hseg c).mp hc
        exact ⟨h', Relation.ReflTransGen.head ⟨ht, hhub⟩ hpath, hc1, hc2⟩
      | false =>
        rw [NextSegment_of_not_hub fuel hm hhub] at hseg
        cases hseg
        simp only [List.mem_singleton] at hc
        subst hc
        exact ⟨x, Relation.ReflTransGen.refl, ht, hhub⟩
    · rintro ⟨h', hpath, hc1, hc2⟩
      rcases Relation.ReflTransGen.cases_head hpath with rfl | ⟨t, ⟨ht, hhub⟩, hrest⟩
      · obtain ⟨_, m, hm⟩ := ExecLinkedNodes_exists hc1
        exact ⟨c, [c], hc1, NextSegment_of_not_hub fuel hm hc2, List.mem_singleton_self c⟩
      · obtain ⟨seg, hseg⟩ := hall t ht
        refine ⟨t, seg, ht, hseg, ?_⟩
        rw [NextSegment_of_hub fuel hhub] at hseg
        exact (ih t seg hseg c).mpr ⟨h', hrest, hc1, hc2⟩

theorem exists_uniform_fuel {α : Type} (Q : Nat → α → Prop)
    (hmono : ∀ F a, Q F a → Q (F + 1) a) :
    ∀ (L : List α), (∀ a ∈ L, ∃ F, Q F a) → ∃ F, ∀ a ∈ L, Q F a := by
  have hle : ∀ (F F' : Nat) (a : α), F ≤ F' → Q F a → Q F' a := by
    intro F F' a h hq
    induction h with
    | refl => exact hq
    | step _ ih => exact hmono _ _ ih
  intro L
  induction L with
  | nil =>
    intro _
    exact ⟨0, by simp⟩
  | cons a l ih =>
    intro h
    obtain ⟨F1, h1⟩ := h a (List.mem_cons_self _ _)
    obtain ⟨F2, h2⟩ := ih (fun a' ha' => h a' (List.mem_cons_of_mem _ ha'))
    refine ⟨max F1 F2, ?_⟩
    intro a' ha'
    rcases List.mem_cons.mp ha' with rfl | ha'
    · exact hle _ _ _ (Nat.le_max_left _ _) h1
    · exact hle _ _ _ (Nat.le_max_right _ _) (h2 a' ha')

/-- The call `GetNextNodes(x)` returns when the Hub nodes reached from `x` through
Hub nodes are well founded. -/
theorem GetNextNodes_terminates (g : UEdGraph) (x : Nat)
    (hacc : Acc (fun b a => HubStep g a b) x) :
    ∃ F r, GetNextNodes g F x [] = .ok r := by
  induction hacc with
  | intro x _ ih =>
    have hseg : ∀ t ∈ ExecLinkedNodes g x, ∃ F, ∃ seg, NextSegment g F t = .ok seg := by
      intro t ht
      obtain ⟨_, m, hm⟩ := ExecLinkedNodes_exists ht
      cases hhub : IsHub g t with
      | true =>
        obtain ⟨F, r, hr⟩ := ih t ⟨ht, hhub⟩
        exact ⟨F, r, by rw [NextSegment_of_hub F hhub, hr]⟩
      | false => exact ⟨0, [t], NextSegment_of_not_hub 0 hm hhub⟩
    obtain ⟨F, hF⟩ := exists_uniform_fuel (fun F t => ∃ seg, NextSegment g F t = .ok seg)
      (by
        rintro F t ⟨seg, hs⟩
        refine ⟨seg, ?_⟩
        unfold NextSegment at hs ⊢
        cases ht : g.Objects[t]? with
        | none =>
          rw [ht] at hs
          exact hs
        | some ln =>
          rw [ht] at hs
          simp only at hs ⊢
          split_ifs at hs ⊢ with hc
          · exact GetNextNodes_mono g _ _ _ _ hs
          · exact hs)
      _ hseg
    obtain ⟨r, hr⟩ := concatM_ok _ _ hF
    exact ⟨F + 1, r, by rw [(GetNextNodes_unfold g F x []).2, appendTo_nil, hr]⟩

/-- In a relation whose targets lie below `N`, a point from which no cycle is
reachable is accessible. -/
theorem acc_of_no_cycle {R : Nat → Nat → Prop} (N : Nat) (hR : ∀ a b, R a b → b < N) (n : Nat)
    (h : ∀ x, Relation.ReflTransGen R n x → ¬ Relation.TransGen R x x) :
    Acc (fun b a => R a b) n := by
  let S : Fin N → Fin N → Prop := fun b a =>
    Relation.TransGen R a.val b.val ∧ Relation.ReflTransGen R n a.val
  have htrans : IsTrans (Fin N) S :=
    ⟨fun c b a hcb hba => ⟨Relation.TransGen.trans hba.1 hcb.1, hba.2⟩⟩
  have hirr : IsIrrefl (Fin N) S := ⟨fun a ha => h a.val ha.2 ha.1⟩
  have wf : WellFounded S := Finite.wellFounded_of_trans_of_irrefl S
  have key : ∀ a : Fin N, Relation.ReflTransGen R n a.val → Acc (fun b a => R a b) a.val := by
    intro a
    induction a using wf.induction with
    | _ a ih =>
      intro hreach
      refine Acc.intro _ ?_
      intro b hab
      exact ih ⟨b, hR _ _ hab⟩ ⟨Relation.TransGen.single hab, hreach⟩
        (Relation.ReflTransGen.tail hreach hab)
  refine Acc.intro _ ?_
  intro b hnb
  exact key ⟨b, hR _ _ hnb⟩ (Relation.ReflTransGen.single hnb)

/-! ## C12: `GetNextNodes` walks through hubs -/

theorem HubStep_lt_length {g : UEdGraph} (a b : Nat) (h : HubStep g a b) :
    b < g.Objects.length := by
  obtain ⟨_, m, hm⟩ := ExecLinkedNodes_exists h.1
  exact (List.getElem?_eq_some.mp hm).1

theorem NextNodes_of_ok (g : UEdGraph) {fuel n : Nat} {r : List Nat}
    (h : GetNextNodes g fuel n [] = .ok r) : NextNodes g n r :=
  ⟨fuel, fun _ hle out => GetNextNodes_out g (GetNextNodes_mono_le g hle h) out⟩

/-- C12: `GetNextNodes` walks the node graph through hubs.  For a node `n` from
which no cycle of Hub nodes is reachable, the call returns (for every large
enough recursion budget and every accumulator) the accumulator extended by a
list `r` that does not depend on the budget.  `r` is the concatenation, in pin
order then link order, of one segment per owning node `t` of a pin linked to an
output `PC_Exec` pin of `n`: the segment is `[t]` when `t` is not a Hub node and
the result of `GetNextNodes` on `t` when it is.  `r` holds no Hub node, and its
members are exactly the non-hub nodes at the end of a chain of links of output
`PC_Exec` pins that starts at `n` and passes through Hub nodes only; links of
other pins are not followed. -/
theorem GetNextNodes_walks_through_hubs (g : UEdGraph) (n : Nat)
    (hacyc : ∀ h, Relation.ReflTransGen (HubStep g) n h → ¬ Relation.TransGen (HubStep g) h h) :
    ∃ (r : List Nat) (segs : List (List Nat)),
      NextNodes g n r ∧
      (∀ fuel out r', GetNextNodes g fuel n out = .ok r' → r' = out ++ r) ∧
      List.Forall₂ (fun t seg => if IsHub g t = true then NextNodes g t seg else seg = [t])
        (ExecLinkedNodes g n) segs ∧
      r = segs.flatten ∧
      (∀ c ∈ r, IsHub g c = false) ∧
      (∀ c, c ∈ r ↔ ∃ h, Relation.ReflTransGen (HubStep g) n h ∧ c ∈ ExecLinkedNodes g h ∧
        IsHub g c = false) := by
  have hacc := acc_of_no_cycle g.Objects.length HubStep_lt_length n hacyc
  obtain ⟨F, r, hr⟩ := GetNextNodes_terminates g n hacc
  have hmem := GetNextNodes_mem g F n r hr
  cases F with
  | zero => simp [GetNextNodes] at hr
  | succ F =>
    have hr' := hr
    rw [(GetNextNodes_unfold g F n []).2, appendTo_nil] at hr'
    obtain ⟨segs, hsegs, hflat⟩ := concatM_segments _ _ _ hr'
    refine ⟨r, segs, NextNodes_of_ok g hr, ?_, ?_, hflat, ?_, hmem⟩
    · intro fuel out r' h'
      obtain ⟨r'', h'', rfl⟩ := GetNextNodes_out_inv g h'
      rw [GetNextNodes_det g h'' hr]
    · refine hsegs.imp ?_
      rintro t seg ⟨ht, hseg⟩
      obtain ⟨_, m, hm⟩ := ExecLinkedNodes_exists ht
      cases hhub : IsHub g t with
      | true =>
        rw [NextSegment_of_hub F hhub] at hseg
        simpa using NextNodes_of_ok g hseg
      | false =>
        rw [NextSegment_of_not_hub F hm hhub] at hseg
        cases hseg
        simp
    · intro c hc
      obtain ⟨_, _, _, h3⟩ := (hmem c).mp hc
      exact h3

/-! ## The sample graph has no exec cycle -/

theorem sampleGraph_ExecLink_lt (a b : Nat) (h : ExecLink sampleGraph a b) : a < b := by
  have key : ∀ a < 6, ∀ b ∈ ExecLinkedNodes sampleGraph a, a < b := by decide
  obtain ⟨⟨n, hn⟩, _⟩ := ExecLinkedNodes_exists h
  exact key a (List.getElem?_eq_some.mp hn).1 b h

theorem sampleGraph_TransGen_lt (a b : Nat) (h : Relation.TransGen (ExecLink sampleGraph) a b) :
    a < b := by
  induction h with
  | single h => exact sampleGraph_ExecLink_lt _ _ h
  | tail _ h ih => exact lt_trans ih (sampleGraph_ExecLink_lt _ _ h)

theorem sampleGraph_acyclic (x : Nat) : ¬ Relation.TransGen (ExecLink sampleGraph) x x :=
  fun h => lt_irrefl _ (sampleGraph_TransGen_lt x x h)

theorem sampleGraph_no_hub_cycle (n h : Nat)
    (_ : Relation.ReflTransGen (HubStep sampleGraph) n h) :
    ¬ Relation.TransGen (HubStep sampleGraph) h h :=
  fun hc => sampleGraph_acyclic h (Relation.TransGen.mono (fun _ _ hs => hs.1) hc)

theorem GetNextNodes_walks_through_hubs_witness :
    (∀ h, Relation.ReflTransGen (HubStep sampleGraph) 1 h →
      ¬ Relation.TransGen (HubStep sampleGraph) h h) ∧
    GetNextNodes sampleGraph 2 1 [] = .ok [3, 4] ∧
    ∃ (r : List Nat) (segs : List (List Nat)),
      NextNodes sampleGraph 1 r ∧
      (∀ fuel out r', GetNextNodes sampleGraph fuel 1 out = .ok r' → r' = out ++ r) ∧
      List.Forall₂
        (fun t seg => if IsHub sampleGraph t = true then NextNodes sampleGraph t seg else seg = [t])
        (ExecLinkedNodes sampleGraph 1) segs ∧
      r = segs.flatten ∧
      (∀ c ∈ r, IsHub sampleGraph c = false) ∧
      (∀ c, c ∈ r ↔ ∃ h, Relation.ReflTransGen (HubStep sampleGraph) 1 h ∧
        c ∈ ExecLinkedNodes sampleGraph h ∧ IsHub sampleGraph c = false) :=
  ⟨sampleGraph_no_hub_cycle 1, by decide,
    GetNextNodes_walks_through_hubs sampleGraph 1 (sampleGraph_no_hub_cycle 1)⟩

/-! ## The angle loop in double arithmetic -/

end InputSequence
